import Mathlib

/-!
# Gallery management script (`static/gallery.js`)

A shallow embedding of the two DOM event listeners of `static/gallery.js`:

* the click listener of the gallery preview (lines 6-27), which records the
  removal of an already stored gallery image, and
* the change listener of the file input (lines 33-70), which previews the
  selected files.

The document is a forest of elements.  Every element carries a node reference
(`ref`), which is what a JavaScript variable holding the element denotes; the
closures of the script (`galleryItem` inside the timer callback,
`previewContainer` inside `reader.onload`) capture such references.  The script
never re-inserts a node it has detached, so only the attached tree is kept: a
mutation of a detached node leaves the document as it is.

Tag names and the values of `type` are kept in lower case, as the selectors
`form` and `input[type="hidden"]` compare them without regard to case.
The children of a `template` element are its own child nodes; the template
contents live outside the tree and no selector reaches them.

The file has three parts: the model (data, DOM primitives, listeners, event
loop, sample page), lemmas on the DOM primitives, and the claims `C1` to `C10`.
-/

namespace Gallery

/-! ## Data model -/

/-- An element: node reference, tag name, class list, content attributes in
insertion order, the inline `style.opacity` and the text content. -/
structure Elem where
  ref : Nat
  tag : String
  classes : List String
  attrs : List (String × String)
  opacity : Option String
  text : String
deriving DecidableEq, Repr

/-- A sibling list of elements: `node e kids rest` is the element `e` with the
children `kids`, followed by its next siblings `rest`.  A document is the
sibling list below the `document` node. -/
inductive Forest where
  | nil
  | node (elem : Elem) (kids : Forest) (rest : Forest)
deriving DecidableEq, Repr

/-- A selected file: name, declared MIME type, and the data URL that
`readAsDataURL` yields for it when the read succeeds. -/
structure File where
  name : String
  type : String
  dataUrl : String
deriving DecidableEq, Repr

/-- A started `FileReader`: the file being read and the reference of the
`previewContainer` captured by its `onload` closure. -/
structure PendingRead where
  file : File
  container : Nat
deriving DecidableEq, Repr

/-- The exceptions the DOM calls of the script can raise. -/
inductive Exn where
  | typeError
  | hierarchyRequestError
deriving DecidableEq, Repr

/-- The page state: attached document, the reference handed to the next created
element, the gallery items awaiting their `setTimeout` removal (oldest first),
the file reads in flight, and the two elements looked up at `DOMContentLoaded`. -/
structure State where
  doc : Forest
  nextRef : Nat
  timers : List Nat
  reads : List PendingRead
  galleryPreview : Option Nat
  galleryInput : Option Nat
deriving DecidableEq, Repr

/-! ## DOM primitives -/

namespace Elem

/-- Value of a content attribute (`getAttribute`). -/
def attr (e : Elem) (k : String) : Option String :=
  (e.attrs.find? (fun p => p.1 == k)).map Prod.snd

/-- Membership in the class list (`classList.contains`). -/
def hasClass (e : Elem) (c : String) : Bool :=
  e.classes.contains c

/-- The element `e` itself after `e.innerHTML = ''`: its text is gone, except for
a `template`, whose own child nodes the assignment does not touch (it empties
the template contents, which are not part of the tree). -/
def cleared (e : Elem) : Elem :=
  if e.tag == "template" then e else { e with text := "" }

/-- The number of elements that `e.innerHTML = ''` creates: the `head` and the
`body` that the fragment parser inserts when its context is an `html` element. -/
def emptiedCount (e : Elem) : Nat :=
  if e.tag == "html" then 2 else 0

/-- Assignment `style.opacity = v` on the element `x`, seen from `e`. -/
def setOpacityAt (x : Nat) (v : String) (e : Elem) : Elem :=
  if e.ref = x then { e with opacity := some v } else e

end Elem

namespace Forest

/-- Concatenation of sibling lists. -/
def append : Forest → Forest → Forest
  | nil, g => g
  | node e k r, g => node e k (append r g)

/-- The elements of a forest in document order. -/
def elems : Forest → List Elem
  | nil => []
  | node e k r => e :: (elems k ++ elems r)

/-- The node references of a forest in document order. -/
def refs (f : Forest) : List Nat :=
  f.elems.map Elem.ref

/-- The members of a sibling list, each with its children. -/
def children : Forest → List (Elem × Forest)
  | nil => []
  | node e k r => (e, k) :: children r

/-- The direct children of a sibling list, as elements. -/
def roots : Forest → List Elem
  | nil => []
  | node e _ r => e :: roots r

/-- First element in document order satisfying `p`, with its children
(`querySelector`). -/
def querySelector (p : Elem → Bool) : Forest → Option (Elem × Forest)
  | nil => none
  | node e k r =>
    if p e then some (e, k)
    else match querySelector p k with
      | some x => some x
      | none => querySelector p r

/-- The element with reference `x`, with its children. -/
def getByRef (x : Nat) (f : Forest) : Option (Elem × Forest) :=
  f.querySelector (fun e => e.ref == x)

/-- Nearest inclusive ancestor of the element `t` satisfying `p`
(`Element.closest`).  The outer option is `none` when `t` is not in the forest;
`anc` is the nearest match among the ancestors above the forest. -/
def closestFrom (p : Elem → Bool) (t : Nat) (anc : Option (Elem × Forest)) :
    Forest → Option (Option (Elem × Forest))
  | nil => none
  | node e k r =>
    if e.ref = t then some (if p e then some (e, k) else anc)
    else match closestFrom p t (if p e then some (e, k) else anc) k with
      | some res => some res
      | none => closestFrom p t anc r

/-- Application of `closest` to an element of the document. -/
def closest (p : Elem → Bool) (t : Nat) (f : Forest) : Option (Elem × Forest) :=
  (closestFrom p t none f).join

/-- The parent of the element `x` (`parentNode`): `none` when `x` is not in the
forest, `some par` when it is a root of the forest, `some (some q)` when its
parent is the element `q`. -/
def parentFrom (x : Nat) (par : Option Nat) : Forest → Option (Option Nat)
  | nil => none
  | node e k r =>
    if e.ref = x then some par
    else match parentFrom x (some e.ref) k with
      | some res => some res
      | none => parentFrom x par r

/-- The parent of `x` in a document, whose roots are children of the `document`
node (`some none`). -/
def parentNode (x : Nat) (f : Forest) : Option (Option Nat) :=
  parentFrom x none f

/-- Detach the element `x` with its subtree (`ChildNode.remove`). -/
def removeRef (x : Nat) : Forest → Forest
  | nil => nil
  | node e k r =>
    if e.ref = x then removeRef x r
    else node e (removeRef x k) (removeRef x r)

/-- Append the new subtree `sub` as last child of the element `x`
(`appendChild`). -/
def appendChild (x : Nat) (sub : Forest) : Forest → Forest
  | nil => nil
  | node e k r =>
    node e (if e.ref = x then append (appendChild x sub k) sub else appendChild x sub k)
      (appendChild x sub r)

/-- Insert the new subtree `sub` right before the element `x`, under the parent
of `x` (`parentNode.insertBefore(sub, x)`). -/
def insertBefore (x : Nat) (sub : Forest) : Forest → Forest
  | nil => nil
  | node e k r =>
    if e.ref = x then append sub (node e (insertBefore x sub k) (insertBefore x sub r))
    else node e (insertBefore x sub k) (insertBefore x sub r)

/-- The children of the element `e`, which had the children `kids`, after
`e.innerHTML = ''`: none; except below an `html` element, where the fragment
parser starts before the head and, at the end of the empty input, has inserted
an empty `head` and an empty `body`; and except below a `template`, whose own
children stay. -/
def emptied (e : Elem) (kids : Forest) (fresh : Nat) : Forest :=
  if e.tag == "template" then kids
  else if e.tag == "html" then
    node { ref := fresh, tag := "head", classes := [], attrs := [], opacity := none, text := "" }
      nil
      (node { ref := fresh + 1, tag := "body", classes := [], attrs := [], opacity := none,
              text := "" } nil nil)
  else nil

/-- The assignment `innerHTML = ''` on the element `x`; the elements it creates
get the references from `fresh` on. -/
def clearKids (x : Nat) (fresh : Nat) : Forest → Forest
  | nil => nil
  | node e k r =>
    if e.ref = x then node e.cleared (emptied e k fresh) (clearKids x fresh r)
    else node e (clearKids x fresh k) (clearKids x fresh r)

/-- Set the inline opacity of the element `x` (`style.opacity = v`). -/
def setOpacity (x : Nat) (v : String) : Forest → Forest
  | nil => nil
  | node e k r =>
    node (e.setOpacityAt x v) (setOpacity x v k) (setOpacity x v r)

/-- The element right before `x` among its siblings (`previousSibling`). -/
def prevSibling (x : Nat) (prev : Option Elem) : Forest → Option (Option Elem)
  | nil => none
  | node e k r =>
    if e.ref = x then some prev
    else match prevSibling x none k with
      | some res => some res
      | none => prevSibling x (some e) r

/-- The element right after `x` among its siblings (`nextSibling`). -/
def nextSibling (x : Nat) : Forest → Option (Option Elem)
  | nil => none
  | node e k r =>
    if e.ref = x then some (roots r).head?
    else match nextSibling x k with
      | some res => some res
      | none => nextSibling x r

end Forest

/-! ## Selectors used by the script -/

/-- Selector `.gallery-preview`. -/
def isGalleryPreview (e : Elem) : Bool := e.hasClass "gallery-preview"

/-- Selector `.gallery-item`. -/
def isGalleryItem (e : Elem) : Bool := e.hasClass "gallery-item"

/-- Selector `.upload-preview`. -/
def isUploadPreview (e : Elem) : Bool := e.hasClass "upload-preview"

/-- Selector `.upload-count`. -/
def isUploadCount (e : Elem) : Bool := e.hasClass "upload-count"

/-- Selector `input[type="hidden"]`. -/
def isHiddenInput (e : Elem) : Bool :=
  e.tag == "input" && e.attr "type" == some "hidden"

/-- Selector `form`. -/
def isForm (e : Elem) : Bool := e.tag == "form"

/-- Lookup `getElementById('gallery_images')`. -/
def isGalleryImagesInput (e : Elem) : Bool := e.attr "id" == some "gallery_images"

/-- A hidden input named `removed_gallery_images`. -/
def isRemovedMarker (e : Elem) : Bool :=
  isHiddenInput e && e.attr "name" == some "removed_gallery_images"

/-- Test `file.type.startsWith('image/')`. -/
def isImageFile (f : File) : Bool := "image/".data.isPrefixOf f.type.data

/-! ## Elements created by the script -/

/-- The `removedInput` of lines 15-18. -/
def removedInput (ref : Nat) (filename : String) : Elem :=
  { ref := ref, tag := "input", classes := [],
    attrs := [("type", "hidden"), ("name", "removed_gallery_images"), ("value", filename)],
    opacity := none, text := "" }

/-- The `previewContainer` of lines 37-38. -/
def newPreviewContainer (ref : Nat) : Elem :=
  { ref := ref, tag := "div", classes := ["gallery-preview", "upload-preview"],
    attrs := [], opacity := none, text := "" }

/-- The `previewItem` of lines 50-51. -/
def previewItem (ref : Nat) : Elem :=
  { ref := ref, tag := "div", classes := ["gallery-item"], attrs := [],
    opacity := none, text := "" }

/-- The `img` of lines 53-55. -/
def previewImg (ref : Nat) (src : String) : Elem :=
  { ref := ref, tag := "img", classes := [], attrs := [("src", src), ("alt", "Preview")],
    opacity := none, text := "" }

/-- The template literal of line 67. -/
def countLabel (n : Nat) : String :=
  toString n ++ " image" ++ (if n > 1 then "s" else "") ++ " selected"

/-- The `countText` of lines 65-67. -/
def countText (ref : Nat) (n : Nat) : Elem :=
  { ref := ref, tag := "p", classes := ["upload-count"], attrs := [],
    opacity := none, text := countLabel n }

/-! ## The listeners -/

/-- The click listener of lines 6-27, run with `e.target = t`.  The result is the
state when the listener returns or throws, and the exception thrown if any.
An uncaught exception ends the listener; what it has done before stays done.
A target that is not attached to the document receives no click. -/
def clickHandler (s : State) (t : Nat) : State × Option Exn :=
  match s.doc.getByRef t with
  | none => (s, none)
  | some (target, _) =>
    if target.hasClass "remove-image" then
      let filename := (target.attr "data-filename").getD "undefined"
      match s.doc.closest isGalleryItem t with
      | none => (s, some Exn.typeError)
      | some (galleryItem, itemKids) =>
        match itemKids.querySelector isHiddenInput with
        | none => (s, some Exn.typeError)
        | some (hidden, _) =>
          let d1 := s.doc.removeRef hidden.ref
          let s1 := { s with doc := d1, nextRef := s.nextRef + 1 }
          match d1.querySelector isForm with
          | none => (s1, some Exn.typeError)
          | some (form, _) =>
            let marker := Forest.node (removedInput s.nextRef filename) Forest.nil Forest.nil
            let d2 := Forest.appendChild form.ref marker d1
            let d3 := d2.setOpacity galleryItem.ref "0"
            ({ s1 with doc := d3, timers := s.timers ++ [galleryItem.ref] }, none)
    else (s, none)

/-- The timer callback of lines 23-25 for the oldest pending timer. -/
def timerFire (s : State) : State :=
  match s.timers with
  | [] => s
  | g :: rest => { s with doc := s.doc.removeRef g, timers := rest }

/-- Lines 46-69 of the change listener, after `previewContainer` is settled. -/
def changeTail (s : State) (container : Nat) (files : List File) : State × Option Exn :=
  let s2 := { s with
    reads := s.reads ++ (files.filter isImageFile).map (fun f => PendingRead.mk f container) }
  if files.length > 0 then
    let s3 := { s2 with nextRef := s2.nextRef + 1 }
    match s2.doc.parentNode container with
    | none => (s3, some Exn.typeError)
    | some none => (s3, some Exn.hierarchyRequestError)
    | some (some _) =>
      let label := Forest.node (countText s2.nextRef files.length) Forest.nil Forest.nil
      ({ s3 with doc := Forest.insertBefore container label s2.doc }, none)
  else (s2, none)

/-- The change listener of lines 33-70 on the input `input` whose `files` are
`files`. -/
def changeHandler (s : State) (input : Nat) (files : List File) : State × Option Exn :=
  match s.doc.querySelector isUploadPreview with
  | none =>
    let s1 := { s with nextRef := s.nextRef + 1 }
    match s.doc.parentNode input with
    | none => (s1, some Exn.typeError)
    | some none => (s1, some Exn.hierarchyRequestError)
    | some (some par) =>
      let created := Forest.node (newPreviewContainer s.nextRef) Forest.nil Forest.nil
      changeTail { s1 with doc := Forest.appendChild par created s.doc } s.nextRef files
  | some (previewContainer, _) =>
    let s1 := { s with
      doc := s.doc.clearKids previewContainer.ref s.nextRef
      nextRef := s.nextRef + previewContainer.emptiedCount }
    changeTail s1 previewContainer.ref files

/-- The `onload` callback of lines 49-59 for a finished read. -/
def readerOnload (s : State) (r : PendingRead) : State :=
  let img := Forest.node (previewImg (s.nextRef + 1) r.file.dataUrl) Forest.nil Forest.nil
  let item := Forest.node (previewItem s.nextRef) img Forest.nil
  { s with doc := Forest.appendChild r.container item s.doc, nextRef := s.nextRef + 2 }

/-- The `DOMContentLoaded` listener of lines 2-72: the two lookups. -/
def init (doc : Forest) (nextRef : Nat) : State :=
  { doc := doc, nextRef := nextRef, timers := [], reads := []
    galleryPreview := (doc.querySelector isGalleryPreview).map (fun x => x.1.ref)
    galleryInput := (doc.querySelector isGalleryImagesInput).map (fun x => x.1.ref) }

/-! ## The event loop -/

/-- The events after `DOMContentLoaded`: a click on an element, a change of the
file input's selection, the oldest timer firing, the `i`-th read in flight
succeeding or failing. -/
inductive Event where
  | click (target : Nat)
  | change (files : List File)
  | timer
  | loaded (i : Nat)
  | failed (i : Nat)
deriving DecidableEq, Repr

/-- Whether a click on `t` bubbles to the element `g`: `g` is `t` or an ancestor
of `t` in the document. -/
def inside (doc : Forest) (g t : Nat) : Bool :=
  (doc.closest (fun e => e.ref == g) t).isSome

/-- One turn of the event loop.  A click reaches the click listener when its
target is attached inside the gallery preview; a change reaches the change
listener when the file input is attached.  An exception ends the listener and
keeps what it had done. -/
def step (s : State) : Event → State
  | Event.click t =>
    match s.galleryPreview with
    | none => s
    | some g => if inside s.doc g t then (clickHandler s t).1 else s
  | Event.change files =>
    match s.galleryInput with
    | none => s
    | some i => if (s.doc.getByRef i).isSome then (changeHandler s i files).1 else s
  | Event.timer => timerFire s
  | Event.loaded i =>
    match s.reads.get? i with
    | none => s
    | some r => readerOnload { s with reads := s.reads.eraseIdx i } r
  | Event.failed i => { s with reads := s.reads.eraseIdx i }

/-- A run of the event loop. -/
def run (s : State) (evs : List Event) : State :=
  evs.foldl step s

namespace Forest

/-- Every element of a forest paired with its children, in document order. -/
def subtrees : Forest → List (Elem × Forest)
  | nil => []
  | node e k r => (e, k) :: (subtrees k ++ subtrees r)

/-- The element `y` is the element `x` or one of its descendants. -/
def Within (x y : Nat) (f : Forest) : Prop :=
  ∃ n ∈ f.subtrees, n.1.ref = x ∧ (y = x ∨ y ∈ n.2.refs)

/-- What `removeRef x` does to a subtree that survives it. -/
def rmSub (x : Nat) (n : Elem × Forest) : Elem × Forest :=
  (n.1, removeRef x n.2)

/-- What `appendChild x sub` does to a subtree. -/
def acSub (x : Nat) (sub : Forest) (n : Elem × Forest) : Elem × Forest :=
  (n.1, if n.1.ref = x then append (appendChild x sub n.2) sub else appendChild x sub n.2)

/-- What `setOpacity x v` does to a subtree. -/
def opSub (x : Nat) (v : String) (n : Elem × Forest) : Elem × Forest :=
  (n.1.setOpacityAt x v, setOpacity x v n.2)

/-- What `innerHTML = ''` leaves of the element it is applied to. -/
def clearSub (fresh : Nat) (n : Elem × Forest) : Elem × Forest :=
  (n.1.cleared, emptied n.1 n.2 fresh)

/-- What `insertBefore x sub` does to a subtree. -/
def ibSub (x : Nat) (sub : Forest) (n : Elem × Forest) : Elem × Forest :=
  (n.1, insertBefore x sub n.2)

end Forest

/-- Node references are distinct and below the next reference to hand out. -/
def State.WF (s : State) : Prop :=
  s.doc.refs.Nodup ∧ ∀ r ∈ s.doc.refs, r < s.nextRef

instance (s : State) : Decidable s.WF := by
  unfold State.WF; infer_instance

/-! ## A sample edit page -/

/-- An element as the HTML parser builds it. -/
def el (ref : Nat) (tag : String) (classes : List String) (attrs : List (String × String)) :
    Elem :=
  { ref := ref, tag := tag, classes := classes, attrs := attrs, opacity := none, text := "" }

/-- A childless element followed by its siblings. -/
def leaf (e : Elem) (rest : Forest) : Forest := Forest.node e Forest.nil rest

/-- The first gallery item of the sample page: image `x.jpg`. -/
def sampleItemX : Forest :=
  leaf (el 6 "img" [] [("src", "x.jpg")])
    (leaf (el 7 "input" [] [("type", "hidden"), ("name", "gallery_images"), ("value", "x.jpg")])
      (Forest.node (el 8 "button" ["remove-image"] [("data-filename", "x.jpg")])
        (leaf (el 9 "span" [] []) Forest.nil) Forest.nil))

/-- The second gallery item of the sample page: image `y.jpg`. -/
def sampleItemY : Forest :=
  leaf (el 11 "input" [] [("type", "hidden"), ("name", "gallery_images"), ("value", "y.jpg")])
    (leaf (el 12 "button" ["remove-image"] [("data-filename", "y.jpg")]) Forest.nil)

/-- The gallery of the sample page. -/
def sampleGallery : Forest :=
  Forest.node (el 5 "div" ["gallery-item"] []) sampleItemX
    (Forest.node (el 10 "div" ["gallery-item"] []) sampleItemY Forest.nil)

/-- The upload field of the sample page: the file input and a submit button. -/
def sampleField : Forest :=
  leaf (el 14 "input" [] [("type", "file"), ("id", "gallery_images")])
    (leaf (el 15 "button" [] [("type", "submit")]) Forest.nil)

/-- The content of the form of the sample page. -/
def sampleFormKids : Forest :=
  Forest.node (el 4 "div" ["gallery-preview"] []) sampleGallery
    (Forest.node (el 13 "div" ["field"] []) sampleField Forest.nil)

/-- The body of the sample page, with or without the surrounding form. -/
def sampleBody (withForm : Bool) : Forest :=
  Forest.node (el 3 (if withForm then "form" else "div") [] []) sampleFormKids Forest.nil

/-- The sample page. -/
def samplePage (withForm : Bool) : Forest :=
  Forest.node (el 1 "html" [] [])
    (Forest.node (el 2 "body" [] []) (sampleBody withForm) Forest.nil) Forest.nil

/-- The sample page after `DOMContentLoaded`. -/
def sampleState : State := init (samplePage true) 16

/-- The sample page without a form, after `DOMContentLoaded`. -/
def formlessState : State := init (samplePage false) 16

/-- An image file. -/
def aPng : File := ⟨"a.png", "image/png", "data:image/png;base64,QQ=="⟩

/-- A text file. -/
def bTxt : File := ⟨"b.txt", "text/plain", "data:text/plain;base64,Qg=="⟩

/-- Another image file. -/
def cJpg : File := ⟨"c.jpg", "image/jpeg", "data:image/jpeg;base64,Qw=="⟩

/-- The `previewContainer` the change listener works on: the first element with
class `upload-preview`, or else the element it creates. -/
def previewContainerRef (s : State) : Nat :=
  match s.doc.querySelector isUploadPreview with
  | some (c, _) => c.ref
  | none => s.nextRef

/-- The preview container with its children right after the change listener
has settled it: the first element with class `upload-preview` after
`innerHTML = ''`, or else the new container, which has no child. -/
def previewContainerAfterChange (s : State) : Elem × Forest :=
  match s.doc.querySelector isUploadPreview with
  | some n => Forest.clearSub s.nextRef n
  | none => (newPreviewContainer s.nextRef, Forest.nil)

/-- The sample page once the preview of `a.png` is shown. -/
def previewedState : State := run sampleState [Event.change [aPng], Event.loaded 0]

/-- A page whose remove control stands outside every gallery item. -/
def strayControlState : State :=
  init (Forest.node (el 1 "html" [] [])
    (Forest.node (el 2 "body" [] [])
      (Forest.node (el 3 "form" [] [])
        (Forest.node (el 4 "div" ["gallery-preview"] [])
          (leaf (el 5 "button" ["remove-image"] [("data-filename", "z.jpg")]) Forest.nil)
          Forest.nil)
        Forest.nil)
      Forest.nil)
    Forest.nil) 6

/-- A page whose gallery item holds an image and a remove control, but no hidden
input. -/
def bareItemState : State :=
  init (Forest.node (el 1 "html" [] [])
    (Forest.node (el 2 "body" [] [])
      (Forest.node (el 3 "form" [] [])
        (Forest.node (el 4 "div" ["gallery-preview"] [])
          (Forest.node (el 5 "div" ["gallery-item"] [])
            (leaf (el 6 "img" [] [("src", "z.jpg")])
              (leaf (el 7 "button" ["remove-image"] [("data-filename", "z.jpg")]) Forest.nil))
            Forest.nil)
          Forest.nil)
        Forest.nil)
      Forest.nil)
    Forest.nil) 8

/-- A page whose root element carries the class `upload-preview`. -/
def rootPreviewState : State :=
  init (Forest.node (el 1 "html" ["upload-preview"] [])
    (Forest.node (el 2 "body" [] [])
      (Forest.node (el 3 "form" [] [])
        (leaf (el 4 "input" [] [("type", "file"), ("id", "gallery_images")]) Forest.nil)
        Forest.nil)
      Forest.nil)
    Forest.nil) 5

/-- A page whose first element of class `upload-preview` is a `template` to
which a script has appended a `span`. -/
def templatePreviewState : State :=
  init (Forest.node (el 1 "html" [] [])
    (Forest.node (el 2 "body" [] [])
      (Forest.node (el 3 "form" [] [])
        (leaf (el 4 "input" [] [("type", "file"), ("id", "gallery_images")])
          (Forest.node (el 5 "template" ["upload-preview"] [])
            (leaf (el 6 "span" [] []) Forest.nil) Forest.nil))
        Forest.nil)
      Forest.nil)
    Forest.nil) 7

/-- The preview items that `reader.onload` builds for the files `fs`, one after
the other, the first element getting the reference `start`. -/
def previewItems (start : Nat) : List File → Forest
  | [] => Forest.nil
  | f :: fs =>
    Forest.node (previewItem start)
      (Forest.node (previewImg (start + 1) f.dataUrl) Forest.nil Forest.nil)
      (previewItems (start + 2) fs)

/-- The events `evs` are the successful completions, in some order, of the `n`
reads that stand behind the first `base` reads in flight. -/
def completesNew (base : Nat) : Nat → List Event → Bool
  | 0, [] => true
  | n + 1, Event.loaded i :: evs =>
    decide (base ≤ i) && decide (i < base + (n + 1)) && completesNew base n evs
  | _, _ => false

/-- One removal: the clicked control, its gallery item with the item's
children, the hidden input of the item, and the filename of the control. -/
structure Removal where
  target : Nat
  control : Elem
  item : Elem
  itemKids : Forest
  hidden : Elem
  filename : String

/-- The references of the gallery item of a removal and of its descendants. -/
def Removal.refs (c : Removal) : List Nat :=
  c.item.ref :: c.itemKids.refs

/-- The removal `c` describes the document `d`: its target is a remove control
with the filename, inside the gallery preview `g`, whose nearest gallery item
holds exactly one hidden input, a childless one. -/
def Removal.Ready (d : Forest) (g : Nat) (c : Removal) : Prop :=
  (d.getByRef c.target).map Prod.fst = some c.control
  ∧ c.control.hasClass "remove-image" = true
  ∧ c.control.attr "data-filename" = some c.filename
  ∧ d.closest isGalleryItem c.target = some (c.item, c.itemKids)
  ∧ c.itemKids.elems.filter isHiddenInput = [c.hidden]
  ∧ (c.hidden, Forest.nil) ∈ c.itemKids.subtrees
  ∧ inside d g c.target = true

instance (d : Forest) (g : Nat) (c : Removal) : Decidable (c.Ready d g) := by
  unfold Removal.Ready; infer_instance

/-- The markers that successive removals append, the first one getting the
reference `start`. -/
def markersFrom (start : Nat) : List String → List Elem
  | [] => []
  | f :: fs => removedInput start f :: markersFrom (start + 1) fs

/-- The events `evs` are clicks on the targets `ts`, in this order, with timer
firings anywhere in between. -/
def isRemovalRun : List Nat → List Event → Bool
  | ts, Event.timer :: evs => isRemovalRun ts evs
  | t :: ts, Event.click u :: evs => t == u && isRemovalRun ts evs
  | [], [] => true
  | _, _ => false

/-- The first removal of the sample page. -/
def removalX : Removal :=
  { target := 8, control := el 8 "button" ["remove-image"] [("data-filename", "x.jpg")],
    item := el 5 "div" ["gallery-item"] [], itemKids := sampleItemX,
    hidden := el 7 "input" [] [("type", "hidden"), ("name", "gallery_images"), ("value", "x.jpg")],
    filename := "x.jpg" }

/-- The second removal of the sample page. -/
def removalY : Removal :=
  { target := 12, control := el 12 "button" ["remove-image"] [("data-filename", "y.jpg")],
    item := el 10 "div" ["gallery-item"] [], itemKids := sampleItemY,
    hidden := el 11 "input" [] [("type", "hidden"), ("name", "gallery_images"), ("value", "y.jpg")],
    filename := "y.jpg" }

/-- What holds of the page `σ` reached from `s` when the removals `done` have
been clicked and the removals `todo` are still to come: the form holds the
markers of `done`, the controls of `todo` are as they were, every gallery item
has kept within its original references, the pending timers are those of
`done`, and what lies outside the gallery items is still there. -/
structure RemovalInv (s : State) (g : Nat) (F : Elem) (cs done todo : List Removal)
    (σ : State) : Prop where
  wf : σ.WF
  next : σ.nextRef = s.nextRef + done.length
  preview : σ.galleryPreview = some g
  form : ∃ fk, σ.doc.querySelector isForm = some (F, fk)
    ∧ fk.elems.filter isRemovedMarker = markersFrom s.nextRef (done.map Removal.filename)
  ready : ∀ c ∈ todo, c.Ready σ.doc g
  within : ∀ c ∈ cs, ∀ y, Forest.Within c.item.ref y σ.doc → y ∈ c.refs
  timers : ∀ x ∈ σ.timers, ∃ c ∈ done, x = c.item.ref
  kept : ∀ e ∈ s.doc.elems, (∀ c ∈ cs, e.ref ∉ c.refs) → e ∈ σ.doc.elems
  gone : ∀ c ∈ done, c.hidden.ref ∉ σ.doc.refs

/-! ## Lemmas on the DOM primitives -/

namespace Forest

@[simp] theorem elems_nil : elems nil = [] := rfl

@[simp] theorem elems_node (e : Elem) (k r : Forest) :
    elems (node e k r) = e :: (elems k ++ elems r) := rfl

@[simp] theorem refs_nil : refs nil = [] := rfl

@[simp] theorem refs_node (e : Elem) (k r : Forest) :
    refs (node e k r) = e.ref :: (refs k ++ refs r) := by
  simp [refs]

@[simp] theorem subtrees_nil : subtrees nil = [] := rfl

@[simp] theorem subtrees_node (e : Elem) (k r : Forest) :
    subtrees (node e k r) = (e, k) :: (subtrees k ++ subtrees r) := rfl

theorem elems_eq_map_subtrees (f : Forest) : f.elems = f.subtrees.map Prod.fst := by
  induction f with
  | nil => rfl
  | node e k r ihk ihr => simp [ihk, ihr]

theorem refs_eq_map_subtrees (f : Forest) : f.refs = f.subtrees.map (fun n => n.1.ref) := by
  simp [refs, elems_eq_map_subtrees]

@[simp] theorem append_nil_left (g : Forest) : append nil g = g := rfl

@[simp] theorem append_node (e : Elem) (k r g : Forest) :
    append (node e k r) g = node e k (append r g) := rfl

@[simp] theorem elems_append (f g : Forest) : (append f g).elems = f.elems ++ g.elems := by
  induction f with
  | nil => rfl
  | node e k r _ ihr => simp [ihr]

@[simp] theorem refs_append (f g : Forest) : (append f g).refs = f.refs ++ g.refs := by
  simp [refs]

@[simp] theorem roots_append (f g : Forest) : (append f g).roots = f.roots ++ g.roots := by
  induction f with
  | nil => rfl
  | node e k r _ ihr => simp [roots, ihr]

@[simp] theorem subtrees_append (f g : Forest) :
    (append f g).subtrees = f.subtrees ++ g.subtrees := by
  induction f with
  | nil => rfl
  | node e k r _ ihr => simp [ihr]

theorem mem_elems_of_mem_subtrees {f : Forest} {n : Elem × Forest} (h : n ∈ f.subtrees) :
    n.1 ∈ f.elems := by
  rw [elems_eq_map_subtrees]
  exact List.mem_map_of_mem _ h

theorem mem_refs_of_mem_subtrees {f : Forest} {n : Elem × Forest} (h : n ∈ f.subtrees) :
    n.1.ref ∈ f.refs :=
  List.mem_map_of_mem _ (mem_elems_of_mem_subtrees h)

/-- The subtrees of a subtree are subtrees of the whole. -/
theorem subtrees_trans {f : Forest} {n m : Elem × Forest}
    (hn : n ∈ f.subtrees) (hm : m ∈ n.2.subtrees) : m ∈ f.subtrees := by
  induction f with
  | nil => simp at hn
  | node e k r ihk ihr =>
    simp only [subtrees_node, List.mem_cons, List.mem_append] at hn ⊢
    rcases hn with rfl | hn | hn
    · exact Or.inr (Or.inl hm)
    · exact Or.inr (Or.inl (ihk hn))
    · exact Or.inr (Or.inr (ihr hn))

theorem refs_subset_of_mem_subtrees {f : Forest} {n : Elem × Forest} (hn : n ∈ f.subtrees)
    {x : Nat} (hx : x ∈ n.2.refs) : x ∈ f.refs := by
  rw [refs_eq_map_subtrees] at hx ⊢
  obtain ⟨m, hm, rfl⟩ := List.mem_map.1 hx
  exact List.mem_map_of_mem _ (subtrees_trans hn hm)

/-- With distinct references a reference denotes one subtree. -/
theorem subtree_unique {f : Forest} (hnd : f.refs.Nodup) {n m : Elem × Forest}
    (hn : n ∈ f.subtrees) (hm : m ∈ f.subtrees) (h : n.1.ref = m.1.ref) : n = m := by
  rw [refs_eq_map_subtrees] at hnd
  exact List.inj_on_of_nodup_map hnd hn hm h

theorem querySelector_eq_find (p : Elem → Bool) (f : Forest) :
    f.querySelector p = f.subtrees.find? (fun n => p n.1) := by
  induction f with
  | nil => rfl
  | node e k r ihk ihr =>
    simp only [querySelector, subtrees_node, List.find?_cons]
    by_cases hp : p e = true
    · simp [hp]
    · simp only [hp, Bool.false_eq_true, if_false]
      rw [List.find?_append, ← ihk, ← ihr]
      cases querySelector p k <;> simp [hp]

theorem querySelector_some {p : Elem → Bool} {f : Forest} {n : Elem × Forest}
    (h : f.querySelector p = some n) : n ∈ f.subtrees ∧ p n.1 = true := by
  rw [querySelector_eq_find] at h
  exact ⟨List.mem_of_find?_eq_some h, by simpa using List.find?_some h⟩

theorem querySelector_none {p : Elem → Bool} {f : Forest} :
    f.querySelector p = none ↔ ∀ e ∈ f.elems, p e = false := by
  rw [querySelector_eq_find, List.find?_eq_none, elems_eq_map_subtrees]
  simp

theorem querySelector_isSome_of_mem {p : Elem → Bool} {f : Forest} {e : Elem}
    (he : e ∈ f.elems) (hp : p e = true) : ∃ n, f.querySelector p = some n := by
  cases h : f.querySelector p with
  | some n => exact ⟨n, rfl⟩
  | none => rw [querySelector_none] at h; simp [h e he] at hp

theorem getByRef_some {x : Nat} {f : Forest} {n : Elem × Forest}
    (h : f.getByRef x = some n) : n ∈ f.subtrees ∧ n.1.ref = x := by
  have := querySelector_some h
  simpa using this

theorem getByRef_none {x : Nat} {f : Forest} : f.getByRef x = none ↔ x ∉ f.refs := by
  unfold getByRef
  rw [querySelector_none]
  simp [refs]

/-- With distinct references `getByRef` finds any subtree by its reference. -/
theorem getByRef_of_mem {f : Forest} (hnd : f.refs.Nodup) {n : Elem × Forest}
    (hn : n ∈ f.subtrees) : f.getByRef n.1.ref = some n := by
  cases h : f.getByRef n.1.ref with
  | none => exact absurd (mem_refs_of_mem_subtrees hn) (getByRef_none.1 h)
  | some m =>
    have hm := getByRef_some h
    rw [subtree_unique hnd hm.1 hn hm.2]

/-! ### Effect of the mutations on the element list -/

theorem removeRef_of_not_mem {x : Nat} {f : Forest} (h : x ∉ f.refs) : removeRef x f = f := by
  induction f with
  | nil => rfl
  | node e k r ihk ihr =>
    simp only [refs_node, List.mem_cons, List.mem_append, not_or] at h
    have hne : e.ref ≠ x := fun he => h.1 he.symm
    simp [removeRef, hne, ihk h.2.1, ihr h.2.2]

theorem refs_removeRef_sublist (x : Nat) (f : Forest) :
    (removeRef x f).refs.Sublist f.refs := by
  induction f with
  | nil => exact List.Sublist.refl _
  | node e k r ihk ihr =>
    simp only [removeRef]
    split
    · simp only [refs_node]
      exact (ihr.trans (List.sublist_append_right _ _)).trans (List.sublist_cons_self _ _)
    · simp only [refs_node]
      exact (ihk.append ihr).cons₂ _

theorem elems_removeRef_sublist (x : Nat) (f : Forest) :
    (removeRef x f).elems.Sublist f.elems := by
  induction f with
  | nil => exact List.Sublist.refl _
  | node e k r ihk ihr =>
    simp only [removeRef]
    split
    · exact (ihr.trans (List.sublist_append_right _ _)).trans (List.sublist_cons_self _ _)
    · simp only [elems_node]
      exact (ihk.append ihr).cons₂ _

theorem not_mem_refs_removeRef (x : Nat) (f : Forest) : x ∉ (removeRef x f).refs := by
  induction f with
  | nil => simp [removeRef]
  | node e k r ihk ihr =>
    simp only [removeRef]
    split
    · exact ihr
    · rename_i hne
      simp only [refs_node, List.mem_cons, List.mem_append, not_or]
      exact ⟨fun h => hne h.symm, ihk, ihr⟩

theorem nodup_removeRef {x : Nat} {f : Forest} (h : f.refs.Nodup) : (removeRef x f).refs.Nodup :=
  h.sublist (refs_removeRef_sublist x f)

/-- Removing a childless element deletes exactly the elements carrying its
reference. -/
theorem elems_removeRef_leaf {x : Nat} {f : Forest}
    (hleaf : ∀ n ∈ f.subtrees, n.1.ref = x → n.2 = nil) :
    (removeRef x f).elems = f.elems.filter (fun e => e.ref != x) := by
  induction f with
  | nil => rfl
  | node e k r ihk ihr =>
    have hk : ∀ n ∈ k.subtrees, n.1.ref = x → n.2 = nil := fun n hn =>
      hleaf n (by simp [hn])
    have hr : ∀ n ∈ r.subtrees, n.1.ref = x → n.2 = nil := fun n hn =>
      hleaf n (by simp [hn])
    simp only [removeRef]
    split
    · rename_i he
      have hknil : k = nil := hleaf (e, k) (by simp) he
      subst hknil
      simp [ihr hr, he]
    · rename_i he
      simp [ihk hk, ihr hr, he]

theorem count_elems_appendChild (x : Nat) (sub f : Forest) (a : Elem) :
    (appendChild x sub f).elems.count a
      = f.elems.count a + f.refs.count x * sub.elems.count a := by
  induction f with
  | nil => simp [appendChild]
  | node e k r ihk ihr =>
    simp only [appendChild, elems_node, refs_node, List.count_cons, List.count_append]
    by_cases he : e.ref = x
    · simp only [he, if_true, elems_append, List.count_append, ihk, ihr, beq_self_eq_true]
      ring
    · have hb : (e.ref == x) = false := by simpa using he
      simp only [he, if_false, ihk, ihr, hb, Bool.false_eq_true]
      ring

/-- Appending below an element that occurs once adds the new elements and
nothing else. -/
theorem elems_appendChild_perm {x : Nat} {sub f : Forest} (hx : f.refs.count x = 1) :
    (appendChild x sub f).elems.Perm (sub.elems ++ f.elems) := by
  rw [List.perm_iff_count]
  intro a
  rw [count_elems_appendChild, hx, List.count_append]
  ring

theorem appendChild_of_not_mem {x : Nat} {sub f : Forest} (hx : x ∉ f.refs) :
    appendChild x sub f = f := by
  induction f with
  | nil => rfl
  | node e k r ihk ihr =>
    simp only [refs_node, List.mem_cons, List.mem_append, not_or] at hx
    have hne : e.ref ≠ x := fun he => hx.1 he.symm
    simp [appendChild, hne, ihk hx.2.1, ihr hx.2.2]

end Forest

@[simp] theorem Elem.setOpacityAt_ref (x : Nat) (v : String) (e : Elem) :
    (e.setOpacityAt x v).ref = e.ref := by
  unfold Elem.setOpacityAt; split <;> rfl

@[simp] theorem Elem.setOpacityAt_tag (x : Nat) (v : String) (e : Elem) :
    (e.setOpacityAt x v).tag = e.tag := by
  unfold Elem.setOpacityAt; split <;> rfl

@[simp] theorem Elem.setOpacityAt_classes (x : Nat) (v : String) (e : Elem) :
    (e.setOpacityAt x v).classes = e.classes := by
  unfold Elem.setOpacityAt; split <;> rfl

@[simp] theorem Elem.setOpacityAt_attrs (x : Nat) (v : String) (e : Elem) :
    (e.setOpacityAt x v).attrs = e.attrs := by
  unfold Elem.setOpacityAt; split <;> rfl

@[simp] theorem Elem.cleared_ref (e : Elem) : e.cleared.ref = e.ref := by
  unfold Elem.cleared; split <;> rfl

@[simp] theorem Elem.cleared_classes (e : Elem) : e.cleared.classes = e.classes := by
  unfold Elem.cleared; split <;> rfl

@[simp] theorem Elem.cleared_tag (e : Elem) : e.cleared.tag = e.tag := by
  unfold Elem.cleared; split <;> rfl

theorem Elem.setOpacityAt_of_ne {x : Nat} {v : String} {e : Elem} (h : e.ref ≠ x) :
    e.setOpacityAt x v = e := by
  simp [Elem.setOpacityAt, h]

namespace Forest

/-! ### Queries after `setOpacity` -/

@[simp] theorem elems_setOpacity (x : Nat) (v : String) (f : Forest) :
    (setOpacity x v f).elems = f.elems.map (Elem.setOpacityAt x v) := by
  induction f with
  | nil => rfl
  | node e k r ihk ihr => simp [setOpacity, ihk, ihr]

@[simp] theorem refs_setOpacity (x : Nat) (v : String) (f : Forest) :
    (setOpacity x v f).refs = f.refs := by
  simp [refs, Function.comp_def]

@[simp] theorem setOpacity_append (x : Nat) (v : String) (f g : Forest) :
    setOpacity x v (append f g) = append (setOpacity x v f) (setOpacity x v g) := by
  induction f with
  | nil => rfl
  | node e k r _ ihr => simp [setOpacity, ihr]

theorem querySelector_setOpacity {p : Elem → Bool} (x : Nat) (v : String)
    (hp : ∀ e, p (e.setOpacityAt x v) = p e) (f : Forest) :
    (setOpacity x v f).querySelector p = (f.querySelector p).map (opSub x v) := by
  induction f with
  | nil => rfl
  | node e k r ihk ihr =>
    simp only [setOpacity, querySelector, hp]
    by_cases hpe : p e = true
    · simp [hpe, opSub]
    · simp only [hpe, Bool.false_eq_true, if_false, ihk, ihr]
      cases querySelector p k <;> simp

theorem closestFrom_setOpacity {p : Elem → Bool} (x : Nat) (v : String)
    (hp : ∀ e, p (e.setOpacityAt x v) = p e) (t : Nat) (f : Forest) :
    ∀ anc, closestFrom p t (anc.map (opSub x v)) (setOpacity x v f)
      = (closestFrom p t anc f).map (Option.map (opSub x v)) := by
  induction f with
  | nil => intro anc; rfl
  | node e k r ihk ihr =>
    intro anc
    have hanc : (if p e = true then some (e.setOpacityAt x v, setOpacity x v k)
        else anc.map (opSub x v))
        = (if p e = true then some (e, k) else anc).map (opSub x v) := by
      split <;> simp [opSub]
    simp only [setOpacity, closestFrom, hp, Elem.setOpacityAt_ref, hanc]
    by_cases het : e.ref = t
    · simp [het]
    · simp only [het, if_false, ihk, ihr]
      cases closestFrom p t (if p e = true then some (e, k) else anc) k <;> simp

/-! ### Queries after `appendChild` -/

theorem querySelector_append (p : Elem → Bool) (f g : Forest) :
    (append f g).querySelector p
      = match f.querySelector p with
        | some n => some n
        | none => g.querySelector p := by
  induction f with
  | nil => rfl
  | node e k r _ ihr =>
    simp only [append_node, querySelector, ihr]
    split
    · rfl
    · cases querySelector p k <;> simp

theorem closestFrom_eq_none {p : Elem → Bool} {t : Nat} {f : Forest} :
    ∀ {anc}, closestFrom p t anc f = none ↔ t ∉ f.refs := by
  induction f with
  | nil => intro anc; simp [closestFrom]
  | node e k r ihk ihr =>
    intro anc
    simp only [closestFrom, refs_node, List.mem_cons, List.mem_append, not_or]
    by_cases het : e.ref = t
    · simp [het]
    · simp only [het, if_false]
      cases hk : closestFrom p t (if p e = true then some (e, k) else anc) k with
      | some res =>
        have : ¬ (t ∉ k.refs) := fun h => by rw [ihk.2 h] at hk; cases hk
        constructor
        · intro h; cases h
        · intro h; exact absurd h.2.1 this
      | none =>
        simp only [ihr]
        have := ihk.1 hk
        constructor
        · intro h; exact ⟨fun h' => het h'.symm, this, h⟩
        · intro h; exact h.2.2

theorem closestFrom_append (p : Elem → Bool) (t : Nat) (f g : Forest) :
    ∀ anc, closestFrom p t anc (append f g)
      = match closestFrom p t anc f with
        | some res => some res
        | none => closestFrom p t anc g := by
  induction f with
  | nil => intro anc; rfl
  | node e k r _ ihr =>
    intro anc
    simp only [append_node, closestFrom, ihr]
    split
    · rfl
    · cases closestFrom p t (if p e = true then some (e, k) else anc) k <;> simp

theorem querySelector_appendChild {p : Elem → Bool} (x : Nat) {sub : Forest}
    (hsub : ∀ e ∈ sub.elems, p e = false) (f : Forest) :
    (appendChild x sub f).querySelector p = (f.querySelector p).map (acSub x sub) := by
  induction f with
  | nil => rfl
  | node e k r ihk ihr =>
    simp only [appendChild, querySelector]
    by_cases hpe : p e = true
    · simp [hpe, acSub]
    · simp only [hpe, Bool.false_eq_true, if_false, ihr]
      have hk : querySelector p (if e.ref = x then append (appendChild x sub k) sub
          else appendChild x sub k) = (querySelector p k).map (acSub x sub) := by
        by_cases hx : e.ref = x
        · simp only [hx, if_true]
          rw [querySelector_append, ihk, querySelector_none.2 hsub]
          cases querySelector p k <;> rfl
        · simp only [hx, if_false]
          exact ihk
      rw [hk]
      cases querySelector p k <;> simp

theorem closestFrom_appendChild {p : Elem → Bool} (x : Nat) {sub : Forest} {t : Nat}
    (ht : t ∉ sub.refs) (f : Forest) :
    ∀ anc, closestFrom p t (anc.map (acSub x sub)) (appendChild x sub f)
      = (closestFrom p t anc f).map (Option.map (acSub x sub)) := by
  induction f with
  | nil => intro anc; rfl
  | node e k r ihk ihr =>
    intro anc
    have hanc : (if p e = true then some (e, if e.ref = x then append (appendChild x sub k) sub
          else appendChild x sub k) else anc.map (acSub x sub))
        = (if p e = true then some (e, k) else anc).map (acSub x sub) := by
      split <;> simp [acSub]
    simp only [appendChild, closestFrom, hanc]
    by_cases het : e.ref = t
    · simp [het]
    · simp only [het, if_false, ihr]
      generalize (if p e = true then some (e, k) else anc) = anc2
      have hk : closestFrom p t (anc2.map (acSub x sub))
          (if e.ref = x then append (appendChild x sub k) sub else appendChild x sub k)
          = (closestFrom p t anc2 k).map (Option.map (acSub x sub)) := by
        by_cases hx : e.ref = x
        · simp only [hx, if_true]
          rw [closestFrom_append, ihk, closestFrom_eq_none.2 ht]
          cases closestFrom p t anc2 k <;> rfl
        · simp only [hx, if_false]
          exact ihk _
      rw [hk]
      cases closestFrom p t anc2 k <;> simp

/-! ### Queries after `removeRef` -/

theorem Within.kids {x y : Nat} {e : Elem} {k r : Forest} (h : Within x y k) :
    Within x y (node e k r) := by
  obtain ⟨n, hn, h1, h2⟩ := h
  exact ⟨n, by simp [hn], h1, h2⟩

theorem Within.rest {x y : Nat} {e : Elem} {k r : Forest} (h : Within x y r) :
    Within x y (node e k r) := by
  obtain ⟨n, hn, h1, h2⟩ := h
  exact ⟨n, by simp [hn], h1, h2⟩

theorem querySelector_removeRef {p : Elem → Bool} {x : Nat} {f : Forest}
    (h : ∀ n, f.querySelector p = some n → ¬ Within x n.1.ref f) :
    (removeRef x f).querySelector p = (f.querySelector p).map (rmSub x) := by
  induction f with
  | nil => rfl
  | node e k r ihk ihr =>
    by_cases hpe : p e = true
    · have hne : e.ref ≠ x := fun he =>
        h (e, k) (by simp [querySelector, hpe]) ⟨(e, k), by simp, he, Or.inl he⟩
      simp [removeRef, hne, querySelector, hpe, rmSub]
    · cases hk : querySelector p k with
      | some n =>
        have hq : querySelector p (node e k r) = some n := by simp [querySelector, hpe, hk]
        have hne : e.ref ≠ x := fun he =>
          h n hq ⟨(e, k), by simp, he,
            Or.inr (mem_refs_of_mem_subtrees (querySelector_some hk).1)⟩
        have := ihk (fun m hm hw => h m (by rw [hq, ← hk, hm]) hw.kids)
        simp [removeRef, hne, querySelector, hpe, this, hk]
      | none =>
        have hq : querySelector p (node e k r) = querySelector p r := by
          simp [querySelector, hpe, hk]
        have hr := ihr (fun m hm hw => h m (by rw [hq, hm]) hw.rest)
        have hk' := ihk (fun m hm _ => by rw [hk] at hm; cases hm)
        rw [hk] at hk'
        by_cases he : e.ref = x
        · simp [removeRef, he, hq, hr]
        · simp [removeRef, he, querySelector, hpe, hk', hr, hk]

theorem closestFrom_removeRef {p : Elem → Bool} {x t : Nat} {f : Forest}
    (h : ¬ Within x t f) :
    ∀ anc, closestFrom p t (anc.map (rmSub x)) (removeRef x f)
      = (closestFrom p t anc f).map (Option.map (rmSub x)) := by
  induction f with
  | nil => intro anc; rfl
  | node e k r ihk ihr =>
    intro anc
    have hk := ihk (fun hw => h hw.kids)
    have hr := ihr (fun hw => h hw.rest)
    by_cases he : e.ref = x
    · have het : e.ref ≠ t := fun het => h ⟨(e, k), by simp, he, Or.inl (het ▸ he)⟩
      have htk : t ∉ k.refs := fun htk => h ⟨(e, k), by simp, he, Or.inr htk⟩
      simp [removeRef, he, closestFrom, he ▸ het, closestFrom_eq_none.2 htk, hr]
    · have hanc : (if p e = true then some (e, removeRef x k) else anc.map (rmSub x))
          = (if p e = true then some (e, k) else anc).map (rmSub x) := by
        split <;> simp [rmSub]
      simp only [removeRef, he, if_false, closestFrom, hanc]
      by_cases het : e.ref = t
      · simp [het]
      · simp only [het, if_false, hk, hr]
        cases closestFrom p t (if p e = true then some (e, k) else anc) k <;> simp

/-! ### What `closest` returns -/

theorem closestFrom_spec {p : Elem → Bool} {t : Nat} {f : Forest} :
    ∀ {anc res}, closestFrom p t anc f = some res →
      res = anc ∨ ∃ n, res = some n ∧ n ∈ f.subtrees ∧ p n.1 = true ∧
        (t = n.1.ref ∨ t ∈ n.2.refs) := by
  induction f with
  | nil => intro anc res h; simp [closestFrom] at h
  | node e k r ihk ihr =>
    intro anc res h
    simp only [closestFrom] at h
    by_cases het : e.ref = t
    · simp only [het, if_true, Option.some.injEq] at h
      by_cases hpe : p e = true
      · simp only [hpe, if_true] at h
        exact Or.inr ⟨(e, k), h.symm, by simp, hpe, Or.inl het.symm⟩
      · simp only [hpe, Bool.false_eq_true, if_false] at h
        exact Or.inl h.symm
    · simp only [het, if_false] at h
      cases hk : closestFrom p t (if p e = true then some (e, k) else anc) k with
      | some res' =>
        rw [hk] at h
        simp only [Option.some.injEq] at h
        subst h
        have htk : t ∈ k.refs := by
          by_contra hc
          rw [closestFrom_eq_none.2 hc] at hk
          cases hk
        rcases ihk hk with h1 | ⟨n, h1, h2, h3, h4⟩
        · by_cases hpe : p e = true
          · simp only [hpe, if_true] at h1
            exact Or.inr ⟨(e, k), h1, by simp, hpe, Or.inr htk⟩
          · simp only [hpe, Bool.false_eq_true, if_false] at h1
            exact Or.inl h1
        · exact Or.inr ⟨n, h1, by simp [h2], h3, h4⟩
      | none =>
        rw [hk] at h
        rcases ihr h with h1 | ⟨n, h1, h2, h3, h4⟩
        · exact Or.inl h1
        · exact Or.inr ⟨n, h1, by simp [h2], h3, h4⟩

theorem closest_spec {p : Elem → Bool} {t : Nat} {f : Forest} {n : Elem × Forest}
    (h : f.closest p t = some n) :
    n ∈ f.subtrees ∧ p n.1 = true ∧ (t = n.1.ref ∨ t ∈ n.2.refs) := by
  unfold closest at h
  cases hc : closestFrom p t none f with
  | none => rw [hc] at h; cases h
  | some res =>
    rw [hc] at h
    simp only [Option.join] at h
    subst h
    rcases closestFrom_spec hc with h1 | ⟨m, h1, h2⟩
    · cases h1
    · cases h1; exact h2

/-! ### First match and filtered list -/

theorem querySelector_fst (p : Elem → Bool) (f : Forest) :
    (f.querySelector p).map Prod.fst = (f.elems.filter p).head? := by
  rw [querySelector_eq_find, elems_eq_map_subtrees, List.filter_map, List.head?_map,
    List.filter_head?]
  rfl

theorem querySelector_of_filter {p : Elem → Bool} {f : Forest} {a : Elem} {l : List Elem}
    (h : f.elems.filter p = a :: l) : ∃ k, f.querySelector p = some (a, k) := by
  have := querySelector_fst p f
  rw [h] at this
  cases hq : f.querySelector p with
  | none => rw [hq] at this; cases this
  | some n =>
    rw [hq] at this
    simp only [Option.map_some', List.head?_cons, Option.some.injEq] at this
    exact ⟨n.2, by rw [← this]⟩

end Forest

/-! ### List facts -/

theorem filter_ne_eq_erase {α β : Type} [DecidableEq α] [DecidableEq β] (g : α → β) :
    ∀ {l : List α} {a : α}, (l.map g).Nodup → a ∈ l →
      l.filter (fun e => g e != g a) = l.erase a
  | [], _, _, h => by cases h
  | b :: l, a, hnd, h => by
    rw [List.map_cons, List.nodup_cons] at hnd
    by_cases hba : b = a
    · subst hba
      have : l.filter (fun e => g e != g b) = l := by
        rw [List.filter_eq_self]
        intro c hc
        have : g c ≠ g b := fun hcb => hnd.1 (hcb ▸ List.mem_map_of_mem g hc)
        simpa using this
      simp [this]
    · have hal : a ∈ l := by
        rcases List.mem_cons.1 h with h | h
        · exact absurd h.symm hba
        · exact h
      have hg : g b ≠ g a := fun hga => hnd.1 (hga ▸ List.mem_map_of_mem g hal)
      have hb : (b == a) = false := by simpa using hba
      rw [List.filter_cons, List.erase_cons, hb]
      simp [hg, filter_ne_eq_erase g hnd.2 hal]

namespace Forest

/-! ### Sibling and parent queries -/

theorem parentFrom_eq_none {x : Nat} {f : Forest} :
    ∀ {q}, parentFrom x q f = none ↔ x ∉ f.refs := by
  induction f with
  | nil => intro q; simp [parentFrom]
  | node e k r ihk ihr =>
    intro q
    simp only [parentFrom, refs_node, List.mem_cons, List.mem_append, not_or]
    by_cases he : e.ref = x
    · simp [he]
    · simp only [he, if_false]
      cases hk : parentFrom x (some e.ref) k with
      | some res =>
        have : ¬ (x ∉ k.refs) := fun h => by rw [ihk.2 h] at hk; cases hk
        constructor
        · intro h; cases h
        · intro h; exact absurd h.2.1 this
      | none =>
        simp only [ihr]
        have := ihk.1 hk
        constructor
        · intro h; exact ⟨fun h' => he h'.symm, this, h⟩
        · intro h; exact h.2.2

theorem prevSibling_eq_none {x : Nat} {f : Forest} :
    ∀ {q}, prevSibling x q f = none ↔ x ∉ f.refs := by
  induction f with
  | nil => intro q; simp [prevSibling]
  | node e k r ihk ihr =>
    intro q
    simp only [prevSibling, refs_node, List.mem_cons, List.mem_append, not_or]
    by_cases he : e.ref = x
    · simp [he]
    · simp only [he, if_false]
      cases hk : prevSibling x none k with
      | some res =>
        have : ¬ (x ∉ k.refs) := fun h => by rw [ihk.2 h] at hk; cases hk
        constructor
        · intro h; cases h
        · intro h; exact absurd h.2.1 this
      | none =>
        simp only [ihr]
        have := ihk.1 hk
        constructor
        · intro h; exact ⟨fun h' => he h'.symm, this, h⟩
        · intro h; exact h.2.2

theorem nextSibling_eq_none {x : Nat} {f : Forest} :
    nextSibling x f = none ↔ x ∉ f.refs := by
  induction f with
  | nil => simp [nextSibling]
  | node e k r ihk ihr =>
    simp only [nextSibling, refs_node, List.mem_cons, List.mem_append, not_or]
    by_cases he : e.ref = x
    · simp [he]
    · simp only [he, if_false]
      cases hk : nextSibling x k with
      | some res =>
        have : ¬ (x ∉ k.refs) := fun h => by rw [ihk.2 h] at hk; cases hk
        constructor
        · intro h; cases h
        · intro h; exact absurd h.2.1 this
      | none =>
        simp only [ihr]
        have := ihk.1 hk
        constructor
        · intro h; exact ⟨fun h' => he h'.symm, this, h⟩
        · intro h; exact h.2.2

/-- The parent found for an element is an element of the forest, unless it is
the parent handed in from above. -/
theorem parentFrom_some_mem {x : Nat} {f : Forest} :
    ∀ {q p}, parentFrom x q f = some (some p) → q = some p ∨ p ∈ f.refs := by
  induction f with
  | nil => intro q p h; simp [parentFrom] at h
  | node e k r ihk ihr =>
    intro q p h
    simp only [parentFrom] at h
    by_cases he : e.ref = x
    · simp only [he, if_true, Option.some.injEq] at h
      exact Or.inl h
    · simp only [he, if_false] at h
      cases hk : parentFrom x (some e.ref) k with
      | some res =>
        rw [hk] at h
        simp only [Option.some.injEq] at h
        subst h
        rcases ihk hk with h1 | h1
        · simp only [Option.some.injEq] at h1
          exact Or.inr (by simp [h1])
        · exact Or.inr (by simp [h1])
      | none =>
        rw [hk] at h
        rcases ihr h with h1 | h1
        · exact Or.inl h1
        · exact Or.inr (by simp [h1])

theorem parentFrom_append (x : Nat) (f g : Forest) :
    ∀ q, parentFrom x q (append f g)
      = match parentFrom x q f with
        | some res => some res
        | none => parentFrom x q g := by
  induction f with
  | nil => intro q; rfl
  | node e k r _ ihr =>
    intro q
    simp only [append_node, parentFrom, ihr]
    split
    · rfl
    · cases parentFrom x (some e.ref) k <;> simp

theorem nextSibling_append_of_not_mem {x : Nat} {f : Forest} (g : Forest) (h : x ∉ f.refs) :
    nextSibling x (append f g) = nextSibling x g := by
  induction f with
  | nil => rfl
  | node e k r _ ihr =>
    simp only [refs_node, List.mem_cons, List.mem_append, not_or] at h
    have he : e.ref ≠ x := fun he => h.1 he.symm
    simp [nextSibling, he, nextSibling_eq_none.2 h.2.1, ihr h.2.2]

/-! ### Queries after `appendChild` of a fresh childless element -/

theorem mem_refs_appendChild {x y : Nat} {sub f : Forest} :
    y ∈ (appendChild x sub f).refs ↔ y ∈ f.refs ∨ (x ∈ f.refs ∧ y ∈ sub.refs) := by
  induction f with
  | nil => simp [appendChild]
  | node e k r ihk ihr =>
    by_cases he : e.ref = x
    · subst he
      simp only [appendChild, refs_node, List.mem_cons, List.mem_append, if_true, refs_append,
        ihk, ihr, true_or, true_and]
      by_cases h1 : y = e.ref <;> by_cases h2 : y ∈ k.refs <;> by_cases h3 : y ∈ r.refs <;>
        by_cases h4 : y ∈ sub.refs <;> simp [h1, h2, h3, h4]
    · have hne : ¬ x = e.ref := fun h => he h.symm
      simp only [appendChild, refs_node, List.mem_cons, List.mem_append, he, if_false,
        ihk, ihr, hne, false_or]
      by_cases h1 : y = e.ref <;> by_cases h2 : y ∈ k.refs <;> by_cases h3 : y ∈ r.refs <;>
        by_cases h4 : y ∈ sub.refs <;> by_cases h5 : x ∈ k.refs <;> by_cases h6 : x ∈ r.refs <;>
        simp [h1, h2, h3, h4, h5, h6]

theorem parentFrom_appendChild_fresh {par : Nat} {c : Elem} {f : Forest}
    (hc : c.ref ∉ f.refs) :
    ∀ q, parentFrom c.ref q (appendChild par (node c nil nil) f)
      = if par ∈ f.refs then some (some par) else none := by
  induction f with
  | nil => intro q; simp [appendChild, parentFrom]
  | node e k r ihk ihr =>
    intro q
    simp only [refs_node, List.mem_cons, List.mem_append, not_or] at hc
    have hec : e.ref ≠ c.ref := fun h => hc.1 h.symm
    have hk := ihk hc.2.1 (some e.ref)
    have hr := ihr hc.2.2 q
    by_cases he : e.ref = par
    · subst he
      have hmem : e.ref ∈ (node e k r).refs := by simp
      rw [if_pos hmem]
      by_cases hpk : e.ref ∈ k.refs
      · rw [if_pos hpk] at hk
        simp [appendChild, parentFrom, hec, parentFrom_append, hk]
      · rw [if_neg hpk] at hk
        simp [appendChild, parentFrom, hec, parentFrom_append, hk]
    · have hne : ¬ par = e.ref := fun h => he h.symm
      by_cases hpk : par ∈ k.refs
      · rw [if_pos hpk] at hk
        have hmem : par ∈ (node e k r).refs := by simp [hpk]
        rw [if_pos hmem]
        simp [appendChild, parentFrom, hec, he, hk]
      · rw [if_neg hpk] at hk
        by_cases hpr : par ∈ r.refs
        · rw [if_pos hpr] at hr
          have hmem : par ∈ (node e k r).refs := by simp [hpr]
          rw [if_pos hmem]
          simp [appendChild, parentFrom, hec, he, hk, hr]
        · rw [if_neg hpr] at hr
          have hmem : par ∉ (node e k r).refs := by simp [hpk, hpr, hne]
          rw [if_neg hmem]
          simp [appendChild, parentFrom, hec, he, hk, hr]

theorem nextSibling_appendChild_fresh {par : Nat} {c : Elem} {f : Forest}
    (hnd : f.refs.Nodup) (hc : c.ref ∉ f.refs) :
    nextSibling c.ref (appendChild par (node c nil nil) f)
      = if par ∈ f.refs then some none else none := by
  induction f with
  | nil => simp [appendChild, nextSibling]
  | node e k r ihk ihr =>
    simp only [refs_node, List.mem_cons, List.mem_append, not_or] at hc
    simp only [refs_node, List.nodup_cons, List.mem_append, not_or] at hnd
    have hndk : k.refs.Nodup := (List.nodup_append.1 hnd.2).1
    have hndr : r.refs.Nodup := (List.nodup_append.1 hnd.2).2.1
    have hec : e.ref ≠ c.ref := fun h => hc.1 h.symm
    have hk := ihk hndk hc.2.1
    have hr := ihr hndr hc.2.2
    by_cases he : e.ref = par
    · have hmem : par ∈ (node e k r).refs := by simp [he]
      have hpk : par ∉ k.refs := he ▸ hnd.1.1
      rw [if_pos hmem]
      simp only [appendChild, nextSibling, hec, if_false, he, if_true]
      rw [appendChild_of_not_mem hpk, nextSibling_append_of_not_mem _ hc.2.1]
      simp [nextSibling, roots]
      intro h
      exact absurd (he ▸ h) hec
    · have hne : ¬ par = e.ref := fun h => he h.symm
      by_cases hpk : par ∈ k.refs
      · rw [if_pos hpk] at hk
        have hmem : par ∈ (node e k r).refs := by simp [hpk]
        rw [if_pos hmem]
        simp [appendChild, nextSibling, hec, he, hk]
      · rw [if_neg hpk] at hk
        by_cases hpr : par ∈ r.refs
        · rw [if_pos hpr] at hr
          have hmem : par ∈ (node e k r).refs := by simp [hpr]
          rw [if_pos hmem]
          simp [appendChild, nextSibling, hec, he, hk, hr]
        · rw [if_neg hpr] at hr
          have hmem : par ∉ (node e k r).refs := by simp [hpk, hpr, hne]
          rw [if_neg hmem]
          simp [appendChild, nextSibling, hec, he, hk, hr]

/-! ### Queries after `clearKids` -/

theorem clearKids_of_not_mem {x n : Nat} {f : Forest} (h : x ∉ f.refs) :
    clearKids x n f = f := by
  induction f with
  | nil => rfl
  | node e k r ihk ihr =>
    simp only [refs_node, List.mem_cons, List.mem_append, not_or] at h
    have hne : e.ref ≠ x := fun he => h.1 he.symm
    simp [clearKids, hne, ihk h.2.1, ihr h.2.2]

/-- The references below an emptied element: its own children if it is a
`template`, otherwise the new ones, as many as `emptiedCount` says. -/
theorem mem_refs_emptied {e : Elem} {k : Forest} {n y : Nat}
    (h : y ∈ (emptied e k n).refs) : y ∈ k.refs ∨ (n ≤ y ∧ y < n + e.emptiedCount) := by
  unfold emptied at h
  unfold Elem.emptiedCount
  by_cases ht : (e.tag == "template") = true
  · rw [if_pos ht] at h; exact Or.inl h
  · rw [if_neg ht] at h
    by_cases hh : (e.tag == "html") = true
    · rw [if_pos hh] at h
      rw [if_pos hh]
      simp only [refs_node, refs_nil, List.append_nil, List.nil_append, List.mem_cons,
        List.mem_singleton, List.not_mem_nil, or_false] at h
      right
      rcases h with h | h <;> omega
    · rw [if_neg hh] at h
      simp at h

theorem nodup_emptied {e : Elem} {k : Forest} {n : Nat} (hk : k.refs.Nodup) :
    (emptied e k n).refs.Nodup := by
  unfold emptied
  split
  · exact hk
  · split
    · simp
    · simp

theorem parentFrom_clearKids (x n : Nat) (f : Forest) :
    ∀ q, parentFrom x q (clearKids x n f) = parentFrom x q f := by
  induction f with
  | nil => intro q; rfl
  | node e k r ihk ihr =>
    intro q
    by_cases he : e.ref = x
    · simp [clearKids, parentFrom, he]
    · simp [clearKids, parentFrom, he, ihk, ihr]

theorem mem_refs_clearKids_self {x n : Nat} {f : Forest} (h : x ∈ f.refs) :
    x ∈ (clearKids x n f).refs := by
  by_contra hc
  have h1 := (parentFrom_eq_none (q := none)).2 hc
  rw [parentFrom_clearKids] at h1
  exact (parentFrom_eq_none.1 h1) h

/-- The references after `innerHTML = ''` on the element `c`: old ones, or the
ones handed to the elements it creates. -/
theorem mem_refs_clearKids {x n y : Nat} {f : Forest} {c : Elem}
    (hc : ∀ e ∈ f.elems, e.ref = x → e = c) (h : y ∈ (clearKids x n f).refs) :
    y ∈ f.refs ∨ (n ≤ y ∧ y < n + c.emptiedCount) := by
  induction f with
  | nil => simp [clearKids] at h
  | node e k r ihk ihr =>
    have hk := ihk (fun a ha => hc a (by simp [ha]))
    have hr := ihr (fun a ha => hc a (by simp [ha]))
    by_cases he : e.ref = x
    · have hec : e = c := hc e (by simp) he
      simp only [clearKids, he, if_true, refs_node, Elem.cleared_ref, List.mem_cons,
        List.mem_append] at h
      rcases h with h | h | h
      · exact Or.inl (by simp [h, he])
      · rcases mem_refs_emptied h with h1 | h1
        · exact Or.inl (by simp [h1])
        · exact Or.inr (hec ▸ h1)
      · rcases hr h with h1 | h1
        · exact Or.inl (by simp [h1])
        · exact Or.inr h1
    · simp only [clearKids, he, if_false, refs_node, List.mem_cons, List.mem_append] at h
      rcases h with h | h | h
      · exact Or.inl (by simp [h])
      · rcases hk h with h1 | h1
        · exact Or.inl (by simp [h1])
        · exact Or.inr h1
      · rcases hr h with h1 | h1
        · exact Or.inl (by simp [h1])
        · exact Or.inr h1

theorem mem_refs_clearKids_fresh {x n y : Nat} {f : Forest}
    (h : y ∈ (clearKids x n f).refs) : y ∈ f.refs ∨ y = n ∨ y = n + 1 := by
  induction f with
  | nil => simp [clearKids] at h
  | node e k r ihk ihr =>
    by_cases he : e.ref = x
    · simp only [clearKids, he, if_true, refs_node, Elem.cleared_ref, List.mem_cons,
        List.mem_append] at h
      rcases h with h | h | h
      · exact Or.inl (by simp [h, he])
      · rcases mem_refs_emptied h with h1 | h1
        · exact Or.inl (by simp [h1])
        · have : e.emptiedCount ≤ 2 := by unfold Elem.emptiedCount; split <;> omega
          right; omega
      · rcases ihr h with h1 | h1
        · exact Or.inl (by simp [h1])
        · exact Or.inr h1
    · simp only [clearKids, he, if_false, refs_node, List.mem_cons, List.mem_append] at h
      rcases h with h | h | h
      · exact Or.inl (by simp [h])
      · rcases ihk h with h1 | h1
        · exact Or.inl (by simp [h1])
        · exact Or.inr h1
      · rcases ihr h with h1 | h1
        · exact Or.inl (by simp [h1])
        · exact Or.inr h1

theorem nodup_clearKids {x n : Nat} {f : Forest} (hnd : f.refs.Nodup)
    (h0 : n ∉ f.refs) (h1 : n + 1 ∉ f.refs) : (clearKids x n f).refs.Nodup := by
  induction f with
  | nil => simp [clearKids]
  | node e k r ihk ihr =>
    simp only [refs_node, List.mem_cons, List.mem_append, not_or] at h0 h1
    simp only [refs_node, List.nodup_cons, List.mem_append, not_or] at hnd
    obtain ⟨⟨hek, her⟩, hkr⟩ := hnd
    have hndk := (List.nodup_append.1 hkr).1
    have hndr := (List.nodup_append.1 hkr).2.1
    have hdisj := (List.nodup_append.1 hkr).2.2
    have hnew : ∀ {g : Forest} {y : Nat}, y ∈ (clearKids x n g).refs → y ∉ g.refs →
        y = n ∨ y = n + 1 := by
      intro g y hy hn
      rcases mem_refs_clearKids_fresh hy with h | h
      · exact absurd h hn
      · exact h
    by_cases he : e.ref = x
    · have hxr : x ∉ r.refs := he ▸ her
      simp only [clearKids, he, if_true, refs_node, Elem.cleared_ref, clearKids_of_not_mem hxr]
      rw [List.nodup_cons, List.nodup_append]
      refine ⟨?_, nodup_emptied hndk, hndr, ?_⟩
      · simp only [List.mem_append, not_or]
        refine ⟨fun h => ?_, hxr⟩
        rcases mem_refs_emptied h with h2 | h2
        · exact hek (he ▸ h2)
        · have : e.emptiedCount ≤ 2 := by unfold Elem.emptiedCount; split <;> omega
          have hx0 : ¬ n = x := he ▸ h0.1
          have hx1 : ¬ n + 1 = x := he ▸ h1.1
          omega
      · intro y hy hyr
        rcases mem_refs_emptied hy with h2 | h2
        · exact hdisj h2 hyr
        · have : e.emptiedCount ≤ 2 := by unfold Elem.emptiedCount; split <;> omega
          have hy' : y = n ∨ y = n + 1 := by omega
          rcases hy' with h3 | h3
          · exact h0.2.2 (h3 ▸ hyr)
          · exact h1.2.2 (h3 ▸ hyr)
    · simp only [clearKids, he, if_false, refs_node]
      rw [List.nodup_cons, List.nodup_append]
      refine ⟨?_, ihk hndk h0.2.1 h1.2.1, ihr hndr h0.2.2 h1.2.2, ?_⟩
      · simp only [List.mem_append, not_or]
        constructor
        · intro h
          rcases mem_refs_clearKids_fresh h with h2 | h2 | h2
          · exact hek h2
          · exact h0.1 h2.symm
          · exact h1.1 h2.symm
        · intro h
          rcases mem_refs_clearKids_fresh h with h2 | h2 | h2
          · exact her h2
          · exact h0.1 h2.symm
          · exact h1.1 h2.symm
      · intro y hyk hyr
        by_cases hxk : x ∈ k.refs
        · have hxr : x ∉ r.refs := fun h => hdisj hxk h
          rw [clearKids_of_not_mem hxr] at hyr
          rcases mem_refs_clearKids_fresh hyk with h2 | h2 | h2
          · exact hdisj h2 hyr
          · exact h0.2.2 (h2 ▸ hyr)
          · exact h1.2.2 (h2 ▸ hyr)
        · rw [clearKids_of_not_mem hxk] at hyk
          rcases mem_refs_clearKids_fresh hyr with h2 | h2 | h2
          · exact hdisj hyk h2
          · exact h0.2.1 (h2 ▸ hyk)
          · exact h1.2.1 (h2 ▸ hyk)

/-- An element found after `innerHTML = ''` is an old element, text apart, or a
new element without class. -/
theorem classes_of_mem_clearKids {x n : Nat} {f : Forest} {a : Elem}
    (h : a ∈ (clearKids x n f).elems) :
    a.classes = [] ∨ ∃ b ∈ f.elems, b.ref = a.ref ∧ b.classes = a.classes := by
  induction f with
  | nil => simp [clearKids] at h
  | node e k r ihk ihr =>
    simp only [clearKids] at h
    by_cases he : e.ref = x
    · simp only [he, if_true, elems_node, List.mem_cons, List.mem_append] at h
      rcases h with rfl | h | h
      · exact Or.inr ⟨e, by simp, by simp, by simp⟩
      · unfold emptied at h
        by_cases ht : (e.tag == "template") = true
        · rw [if_pos ht] at h
          exact Or.inr ⟨a, by simp [h], rfl, rfl⟩
        · rw [if_neg ht] at h
          by_cases hh : (e.tag == "html") = true
          · rw [if_pos hh] at h
            simp only [elems_node, elems_nil, List.append_nil, List.nil_append, List.mem_cons,
              List.mem_singleton, List.not_mem_nil, or_false] at h
            rcases h with rfl | rfl <;> exact Or.inl rfl
          · rw [if_neg hh] at h
            simp at h
      · rcases ihr h with h1 | ⟨b, hb, h1⟩
        · exact Or.inl h1
        · exact Or.inr ⟨b, by simp [hb], h1⟩
    · simp only [he, if_false, elems_node, List.mem_cons, List.mem_append] at h
      rcases h with rfl | h | h
      · exact Or.inr ⟨a, by simp, rfl, rfl⟩
      · rcases ihk h with h1 | ⟨b, hb, h1⟩
        · exact Or.inl h1
        · exact Or.inr ⟨b, by simp [hb], h1⟩
      · rcases ihr h with h1 | ⟨b, hb, h1⟩
        · exact Or.inl h1
        · exact Or.inr ⟨b, by simp [hb], h1⟩

theorem getByRef_clearKids (x n : Nat) (f : Forest) :
    (clearKids x n f).getByRef x = (f.getByRef x).map (clearSub n) := by
  unfold getByRef
  induction f with
  | nil => rfl
  | node e k r ihk ihr =>
    by_cases he : e.ref = x
    · simp [clearKids, querySelector, he, clearSub]
    · simp only [clearKids, querySelector, he, if_false, beq_iff_eq, ihk, ihr]
      cases querySelector (fun e => e.ref == x) k <;> simp

/-! ### Queries after `insertBefore` of a childless element -/

theorem prevSibling_insertBefore {x : Nat} {m : Elem} (hm : m.ref ≠ x) (f : Forest) :
    ∀ q, prevSibling x q (insertBefore x (node m nil nil) f)
      = (prevSibling x q f).map (fun _ => some m) := by
  induction f with
  | nil => intro q; rfl
  | node e k r ihk ihr =>
    intro q
    by_cases he : e.ref = x
    · simp [insertBefore, prevSibling, he, hm]
    · simp only [insertBefore, prevSibling, he, if_false, ihk, ihr]
      cases prevSibling x none k <;> simp

theorem parentFrom_insertBefore {x : Nat} {m : Elem} (hm : m.ref ≠ x) (f : Forest) :
    ∀ q, parentFrom x q (insertBefore x (node m nil nil) f) = parentFrom x q f := by
  induction f with
  | nil => intro q; rfl
  | node e k r ihk ihr =>
    intro q
    by_cases he : e.ref = x
    · simp [insertBefore, parentFrom, he, hm]
    · simp [insertBefore, parentFrom, he, ihk, ihr]

theorem insertBefore_of_not_mem {x : Nat} {sub f : Forest} (h : x ∉ f.refs) :
    insertBefore x sub f = f := by
  induction f with
  | nil => rfl
  | node e k r ihk ihr =>
    simp only [refs_node, List.mem_cons, List.mem_append, not_or] at h
    have hne : e.ref ≠ x := fun he => h.1 he.symm
    simp [insertBefore, hne, ihk h.2.1, ihr h.2.2]

theorem nextSibling_insertBefore {x : Nat} {m : Elem} (hm : m.ref ≠ x) {f : Forest}
    (hnd : f.refs.Nodup) :
    nextSibling x (insertBefore x (node m nil nil) f) = nextSibling x f := by
  induction f with
  | nil => rfl
  | node e k r ihk ihr =>
    simp only [refs_node, List.nodup_cons, List.mem_append, not_or] at hnd
    have hndk : k.refs.Nodup := (List.nodup_append.1 hnd.2).1
    have hndr : r.refs.Nodup := (List.nodup_append.1 hnd.2).2.1
    by_cases he : e.ref = x
    · have hr : x ∉ r.refs := he ▸ hnd.1.2
      simp [insertBefore, nextSibling, he, hm, insertBefore_of_not_mem hr]
    · simp [insertBefore, nextSibling, he, ihk hndk, ihr hndr]

theorem querySelector_insertBefore {p : Elem → Bool} (x : Nat) {m : Elem}
    (hm : p m = false) (f : Forest) :
    (insertBefore x (node m nil nil) f).querySelector p
      = (f.querySelector p).map (ibSub x (node m nil nil)) := by
  induction f with
  | nil => rfl
  | node e k r ihk ihr =>
    by_cases he : e.ref = x
    · by_cases hpe : p e = true
      · simp [insertBefore, querySelector, he, hm, hpe, ibSub]
      · simp only [insertBefore, he, if_true, append_node, append_nil_left, querySelector, hm,
          Bool.false_eq_true, if_false, hpe, ihk, ihr]
        cases querySelector p k <;> simp
    · by_cases hpe : p e = true
      · simp [insertBefore, querySelector, he, hpe, ibSub]
      · simp only [insertBefore, he, if_false, querySelector, hpe, Bool.false_eq_true, ihk, ihr]
        cases querySelector p k <;> simp

theorem filter_elems_insertBefore {p : Elem → Bool} (x : Nat) {m : Elem}
    (hm : p m = false) (f : Forest) :
    (insertBefore x (node m nil nil) f).elems.filter p = f.elems.filter p := by
  induction f with
  | nil => rfl
  | node e k r ihk ihr =>
    by_cases he : e.ref = x
    · simp [insertBefore, he, List.filter_cons, hm, ihk, ihr]
    · simp [insertBefore, he, List.filter_cons, ihk, ihr]

theorem mem_elems_insertBefore {x : Nat} {m a : Elem} {f : Forest}
    (h : a ∈ (insertBefore x (node m nil nil) f).elems) : a = m ∨ a ∈ f.elems := by
  induction f with
  | nil => simp [insertBefore] at h
  | node e k r ihk ihr =>
    by_cases he : e.ref = x
    · simp only [insertBefore, he, if_true, append_node, append_nil_left, elems_node, elems_nil,
        List.nil_append, List.mem_cons, List.mem_append] at h
      rcases h with h | h | h | h
      · exact Or.inl h
      · exact Or.inr (by simp [h])
      · rcases ihk h with h | h
        · exact Or.inl h
        · exact Or.inr (by simp [h])
      · rcases ihr h with h | h
        · exact Or.inl h
        · exact Or.inr (by simp [h])
    · simp only [insertBefore, he, if_false, elems_node, List.mem_cons, List.mem_append] at h
      rcases h with h | h | h
      · exact Or.inr (by simp [h])
      · rcases ihk h with h | h
        · exact Or.inl h
        · exact Or.inr (by simp [h])
      · rcases ihr h with h | h
        · exact Or.inl h
        · exact Or.inr (by simp [h])

end Forest
open Forest

/-! ### The listeners, branch by branch -/

theorem Forest.nodup_appendChild {x : Nat} {sub f : Forest} (hnd : f.refs.Nodup)
    (hsub : sub.refs.Nodup) (hdisj : ∀ y ∈ sub.refs, y ∉ f.refs) :
    (appendChild x sub f).refs.Nodup := by
  by_cases hx : x ∈ f.refs
  · have hperm : ((appendChild x sub f).elems.map Elem.ref).Perm
        ((sub.elems ++ f.elems).map Elem.ref) :=
      (elems_appendChild_perm (List.count_eq_one_of_mem hnd hx)).map Elem.ref
    rw [List.map_append] at hperm
    refine (List.Perm.nodup_iff hperm).2 ?_
    exact List.nodup_append.2 ⟨hsub, hnd, fun a ha hb => hdisj a ha hb⟩
  · rw [appendChild_of_not_mem hx]; exact hnd

theorem countLabel_one : countLabel 1 = "1 image selected" := by decide

theorem countLabel_many {n : Nat} (h : 1 < n) :
    countLabel n = toString n ++ " images selected" := by
  unfold countLabel
  rw [if_pos h, String.append_assoc, String.append_assoc]
  rfl

theorem changeHandler_created {s : State} {input par : Nat} (files : List File)
    (hnone : s.doc.querySelector isUploadPreview = none)
    (hpar : s.doc.parentNode input = some (some par)) :
    changeHandler s input files
      = changeTail { s with
          doc := appendChild par (node (newPreviewContainer s.nextRef) nil nil) s.doc
          nextRef := s.nextRef + 1 } s.nextRef files := by
  simp [changeHandler, hnone, hpar]

theorem changeHandler_existing {s : State} {c : Elem} {ck : Forest} (input : Nat)
    (files : List File) (hsome : s.doc.querySelector isUploadPreview = some (c, ck)) :
    changeHandler s input files
      = changeTail { s with
          doc := clearKids c.ref s.nextRef s.doc
          nextRef := s.nextRef + c.emptiedCount } c.ref files := by
  simp [changeHandler, hsome]

theorem changeTail_nonempty {s : State} {c q : Nat} {files : List File}
    (hfiles : 0 < files.length) (hp : s.doc.parentNode c = some (some q)) :
    changeTail s c files
      = ({ s with
            doc := insertBefore c (node (countText s.nextRef files.length) nil nil) s.doc
            nextRef := s.nextRef + 1
            reads := s.reads ++ (files.filter isImageFile).map (fun f => PendingRead.mk f c) },
          none) := by
  simp [changeTail, hfiles, hp]

/-- Whatever its outcome, the tail of the change listener starts the reads of
the image files and changes the document at most by the count label. -/
theorem changeTail_doc (s : State) (c : Nat) (files : List File) :
    (changeTail s c files).1.reads
        = s.reads ++ (files.filter isImageFile).map (fun f => PendingRead.mk f c)
    ∧ ((changeTail s c files).1.doc = s.doc
      ∨ (changeTail s c files).1.doc
          = insertBefore c (node (countText s.nextRef files.length) nil nil) s.doc) := by
  unfold changeTail
  by_cases hfiles : files.length > 0
  · simp only [hfiles, if_true]
    cases hp : s.doc.parentNode c with
    | none => simp
    | some o => cases o <;> simp
  · simp [hfiles]

/-! ### Facts for runs of the event loop -/

@[simp] theorem Forest.append_nil_right (f : Forest) : append f nil = f := by
  induction f with
  | nil => rfl
  | node e k r _ ihr => simp [ihr]

theorem Forest.append_assoc (f g h : Forest) :
    append (append f g) h = append f (append g h) := by
  induction f with
  | nil => rfl
  | node e k r _ ihr => simp [ihr]

theorem Forest.not_mem_kids_of_nodup {f : Forest} (hnd : f.refs.Nodup) {n : Elem × Forest}
    (hn : n ∈ f.subtrees) : n.1.ref ∉ n.2.refs := by
  induction f with
  | nil => simp at hn
  | node e k r ihk ihr =>
    simp only [refs_node, List.nodup_cons, List.mem_append, not_or] at hnd
    simp only [subtrees_node, List.mem_cons, List.mem_append] at hn
    rcases hn with rfl | hn | hn
    · exact hnd.1.1
    · exact ihk (List.nodup_append.1 hnd.2).1 hn
    · exact ihr (List.nodup_append.1 hnd.2).2.1 hn

/-- Appending below `x` extends the children of `x` at their end. -/
theorem Forest.getByRef_appendChild_self {x : Nat} {sub f : Forest} {n : Elem × Forest}
    (hnd : f.refs.Nodup) (hsub : x ∉ sub.refs) (hx : f.getByRef x = some n) :
    (appendChild x sub f).getByRef x = some (n.1, append n.2 sub) := by
  have hn := getByRef_some hx
  have hk : x ∉ n.2.refs := hn.2 ▸ not_mem_kids_of_nodup hnd hn.1
  unfold getByRef at hx ⊢
  rw [querySelector_appendChild, hx]
  · simp [acSub, hn.2, appendChild_of_not_mem hk]
  · intro e he
    have : e.ref ≠ x := fun h => hsub (h ▸ List.mem_map_of_mem _ he)
    simpa using this

theorem Forest.count_refs_insertBefore (x : Nat) (m : Elem) (f : Forest) (a : Nat) :
    (insertBefore x (node m nil nil) f).refs.count a
      = f.refs.count a + (if a = m.ref then f.refs.count x else 0) := by
  induction f with
  | nil => simp [insertBefore]
  | node e k r ihk ihr =>
    by_cases he : e.ref = x
    · simp only [insertBefore, he, if_true, append_node, append_nil_left, refs_node, refs_nil,
        List.nil_append, List.count_cons, List.count_append, ihk, ihr, beq_self_eq_true,
        beq_iff_eq]
      split_ifs <;> omega
    · have hb : (e.ref == x) = false := by simpa using he
      simp only [insertBefore, he, if_false, refs_node, List.count_cons, List.count_append, ihk,
        ihr, hb, Bool.false_eq_true, beq_iff_eq]
      split_ifs <;> omega

theorem Forest.nodup_insertBefore {x : Nat} {m : Elem} {f : Forest} (hnd : f.refs.Nodup)
    (hm : m.ref ∉ f.refs) : (insertBefore x (node m nil nil) f).refs.Nodup := by
  rw [List.nodup_iff_count_le_one] at hnd ⊢
  intro a
  rw [count_refs_insertBefore]
  by_cases ha : a = m.ref
  · have h0 : f.refs.count a = 0 := List.count_eq_zero_of_not_mem (ha ▸ hm)
    have := hnd x
    simp only [ha, if_true] at h0 ⊢
    omega
  · simp only [ha, if_false]
    exact hnd a

theorem Forest.mem_refs_insertBefore {x y : Nat} {m : Elem} {f : Forest}
    (h : y ∈ (insertBefore x (node m nil nil) f).refs) : y = m.ref ∨ y ∈ f.refs := by
  obtain ⟨e, he, rfl⟩ := List.mem_map.1 h
  rcases mem_elems_insertBefore he with h1 | h1
  · exact Or.inl (by rw [h1])
  · exact Or.inr (List.mem_map_of_mem _ h1)

theorem perm_cons_eraseIdx {α : Type} : ∀ {l : List α} {i : Nat} {a : α},
    l.get? i = some a → l.Perm (a :: l.eraseIdx i)
  | [], _, _, h => by simp at h
  | b :: l, 0, a, h => by
    simp only [List.get?_cons_zero, Option.some.injEq] at h
    subst h; simp
  | b :: l, i + 1, a, h => by
    simp only [List.get?_cons_succ] at h
    simp only [List.eraseIdx_cons_succ]
    exact ((perm_cons_eraseIdx h).cons b).trans (List.Perm.swap a b _)

/-! ### Well-formedness is kept by the listeners -/

theorem WF_changeTail {s : State} (hwf : s.WF) (c : Nat) (files : List File) :
    (changeTail s c files).1.WF := by
  obtain ⟨hnd, hfresh⟩ := hwf
  unfold changeTail
  by_cases hfiles : files.length > 0
  · simp only [hfiles, if_true]
    cases hp : s.doc.parentNode c with
    | none => exact ⟨hnd, fun r hr => Nat.lt_succ_of_lt (hfresh r hr)⟩
    | some o =>
      cases o with
      | none => exact ⟨hnd, fun r hr => Nat.lt_succ_of_lt (hfresh r hr)⟩
      | some q =>
        have hm : (countText s.nextRef files.length).ref ∉ s.doc.refs := fun h =>
          absurd (hfresh _ h) (by simp [countText])
        refine ⟨nodup_insertBefore hnd hm, ?_⟩
        intro r hr
        rcases mem_refs_insertBefore hr with h | h
        · simp only [h, countText]; exact Nat.lt_succ_self _
        · exact Nat.lt_succ_of_lt (hfresh r h)
  · simp only [hfiles, if_false]
    exact ⟨hnd, hfresh⟩

theorem elem_unique {f : Forest} (hnd : f.refs.Nodup) {a b : Elem} (ha : a ∈ f.elems)
    (hb : b ∈ f.elems) (h : a.ref = b.ref) : a = b :=
  List.inj_on_of_nodup_map hnd ha hb h

/-- The page right after `previewContainer.innerHTML = ''`. -/
theorem WF_cleared {s : State} (hwf : s.WF) {c : Elem} {ck : Forest}
    (hq : s.doc.querySelector isUploadPreview = some (c, ck)) :
    State.WF { s with
        doc := clearKids c.ref s.nextRef s.doc
        nextRef := s.nextRef + c.emptiedCount }
    ∧ (clearKids c.ref s.nextRef s.doc).getByRef c.ref = some (clearSub s.nextRef (c, ck)) := by
  obtain ⟨hnd, hfresh⟩ := hwf
  have hcsub := (querySelector_some hq).1
  have hcel : c ∈ s.doc.elems := mem_elems_of_mem_subtrees hcsub
  refine ⟨⟨?_, ?_⟩, ?_⟩
  · exact nodup_clearKids hnd (fun h => absurd (hfresh _ h) (by omega))
      (fun h => absurd (hfresh _ h) (by omega))
  · intro r hr
    show r < s.nextRef + c.emptiedCount
    rcases mem_refs_clearKids (c := c)
      (fun e he h => elem_unique hnd he hcel h) hr with h | h
    · have := hfresh r h; omega
    · exact h.2
  · rw [getByRef_clearKids, getByRef_of_mem hnd hcsub]; rfl

theorem WF_changeHandler {s : State} (hwf : s.WF) (input : Nat) (files : List File) :
    (changeHandler s input files).1.WF := by
  obtain ⟨hnd, hfresh⟩ := hwf
  unfold changeHandler
  cases hq : s.doc.querySelector isUploadPreview with
  | none =>
    simp only
    cases hp : s.doc.parentNode input with
    | none => exact ⟨hnd, fun r hr => Nat.lt_succ_of_lt (hfresh r hr)⟩
    | some o =>
      cases o with
      | none => exact ⟨hnd, fun r hr => Nat.lt_succ_of_lt (hfresh r hr)⟩
      | some par =>
        refine WF_changeTail ⟨?_, ?_⟩ _ _
        · refine nodup_appendChild hnd (by simp) ?_
          intro y hy
          simp only [refs_node, refs_nil, List.append_nil, List.mem_singleton] at hy
          subst hy
          exact fun h => absurd (hfresh _ h) (by simp [newPreviewContainer])
        · intro r hr
          rcases mem_refs_appendChild.1 hr with h | ⟨_, h⟩
          · exact Nat.lt_succ_of_lt (hfresh r h)
          · simp only [refs_node, refs_nil, List.append_nil, List.mem_singleton] at h
            simp [h, newPreviewContainer]
  | some n =>
    obtain ⟨c, ck⟩ := n
    exact WF_changeTail (WF_cleared ⟨hnd, hfresh⟩ hq).1 _ _

theorem WF_readerOnload {s : State} (hwf : s.WF) (r : PendingRead) :
    (readerOnload s r).WF := by
  obtain ⟨hnd, hfresh⟩ := hwf
  unfold readerOnload
  refine ⟨nodup_appendChild hnd (by simp [previewItem, previewImg]) ?_, ?_⟩
  · intro y hy
    simp only [refs_node, refs_nil, List.append_nil, List.mem_cons, List.mem_singleton,
      List.not_mem_nil, or_false, previewItem, previewImg] at hy
    intro h
    have := hfresh _ h
    rcases hy with h1 | h1 <;> omega
  · intro y hy
    rcases mem_refs_appendChild.1 hy with h | ⟨_, h⟩
    · have := hfresh y h
      show y < s.nextRef + 2
      omega
    · simp only [refs_node, refs_nil, List.append_nil, List.mem_cons, List.mem_singleton,
        List.not_mem_nil, or_false, previewItem, previewImg] at h
      show y < s.nextRef + 2
      rcases h with h1 | h1 <;> omega

theorem WF_clickHandler {s : State} (hwf : s.WF) (t : Nat) : (clickHandler s t).1.WF := by
  obtain ⟨hnd, hfresh⟩ := hwf
  unfold clickHandler
  cases s.doc.getByRef t with
  | none => exact ⟨hnd, hfresh⟩
  | some n =>
    simp only
    split
    · cases s.doc.closest isGalleryItem t with
      | none => exact ⟨hnd, hfresh⟩
      | some m =>
        simp only
        cases m.2.querySelector isHiddenInput with
        | none => exact ⟨hnd, hfresh⟩
        | some h =>
          have hnd1 : (removeRef h.1.ref s.doc).refs.Nodup := nodup_removeRef hnd
          have hfresh1 : ∀ r ∈ (removeRef h.1.ref s.doc).refs, r < s.nextRef := fun r hr =>
            hfresh r ((refs_removeRef_sublist _ _).subset hr)
          simp only
          cases (removeRef h.1.ref s.doc).querySelector isForm with
          | none => exact ⟨hnd1, fun r hr => Nat.lt_succ_of_lt (hfresh1 r hr)⟩
          | some form =>
            refine ⟨?_, ?_⟩
            · show (setOpacity _ _ _).refs.Nodup
              rw [refs_setOpacity]
              refine nodup_appendChild hnd1 (by simp) ?_
              intro y hy h'
              simp only [refs_node, refs_nil, List.append_nil, List.mem_singleton,
                removedInput] at hy
              have := hfresh1 y h'
              omega
            · intro r hr
              have hr' : r ∈ (setOpacity _ _ _).refs := hr
              rw [refs_setOpacity] at hr'
              show r < s.nextRef + 1
              rcases mem_refs_appendChild.1 hr' with h' | ⟨_, h'⟩
              · exact Nat.lt_succ_of_lt (hfresh1 r h')
              · simp only [refs_node, refs_nil, List.append_nil, List.mem_singleton,
                  removedInput] at h'
                omega
    · exact ⟨hnd, hfresh⟩

theorem WF_timerFire {s : State} (hwf : s.WF) : (timerFire s).WF := by
  unfold timerFire
  cases s.timers with
  | nil => exact hwf
  | cons g rest =>
    exact ⟨nodup_removeRef hwf.1, fun r hr => hwf.2 r ((refs_removeRef_sublist _ _).subset hr)⟩

/-- Every turn of the event loop keeps the node references distinct and below
the next reference. -/
theorem WF_step {s : State} (hwf : s.WF) (ev : Event) : (step s ev).WF := by
  cases ev with
  | click t =>
    simp only [step]
    cases s.galleryPreview with
    | none => exact hwf
    | some g =>
      simp only
      split
      · exact WF_clickHandler hwf t
      · exact hwf
  | change files =>
    simp only [step]
    cases s.galleryInput with
    | none => exact hwf
    | some i =>
      simp only
      split
      · exact WF_changeHandler hwf i files
      · exact hwf
  | timer => exact WF_timerFire hwf
  | loaded i =>
    simp only [step]
    cases s.reads.get? i with
    | none => exact hwf
    | some r => exact WF_readerOnload (s := { s with reads := s.reads.eraseIdx i }) hwf r
  | failed i => exact hwf

theorem WF_run : ∀ (evs : List Event) {s : State}, s.WF → (run s evs).WF
  | [], _, h => h
  | ev :: evs, _, h => WF_run evs (WF_step h ev)

/-! ### The preview container after a change event, and the reads that follow -/

theorem Forest.mem_subtrees_appendChild {x : Nat} {sub f : Forest} {n : Elem × Forest}
    (hx : x ∈ f.refs) (hn : n ∈ sub.subtrees) : n ∈ (appendChild x sub f).subtrees := by
  induction f with
  | nil => simp at hx
  | node e k r ihk ihr =>
    simp only [refs_node, List.mem_cons, List.mem_append] at hx
    simp only [appendChild, subtrees_node, List.mem_cons, List.mem_append]
    by_cases he : e.ref = x
    · simp only [he, if_true, subtrees_append, List.mem_append]
      exact Or.inr (Or.inl (Or.inr hn))
    · rcases hx with hx | hx | hx
      · exact absurd hx.symm he
      · simp only [he, if_false]
        exact Or.inr (Or.inl (ihk hx))
      · exact Or.inr (Or.inr (ihr hx))

theorem changeTail_getByRef {s : State} {c : Nat} {ce : Elem} {K : Forest}
    (files : List File) (hwf : s.WF) (hc : s.doc.getByRef c = some (ce, K)) :
    (changeTail s c files).1.doc.getByRef c = some (ce, K) := by
  have hcs := getByRef_some hc
  have hcmem : c ∈ s.doc.refs := hcs.2 ▸ mem_refs_of_mem_subtrees hcs.1
  have hK : c ∉ K.refs := hcs.2 ▸ not_mem_kids_of_nodup hwf.1 hcs.1
  rcases (changeTail_doc s c files).2 with h | h
  · rw [h]; exact hc
  · rw [h]
    unfold getByRef at hc ⊢
    rw [querySelector_insertBefore, hc]
    · simp [ibSub, insertBefore_of_not_mem hK]
    · simp only [countText, beq_eq_false_iff_ne, ne_eq]
      exact fun h => absurd (hwf.2 _ hcmem) (by omega)

/-- After the change listener the preview container is attached, with the
children that `innerHTML = ''` leaves or, when new, with none, and the reads
started are those of the image files. -/
theorem changeHandler_container {s : State} (hwf : s.WF) (input : Nat) (files : List File)
    (hattached : s.doc.querySelector isUploadPreview = none →
      ∃ par, s.doc.parentNode input = some (some par)) :
    (changeHandler s input files).1.reads
        = s.reads ++ (files.filter isImageFile).map
            (fun f => PendingRead.mk f (previewContainerRef s))
    ∧ (changeHandler s input files).1.doc.getByRef (previewContainerRef s)
        = some (previewContainerAfterChange s) := by
  obtain ⟨hnd, hfresh⟩ := hwf
  cases hq : s.doc.querySelector isUploadPreview with
  | none =>
    obtain ⟨par, hpar⟩ := hattached hq
    have hparmem : par ∈ s.doc.refs := by
      rcases parentFrom_some_mem hpar with h | h
      · cases h
      · exact h
    have hc : (newPreviewContainer s.nextRef).ref ∉ s.doc.refs := fun h =>
      absurd (hfresh _ h) (by simp [newPreviewContainer])
    have hnd2 : (appendChild par (node (newPreviewContainer s.nextRef) nil nil)
        s.doc).refs.Nodup :=
      nodup_appendChild hnd (by simp) (by
        intro y hy
        simp only [refs_node, refs_nil, List.append_nil, List.mem_singleton] at hy
        subst hy; exact hc)
    have hget : (appendChild par (node (newPreviewContainer s.nextRef) nil nil)
        s.doc).getByRef s.nextRef = some (newPreviewContainer s.nextRef, Forest.nil) :=
      getByRef_of_mem hnd2 (n := (newPreviewContainer s.nextRef, Forest.nil))
        (mem_subtrees_appendChild hparmem (by simp))
    have hfresh2 : ∀ r ∈ (appendChild par (node (newPreviewContainer s.nextRef) nil nil)
        s.doc).refs, r < s.nextRef + 1 := by
      intro r hr
      rcases mem_refs_appendChild.1 hr with h | ⟨_, h⟩
      · exact Nat.lt_succ_of_lt (hfresh r h)
      · simp only [refs_node, refs_nil, List.append_nil, List.mem_singleton] at h
        simp [h, newPreviewContainer]
    rw [changeHandler_created files hq hpar]
    simp only [previewContainerRef, previewContainerAfterChange, hq]
    exact ⟨(changeTail_doc _ _ _).1, changeTail_getByRef files ⟨hnd2, hfresh2⟩ hget⟩
  | some n =>
    obtain ⟨c, ck⟩ := n
    obtain ⟨hwf1, hget⟩ := WF_cleared ⟨hnd, hfresh⟩ hq
    rw [changeHandler_existing input files hq]
    simp only [previewContainerRef, previewContainerAfterChange, hq]
    exact ⟨(changeTail_doc _ _ _).1, changeTail_getByRef files hwf1 hget⟩

/-- Completing, in any order, reads that all target the attached container `c`
appends one preview item per read to `c`, in completion order. -/
theorem run_loads : ∀ (evs : List Event) (σ : State) (c : Nat) (ce : Elem) (K : Forest)
    (stale pend : List PendingRead), σ.WF → σ.doc.getByRef c = some (ce, K) →
    σ.reads = stale ++ pend → (∀ r ∈ pend, r.container = c) →
    completesNew stale.length pend.length evs = true →
    ∃ order, order.Perm (pend.map PendingRead.file)
      ∧ (run σ evs).doc.getByRef c = some (ce, append K (previewItems σ.nextRef order))
      ∧ (run σ evs).reads = stale
  | [], σ, c, ce, K, stale, pend, _, hc, hreads, _, hcomp => by
    cases pend with
    | nil => exact ⟨[], by simp, by simpa [run, previewItems] using hc, by simpa [run] using hreads⟩
    | cons r pend => simp [completesNew] at hcomp
  | ev :: evs, σ, c, ce, K, stale, pend, hwf, hc, hreads, hall, hcomp => by
    cases pend with
    | nil => simp [completesNew] at hcomp
    | cons r0 pend0 =>
      cases ev with
      | loaded i =>
        simp only [List.length_cons, completesNew, Bool.and_eq_true, decide_eq_true_eq] at hcomp
        obtain ⟨⟨hlo, hhi⟩, hrest⟩ := hcomp
        have hlen : i - stale.length < (r0 :: pend0).length := by
          simp only [List.length_cons]; omega
        obtain ⟨r, hr⟩ : ∃ r, (r0 :: pend0).get? (i - stale.length) = some r :=
          ⟨_, List.get?_eq_get hlen⟩
        have hget : σ.reads.get? i = some r := by
          rw [hreads, List.get?_eq_getElem?, List.getElem?_append_right hlo,
            ← List.get?_eq_getElem?]; exact hr
        have hrc : r.container = c := hall r (List.get?_mem hr)
        have herase : σ.reads.eraseIdx i = stale ++ (r0 :: pend0).eraseIdx (i - stale.length) := by
          rw [hreads, List.eraseIdx_append_of_length_le hlo]
        have hstep : step σ (Event.loaded i)
            = readerOnload { σ with reads := σ.reads.eraseIdx i } r := by
          simp only [step, hget]
        have hcmem : c ∈ σ.doc.refs := by
          have := getByRef_some hc
          exact this.2 ▸ mem_refs_of_mem_subtrees this.1
        have hclt : c < σ.nextRef := hwf.2 c hcmem
        have hwf1 : (readerOnload { σ with reads := σ.reads.eraseIdx i } r).WF :=
          WF_readerOnload (s := { σ with reads := σ.reads.eraseIdx i }) hwf r
        have hc1 : (readerOnload { σ with reads := σ.reads.eraseIdx i } r).doc.getByRef c
            = some (ce, append K (Forest.node (previewItem σ.nextRef)
                (Forest.node (previewImg (σ.nextRef + 1) r.file.dataUrl) Forest.nil Forest.nil)
                Forest.nil)) := by
          simp only [readerOnload, hrc]
          refine getByRef_appendChild_self hwf.1 ?_ hc
          simp only [refs_node, refs_nil, List.append_nil, List.mem_cons, List.mem_singleton,
            List.not_mem_nil, or_false, previewItem, previewImg]
          omega
        have hlen1 : ((r0 :: pend0).eraseIdx (i - stale.length)).length = pend0.length := by
          rw [List.length_eraseIdx_of_lt hlen]; simp
        obtain ⟨order, hperm, hfin, hreadsfin⟩ :=
          run_loads evs (readerOnload { σ with reads := σ.reads.eraseIdx i } r) c ce _ stale
            ((r0 :: pend0).eraseIdx (i - stale.length)) hwf1 hc1
            (by simp [readerOnload, herase])
            (fun r' hr' => hall r' ((List.eraseIdx_sublist _ _).subset hr'))
            (by rw [hlen1]; exact hrest)
        refine ⟨r.file :: order, ?_, ?_, ?_⟩
        · exact (List.Perm.cons _ hperm).trans
            ((perm_cons_eraseIdx hr).map PendingRead.file).symm
        · simp only [run, List.foldl_cons, hstep]
          rw [show List.foldl step (readerOnload { σ with reads := σ.reads.eraseIdx i } r) evs
            = run (readerOnload { σ with reads := σ.reads.eraseIdx i } r) evs from rfl, hfin]
          simp [readerOnload, previewItems, Forest.append_assoc]
        · simp only [run, List.foldl_cons, hstep]
          exact hreadsfin
      | click t => simp [completesNew] at hcomp
      | change fs => simp [completesNew] at hcomp
      | timer => simp [completesNew] at hcomp
      | failed i => simp [completesNew] at hcomp

/-! ### `closest` after the mutations -/

theorem join_map_map {α β : Type} (g : α → β) (x : Option (Option α)) :
    (x.map (Option.map g)).join = x.join.map g := by
  cases x with
  | none => rfl
  | some y => cases y <;> rfl

theorem Forest.closest_setOpacity {p : Elem → Bool} (x : Nat) (v : String)
    (hp : ∀ e, p (e.setOpacityAt x v) = p e) (t : Nat) (f : Forest) :
    (setOpacity x v f).closest p t = (f.closest p t).map (opSub x v) := by
  unfold closest
  rw [← join_map_map]
  exact congrArg Option.join (closestFrom_setOpacity x v hp t f none)

theorem Forest.closest_appendChild {p : Elem → Bool} (x : Nat) {sub : Forest} {t : Nat}
    (ht : t ∉ sub.refs) (f : Forest) :
    (appendChild x sub f).closest p t = (f.closest p t).map (acSub x sub) := by
  unfold closest
  rw [← join_map_map]
  exact congrArg Option.join (closestFrom_appendChild x ht f none)

theorem Forest.closest_removeRef {p : Elem → Bool} {x t : Nat} {f : Forest}
    (h : ¬ Within x t f) :
    (removeRef x f).closest p t = (f.closest p t).map (rmSub x) := by
  unfold closest
  rw [← join_map_map]
  exact congrArg Option.join (closestFrom_removeRef h none)

/-! ### Childless elements and subtrees -/

theorem Forest.leaf_of_mem {f : Forest} (hnd : f.refs.Nodup) {h : Elem}
    (hmem : (h, Forest.nil) ∈ f.subtrees) :
    ∀ n ∈ f.subtrees, n.1.ref = h.ref → n.2 = Forest.nil := by
  intro n hn href
  rw [subtree_unique hnd hn hmem href]

theorem Forest.Within.eq_of_leaf {x y : Nat} {f : Forest}
    (hleaf : ∀ n ∈ f.subtrees, n.1.ref = x → n.2 = Forest.nil) (h : Within x y f) : y = x := by
  obtain ⟨n, hn, h1, h2⟩ := h
  rcases h2 with h2 | h2
  · exact h2
  · rw [hleaf n hn h1] at h2; simp at h2

theorem Forest.setOpacity_of_not_mem {x : Nat} {v : String} {f : Forest} (h : x ∉ f.refs) :
    setOpacity x v f = f := by
  induction f with
  | nil => rfl
  | node e k r ihk ihr =>
    simp only [refs_node, List.mem_cons, List.mem_append, not_or] at h
    have hne : e.ref ≠ x := fun he => h.1 he.symm
    simp [setOpacity, Elem.setOpacityAt_of_ne hne, ihk h.2.1, ihr h.2.2]

/-- Removing an element removes every reference of its subtree. -/
theorem Forest.not_mem_refs_removeRef_of_within {x y : Nat} {f : Forest}
    (hnd : f.refs.Nodup) (h : Within x y f) : y ∉ (removeRef x f).refs := by
  induction f with
  | nil => simp [removeRef]
  | node e k r ihk ihr =>
    simp only [refs_node, List.nodup_cons, List.mem_append, not_or] at hnd
    obtain ⟨⟨hek, her⟩, hkr⟩ := hnd
    have hndk := (List.nodup_append.1 hkr).1
    have hndr := (List.nodup_append.1 hkr).2.1
    have hdisj := (List.nodup_append.1 hkr).2.2
    obtain ⟨n, hn, h1, h2⟩ := h
    have hy : y = n.1.ref ∨ y ∈ n.2.refs := by rw [h1]; exact h2
    simp only [subtrees_node, List.mem_cons, List.mem_append] at hn
    by_cases he : e.ref = x
    · simp only [removeRef, he, if_true]
      have hnek : n = (e, k) := by
        rcases hn with hn | hn | hn
        · exact hn
        · exact absurd (he ▸ h1 ▸ mem_refs_of_mem_subtrees hn) hek
        · exact absurd (he ▸ h1 ▸ mem_refs_of_mem_subtrees hn) her
      subst hnek
      intro hmem
      have hyr : y ∈ r.refs := (refs_removeRef_sublist x r).subset hmem
      rcases hy with hy | hy
      · exact her (hy ▸ hyr)
      · exact hdisj hy hyr
    · simp only [removeRef, he, if_false, refs_node, List.mem_cons, List.mem_append, not_or]
      rcases hn with hn | hn | hn
      · subst hn; exact absurd h1 he
      · have hyk : y ∈ k.refs := by
          rcases hy with hy | hy
          · exact hy ▸ mem_refs_of_mem_subtrees hn
          · exact refs_subset_of_mem_subtrees hn hy
        refine ⟨fun h => hek (h ▸ hyk), ihk hndk ⟨n, hn, h1, h2⟩, ?_⟩
        exact fun h => hdisj hyk ((refs_removeRef_sublist x r).subset h)
      · have hyr : y ∈ r.refs := by
          rcases hy with hy | hy
          · exact hy ▸ mem_refs_of_mem_subtrees hn
          · exact refs_subset_of_mem_subtrees hn hy
        refine ⟨fun h => her (h ▸ hyr), ?_, ihr hndr ⟨n, hn, h1, h2⟩⟩
        exact fun h => hdisj ((refs_removeRef_sublist x k).subset h) hyr

theorem Forest.removeRef_comm (a b : Nat) (f : Forest) :
    removeRef a (removeRef b f) = removeRef b (removeRef a f) := by
  induction f with
  | nil => rfl
  | node e k r ihk ihr =>
    by_cases ha : e.ref = a
    · by_cases hb : e.ref = b
      · rw [removeRef, if_pos hb, removeRef, if_pos ha, ihr]
      · rw [removeRef, if_neg hb, removeRef, if_pos ha, removeRef, if_pos ha, ihr]
    · by_cases hb : e.ref = b
      · rw [removeRef, if_pos hb, removeRef, if_neg ha, removeRef, if_pos hb, ihr]
      · rw [removeRef, if_neg hb, removeRef, if_neg ha, removeRef, if_neg ha, removeRef,
          if_neg hb, ihk, ihr]

/-! ### Timers -/

/-- The document once the removals `ts` have run. -/
theorem run_timers : ∀ (ts : List Nat) (σ : State), σ.timers = ts →
    (run σ (List.replicate ts.length Event.timer)).doc
        = ts.foldl (fun d g => removeRef g d) σ.doc
      ∧ (run σ (List.replicate ts.length Event.timer)).timers = []
      ∧ (run σ (List.replicate ts.length Event.timer)).nextRef = σ.nextRef
      ∧ (run σ (List.replicate ts.length Event.timer)).reads = σ.reads
  | [], σ, h => by simp [run, h]
  | g :: ts, σ, h => by
    have hstep : step σ Event.timer = { σ with doc := removeRef g σ.doc, timers := ts } := by
      simp [step, timerFire, h]
    have ih := run_timers ts { σ with doc := removeRef g σ.doc, timers := ts } rfl
    simp only [List.length_cons, List.replicate_succ, run, List.foldl_cons, hstep]
    exact ih

theorem foldl_removeRef_comm (a : Nat) : ∀ (ts : List Nat) (d : Forest),
    removeRef a (ts.foldl (fun d g => removeRef g d) d)
      = ts.foldl (fun d g => removeRef g d) (removeRef a d)
  | [], _ => rfl
  | g :: ts, d => by
    simp only [List.foldl_cons]
    rw [foldl_removeRef_comm a ts, removeRef_comm]

theorem refs_foldl_removeRef_subset : ∀ (ts : List Nat) (d : Forest) {y : Nat},
    y ∈ (ts.foldl (fun d g => removeRef g d) d).refs → y ∈ d.refs
  | [], _, _, h => h
  | g :: ts, d, _, h =>
    (refs_removeRef_sublist g d).subset (refs_foldl_removeRef_subset ts (removeRef g d) h)

/-! ### A successful click, step by step -/

/-- The hidden input found by the click listener when the gallery item holds
exactly one, a childless one. -/
theorem hidden_of_one {d gk : Forest} {G H : Elem} (hnd : d.refs.Nodup)
    (hG : (G, gk) ∈ d.subtrees) (hone : gk.elems.filter isHiddenInput = [H])
    (hvoid : (H, Forest.nil) ∈ gk.subtrees) :
    gk.querySelector isHiddenInput = some (H, Forest.nil) := by
  obtain ⟨hk, hq⟩ := querySelector_of_filter hone
  have h1 : (H, hk) ∈ d.subtrees := subtrees_trans hG (querySelector_some hq).1
  have h2 : (H, Forest.nil) ∈ d.subtrees := subtrees_trans hG hvoid
  rw [hq, subtree_unique hnd h1 h2 rfl]

/-- The first form is still the first form once a hidden input is removed. -/
theorem form_after_removal {d fk : Forest} {F H : Elem} (hnd : d.refs.Nodup)
    (hH : (H, Forest.nil) ∈ d.subtrees) (hhid : isHiddenInput H = true)
    (hF : d.querySelector isForm = some (F, fk)) :
    (removeRef H.ref d).querySelector isForm = some (F, removeRef H.ref fk) := by
  have hFs := querySelector_some hF
  have hne : F.ref ≠ H.ref := by
    intro h
    have := subtree_unique hnd hFs.1 hH h
    simp only [Prod.mk.injEq] at this
    have hform : isForm H = true := this.1 ▸ hFs.2
    simp only [isHiddenInput, Bool.and_eq_true, beq_iff_eq] at hhid
    simp [isForm, hhid.1] at hform
  rw [querySelector_removeRef, hF]
  · rfl
  · intro n hn hw
    rw [hF] at hn
    simp only [Option.some.injEq] at hn
    subst hn
    exact hne (hw.eq_of_leaf (leaf_of_mem hnd hH))

/-- A click on an element that is not in the document does nothing. -/
theorem clickHandler_detached {s : State} {t : Nat} (h : t ∉ s.doc.refs) :
    clickHandler s t = (s, none) := by
  simp [clickHandler, getByRef_none.2 h]

/-- The outcome of a click on a remove control whose gallery item holds exactly
one hidden input, on a page with a form. -/
theorem clickHandler_removal {s : State} {t : Nat} {tgt G H F : Elem} {tk gk fk : Forest}
    (hnd : s.doc.refs.Nodup)
    (htgt : s.doc.getByRef t = some (tgt, tk))
    (hcls : tgt.hasClass "remove-image" = true)
    (hitem : s.doc.closest isGalleryItem t = some (G, gk))
    (hone : gk.elems.filter isHiddenInput = [H])
    (hvoid : (H, Forest.nil) ∈ gk.subtrees)
    (hF : s.doc.querySelector isForm = some (F, fk)) :
    clickHandler s t =
      ({ s with
          doc := setOpacity G.ref "0" (appendChild F.ref
            (Forest.node (removedInput s.nextRef ((tgt.attr "data-filename").getD "undefined"))
              Forest.nil Forest.nil)
            (removeRef H.ref s.doc))
          nextRef := s.nextRef + 1
          timers := s.timers ++ [G.ref] }, none) := by
  have hG := (closest_spec hitem).1
  have hq := hidden_of_one hnd hG hone hvoid
  have hF1 := form_after_removal hnd (subtrees_trans hG hvoid) (querySelector_some hq).2 hF
  simp [clickHandler, htgt, hcls, hitem, hq, hF1]

/-- After the click the gallery item, faded, holds no hidden input, provided the
form is not part of the item. -/
theorem closest_after_removal {d gk : Forest} {t N : Nat} {G H F : Elem} {f : String}
    (hnd : d.refs.Nodup) (hfresh : ∀ r ∈ d.refs, r < N)
    (hitem : d.closest isGalleryItem t = some (G, gk))
    (hone : gk.elems.filter isHiddenInput = [H])
    (hvoid : (H, Forest.nil) ∈ gk.subtrees)
    (hout : F.ref ∉ G.ref :: gk.refs) (htH : t ≠ H.ref) :
    (setOpacity G.ref "0" (appendChild F.ref
        (Forest.node (removedInput N f) Forest.nil Forest.nil)
        (removeRef H.ref d))).closest isGalleryItem t
      = some (G.setOpacityAt G.ref "0", setOpacity G.ref "0" (removeRef H.ref gk))
    ∧ (setOpacity G.ref "0" (removeRef H.ref gk)).querySelector isHiddenInput = none := by
  have hG := closest_spec hitem
  have hHd : (H, Forest.nil) ∈ d.subtrees := subtrees_trans hG.1 hvoid
  have htlt : t < N := by
    rcases hG.2.2 with h | h
    · exact h ▸ hfresh _ (mem_refs_of_mem_subtrees hG.1)
    · exact hfresh _ (refs_subset_of_mem_subtrees hG.1 h)
  simp only [List.mem_cons, not_or] at hout
  constructor
  · rw [closest_setOpacity _ _ (by intro e; simp [isGalleryItem, Elem.hasClass]),
      closest_appendChild _ (by simp [removedInput]; omega),
      closest_removeRef (fun hw => htH (hw.eq_of_leaf (leaf_of_mem hnd hHd))), hitem]
    have hFk : F.ref ∉ (removeRef H.ref gk).refs := fun h =>
      hout.2 ((refs_removeRef_sublist _ _).subset h)
    have hGF : ¬ G.ref = F.ref := fun h => hout.1 h.symm
    simp [opSub, acSub, rmSub, hGF, appendChild_of_not_mem hFk]
  · rw [querySelector_none]
    intro e he
    rw [elems_setOpacity, elems_removeRef_leaf
      (fun n hn => leaf_of_mem hnd hHd n (subtrees_trans hG.1 hn))] at he
    obtain ⟨e0, he0, rfl⟩ := List.mem_map.1 he
    have hop : isHiddenInput (e0.setOpacityAt G.ref "0") = isHiddenInput e0 := by
      simp [isHiddenInput, Elem.attr]
    rw [hop]
    simp only [List.mem_filter, bne_iff_ne, ne_eq, decide_eq_true_eq] at he0
    by_contra hc
    have hmem : e0 ∈ gk.elems.filter isHiddenInput :=
      List.mem_filter.2 ⟨he0.1, by simpa using hc⟩
    rw [hone, List.mem_singleton] at hmem
    exact he0.2 (by rw [hmem])

/-! ### Subtrees after the mutations -/

theorem Forest.subtrees_setOpacity (x : Nat) (v : String) (f : Forest) :
    (setOpacity x v f).subtrees = f.subtrees.map (opSub x v) := by
  induction f with
  | nil => rfl
  | node e k r ihk ihr => simp [setOpacity, ihk, ihr, opSub]

theorem Forest.mem_subtrees_removeRef {x : Nat} {f : Forest} {m : Elem × Forest}
    (h : m ∈ (removeRef x f).subtrees) : ∃ n ∈ f.subtrees, m = rmSub x n := by
  induction f with
  | nil => simp [removeRef] at h
  | node e k r ihk ihr =>
    simp only [removeRef] at h
    by_cases he : e.ref = x
    · simp only [he, if_true] at h
      obtain ⟨n, hn, hm⟩ := ihr h
      exact ⟨n, by simp [hn], hm⟩
    · simp only [he, if_false, subtrees_node, List.mem_cons, List.mem_append] at h
      rcases h with h | h | h
      · exact ⟨(e, k), by simp, h⟩
      · obtain ⟨n, hn, hm⟩ := ihk h
        exact ⟨n, by simp [hn], hm⟩
      · obtain ⟨n, hn, hm⟩ := ihr h
        exact ⟨n, by simp [hn], hm⟩

theorem Forest.mem_subtrees_appendChild_inv {x : Nat} {sub f : Forest} {m : Elem × Forest}
    (h : m ∈ (appendChild x sub f).subtrees) :
    m ∈ sub.subtrees ∨ ∃ n ∈ f.subtrees, m = acSub x sub n := by
  induction f with
  | nil => simp [appendChild] at h
  | node e k r ihk ihr =>
    simp only [appendChild, subtrees_node, List.mem_cons, List.mem_append] at h
    rcases h with h | h | h
    · exact Or.inr ⟨(e, k), by simp, h⟩
    · have hk : m ∈ (appendChild x sub k).subtrees ∨ m ∈ sub.subtrees := by
        by_cases he : e.ref = x
        · simp only [he, if_true, subtrees_append, List.mem_append] at h
          exact h
        · simp only [he, if_false] at h
          exact Or.inl h
      rcases hk with hk | hk
      · rcases ihk hk with h1 | ⟨n, hn, hm⟩
        · exact Or.inl h1
        · exact Or.inr ⟨n, by simp [hn], hm⟩
      · exact Or.inl hk
    · rcases ihr h with h1 | ⟨n, hn, hm⟩
      · exact Or.inl h1
      · exact Or.inr ⟨n, by simp [hn], hm⟩

/-! ### `Within` after the mutations -/

theorem Forest.Within.of_setOpacity {a y x : Nat} {v : String} {f : Forest}
    (h : Within a y (setOpacity x v f)) : Within a y f := by
  obtain ⟨m, hm, h1, h2⟩ := h
  rw [subtrees_setOpacity] at hm
  obtain ⟨n, hn, rfl⟩ := List.mem_map.1 hm
  exact ⟨n, hn, by simpa [opSub] using h1, by simpa [opSub] using h2⟩

theorem Forest.Within.of_removeRef {a y x : Nat} {f : Forest}
    (h : Within a y (removeRef x f)) : Within a y f := by
  obtain ⟨m, hm, h1, h2⟩ := h
  obtain ⟨n, hn, rfl⟩ := mem_subtrees_removeRef hm
  refine ⟨n, hn, h1, ?_⟩
  rcases h2 with h2 | h2
  · exact Or.inl h2
  · exact Or.inr ((refs_removeRef_sublist x n.2).subset h2)

theorem Forest.Within.of_appendChild {a y x : Nat} {sub f : Forest}
    (h : Within a y (appendChild x sub f)) :
    a ∈ sub.refs ∨ Within a y f ∨ (y ∈ sub.refs ∧ Within a x f) := by
  obtain ⟨m, hm, h1, h2⟩ := h
  rcases mem_subtrees_appendChild_inv hm with hs | ⟨n, hn, rfl⟩
  · exact Or.inl (h1 ▸ mem_refs_of_mem_subtrees hs)
  · simp only [acSub] at h1 h2
    rcases h2 with h2 | h2
    · exact Or.inr (Or.inl ⟨n, hn, h1, Or.inl h2⟩)
    · by_cases hx : n.1.ref = x
      · simp only [hx, if_true, refs_append, List.mem_append] at h2
        rcases h2 with h2 | h2
        · rcases mem_refs_appendChild.1 h2 with h3 | ⟨h3, h4⟩
          · exact Or.inr (Or.inl ⟨n, hn, h1, Or.inr h3⟩)
          · exact Or.inr (Or.inr ⟨h4, n, hn, h1, Or.inr h3⟩)
        · exact Or.inr (Or.inr ⟨h2, n, hn, h1, Or.inl (by rw [← hx, h1])⟩)
      · simp only [hx, if_false] at h2
        rcases mem_refs_appendChild.1 h2 with h3 | ⟨h3, h4⟩
        · exact Or.inr (Or.inl ⟨n, hn, h1, Or.inr h3⟩)
        · exact Or.inr (Or.inr ⟨h4, n, hn, h1, Or.inr h3⟩)

theorem Forest.Within.of_subtree {a y : Nat} {f : Forest} {n : Elem × Forest}
    (hn : n ∈ f.subtrees) (h : Within a y n.2) : Within a y f := by
  obtain ⟨m, hm, h1, h2⟩ := h
  exact ⟨m, subtrees_trans hn hm, h1, h2⟩

/-- With distinct references the descendants of an element are those of the
subtree carrying its reference. -/
theorem Forest.Within.of_unique {y : Nat} {f : Forest} {n : Elem × Forest}
    (hnd : f.refs.Nodup) (hn : n ∈ f.subtrees) (h : Within n.1.ref y f) :
    y ∈ n.1.ref :: n.2.refs := by
  obtain ⟨m, hm, h1, h2⟩ := h
  rw [subtree_unique hnd hm hn h1] at h2
  exact List.mem_cons.2 h2

/-! ### Elements kept by the mutations -/

theorem Forest.mem_elems_removeRef {x : Nat} {f : Forest} {a : Elem} (ha : a ∈ f.elems)
    (hw : ¬ Within x a.ref f) : a ∈ (removeRef x f).elems := by
  induction f with
  | nil => simp at ha
  | node e k r ihk ihr =>
    simp only [elems_node, List.mem_cons, List.mem_append] at ha
    by_cases he : e.ref = x
    · simp only [removeRef, he, if_true]
      rcases ha with ha | ha | ha
      · exact absurd ⟨(e, k), by simp, he, Or.inl (by rw [ha, he])⟩ hw
      · exact absurd ⟨(e, k), by simp, he, Or.inr (List.mem_map_of_mem _ ha)⟩ hw
      · exact ihr ha (fun h => hw h.rest)
    · simp only [removeRef, he, if_false, elems_node, List.mem_cons, List.mem_append]
      rcases ha with ha | ha | ha
      · exact Or.inl ha
      · exact Or.inr (Or.inl (ihk ha (fun h => hw h.kids)))
      · exact Or.inr (Or.inr (ihr ha (fun h => hw h.rest)))

theorem Forest.filter_elems_removeRef {p : Elem → Bool} {x : Nat} {f : Forest}
    (h : ∀ a ∈ f.elems, p a = true → ¬ Within x a.ref f) :
    (removeRef x f).elems.filter p = f.elems.filter p := by
  induction f with
  | nil => rfl
  | node e k r ihk ihr =>
    have hk := ihk (fun a ha hp hw => h a (by simp [ha]) hp hw.kids)
    have hr := ihr (fun a ha hp hw => h a (by simp [ha]) hp hw.rest)
    by_cases he : e.ref = x
    · have hpe : p e = false := by
        by_contra hc
        exact h e (by simp) (by simpa using hc) ⟨(e, k), by simp, he, Or.inl he⟩
      have hpk : k.elems.filter p = [] := by
        rw [List.filter_eq_nil_iff]
        intro a ha hp
        exact h a (by simp [ha]) hp ⟨(e, k), by simp, he, Or.inr (List.mem_map_of_mem _ ha)⟩
      simp [removeRef, he, hr, List.filter_cons, hpe, hpk]
    · simp [removeRef, he, hk, hr, List.filter_cons]

theorem Forest.mem_elems_appendChild {x : Nat} {sub f : Forest} {a : Elem}
    (ha : a ∈ f.elems) : a ∈ (appendChild x sub f).elems := by
  rw [← List.count_pos_iff] at ha ⊢
  rw [count_elems_appendChild]
  omega

theorem markersFrom_append (start : Nat) (fs : List String) (f : String) :
    markersFrom start (fs ++ [f])
      = markersFrom start fs ++ [removedInput (start + fs.length) f] := by
  induction fs generalizing start with
  | nil => simp [markersFrom]
  | cons g fs ih =>
    have hlen : start + 1 + fs.length = start + (fs.length + 1) := by omega
    show removedInput start g :: markersFrom (start + 1) (fs ++ [f]) = _
    rw [ih, hlen]
    rfl

theorem mem_markersFrom {start : Nat} {fs : List String} {e : Elem}
    (h : e ∈ markersFrom start fs) : start ≤ e.ref ∧ isRemovedMarker e = true := by
  induction fs generalizing start with
  | nil => simp [markersFrom] at h
  | cons g fs ih =>
    simp only [markersFrom, List.mem_cons] at h
    rcases h with h | h
    · subst h; exact ⟨Nat.le_refl _, rfl⟩
    · have := ih h
      exact ⟨by omega, this.2⟩

/-! ### A run of removals keeps the invariant -/

theorem Removal.Ready.getByRef {d : Forest} {g : Nat} {c : Removal} (h : c.Ready d g) :
    ∃ tk, d.getByRef c.target = some (c.control, tk) := by
  have h1 := h.1
  cases hq : d.getByRef c.target with
  | none => rw [hq] at h1; cases h1
  | some n =>
    rw [hq] at h1
    simp only [Option.map_some', Option.some.injEq] at h1
    exact ⟨n.2, by rw [← h1]⟩

theorem Removal.Ready.target_mem {d : Forest} {g : Nat} {c : Removal} (h : c.Ready d g) :
    c.target ∈ c.refs :=
  List.mem_cons.2 (closest_spec h.2.2.2.1).2.2

theorem Removal.Ready.control_ref {d : Forest} {g : Nat} {c : Removal} (h : c.Ready d g) :
    c.control.ref = c.target := by
  obtain ⟨tk, htk⟩ := h.getByRef
  exact (getByRef_some htk).2

theorem Removal.Ready.hidden_mem {d : Forest} {g : Nat} {c : Removal} (h : c.Ready d g) :
    c.hidden.ref ∈ c.refs :=
  List.mem_cons_of_mem _ (mem_refs_of_mem_subtrees h.2.2.2.2.2.1)

theorem filter_map_of_invariant {p : Elem → Bool} {g : Elem → Elem}
    (hp : ∀ e, p (g e) = p e) (l : List Elem) :
    (l.map g).filter p = (l.filter p).map g := by
  rw [List.filter_map]
  congr 1
  exact List.filter_congr (fun e _ => hp e)

theorem map_eq_self_of {g : Elem → Elem} {l : List Elem} (h : ∀ e ∈ l, g e = e) :
    l.map g = l := by
  induction l with
  | nil => rfl
  | cons a l ih =>
    simp only [List.map_cons, h a (List.mem_cons_self _ _),
      ih (fun e he => h e (List.mem_cons_of_mem _ he))]

/-- The control of a removal is found unchanged after a mutation that leaves
the gallery item of the removal alone. -/
theorem ready_after_click {d : Forest} {g N : Nat} {c c' : Removal} {F : Elem} {f : String}
    (hnd : d.refs.Nodup) (hfresh : ∀ r ∈ d.refs, r < N)
    (hc : c.Ready d g) (hc' : c'.Ready d g)
    (hdisj : List.Disjoint c.refs c'.refs) (hout : F.ref ∉ c'.refs) :
    c'.Ready (setOpacity c.item.ref "0" (appendChild F.ref
      (Forest.node (removedInput N f) Forest.nil Forest.nil)
      (removeRef c.hidden.ref d))) g := by
  obtain ⟨tk, htk⟩ := hc'.getByRef
  have hG := closest_spec hc.2.2.2.1
  have hG' := closest_spec hc'.2.2.2.1
  have hHd : (c.hidden, Forest.nil) ∈ d.subtrees := subtrees_trans hG.1 hc.2.2.2.2.2.1
  have ht'mem : c'.target ∈ c'.refs := hc'.target_mem
  have hnotW : ¬ Within c.hidden.ref c'.target d := fun hw =>
    hdisj hc.hidden_mem ((hw.eq_of_leaf (leaf_of_mem hnd hHd)) ▸ ht'mem)
  have ht'lt : c'.target < N := by
    rcases hG'.2.2 with h | h
    · exact h ▸ hfresh _ (mem_refs_of_mem_subtrees hG'.1)
    · exact hfresh _ (refs_subset_of_mem_subtrees hG'.1 h)
  have hmk : c'.target ∉ (Forest.node (removedInput N f) Forest.nil Forest.nil).refs := by
    simp only [refs_node, refs_nil, List.append_nil, List.mem_singleton, removedInput]
    omega
  have hGG' : c'.item.ref ≠ c.item.ref := fun h =>
    hdisj (List.mem_cons_self _ _) (h ▸ List.mem_cons_self _ _)
  have hGk' : c.item.ref ∉ c'.itemKids.refs := fun h =>
    hdisj (List.mem_cons_self _ _) (List.mem_cons_of_mem _ h)
  have hHk' : c.hidden.ref ∉ c'.itemKids.refs := fun h =>
    hdisj hc.hidden_mem (List.mem_cons_of_mem _ h)
  have hFG' : ¬ c'.item.ref = F.ref := fun h => hout (h ▸ List.mem_cons_self _ _)
  have hFk' : F.ref ∉ c'.itemKids.refs := fun h => hout (List.mem_cons_of_mem _ h)
  have hctl : c'.control.ref ≠ c.item.ref := fun h =>
    hdisj (List.mem_cons_self _ _) (h ▸ hc'.control_ref ▸ ht'mem)
  refine ⟨?_, hc'.2.1, hc'.2.2.1, ?_, hc'.2.2.2.2.1, hc'.2.2.2.2.2.1, ?_⟩
  · unfold Forest.getByRef at htk ⊢
    rw [querySelector_setOpacity _ _ (by intro e; simp),
      querySelector_appendChild _ (by
        intro e he
        simp only [elems_node, elems_nil, List.append_nil, List.mem_singleton] at he
        subst he
        simp only [removedInput, beq_eq_false_iff_ne, ne_eq]
        omega),
      querySelector_removeRef, htk]
    · simp [opSub, acSub, rmSub, Elem.setOpacityAt_of_ne hctl]
    · intro n hn hw
      rw [htk] at hn
      simp only [Option.some.injEq] at hn
      subst hn
      exact hnotW (hc'.control_ref ▸ hw)
  · rw [closest_setOpacity _ _ (by intro e; simp [isGalleryItem, Elem.hasClass]),
      closest_appendChild _ hmk, closest_removeRef hnotW, hc'.2.2.2.1]
    simp [opSub, acSub, rmSub, hFG', removeRef_of_not_mem hHk',
      appendChild_of_not_mem hFk', setOpacity_of_not_mem hGk',
      Elem.setOpacityAt_of_ne hGG']
  · have hin := hc'.2.2.2.2.2.2
    unfold inside at hin ⊢
    rw [closest_setOpacity _ _ (by intro e; simp),
      closest_appendChild _ hmk, closest_removeRef hnotW]
    cases hcl : d.closest (fun e => e.ref == g) c'.target with
    | none => rw [hcl] at hin; cases hin
    | some n => rfl

theorem ready_after_timer {d : Forest} {g : Nat} {c c' : Removal}
    (hc' : c'.Ready d g) (hdisj : List.Disjoint c.refs c'.refs)
    (hw : ∀ y, Within c.item.ref y d → y ∈ c.refs) :
    c'.Ready (removeRef c.item.ref d) g := by
  obtain ⟨tk, htk⟩ := hc'.getByRef
  have hnotW : ¬ Within c.item.ref c'.target d := fun h =>
    hdisj (hw _ h) hc'.target_mem
  have hGk' : c.item.ref ∉ c'.itemKids.refs := fun h =>
    hdisj (List.mem_cons_self _ _) (List.mem_cons_of_mem _ h)
  refine ⟨?_, hc'.2.1, hc'.2.2.1, ?_, hc'.2.2.2.2.1, hc'.2.2.2.2.2.1, ?_⟩
  · unfold Forest.getByRef at htk ⊢
    rw [querySelector_removeRef, htk]
    · rfl
    · intro n hn hw'
      rw [htk] at hn
      simp only [Option.some.injEq] at hn
      subst hn
      exact hnotW (hc'.control_ref ▸ hw')
  · rw [closest_removeRef hnotW, hc'.2.2.2.1]
    simp [rmSub, removeRef_of_not_mem hGk']
  · have hin := hc'.2.2.2.2.2.2
    unfold inside at hin ⊢
    rw [closest_removeRef hnotW]
    cases hcl : d.closest (fun e => e.ref == g) c'.target with
    | none => rw [hcl] at hin; cases hin
    | some n => rfl

theorem removedInput_isMarker (N : Nat) (f : String) :
    isRemovedMarker (removedInput N f) = true := by
  simp [isRemovedMarker, isHiddenInput, removedInput, Elem.attr]

/-- The form and its markers after a click. -/
theorem form_after_click {d fk : Forest} {F G H : Elem} {N N0 : Nat} {f : String}
    {fs : List String}
    (hnd : d.refs.Nodup) (hH : (H, Forest.nil) ∈ d.subtrees) (hhid : isHiddenInput H = true)
    (hF : d.querySelector isForm = some (F, fk))
    (hM : fk.elems.filter isRemovedMarker = markersFrom N0 fs)
    (hN : N = N0 + fs.length) (hGlt : G.ref < N0) (hHlt : H.ref < N0) (hFG : F.ref ≠ G.ref) :
    ∃ fk', (setOpacity G.ref "0" (appendChild F.ref
        (Forest.node (removedInput N f) Forest.nil Forest.nil)
        (removeRef H.ref d))).querySelector isForm = some (F, fk')
      ∧ fk'.elems.filter isRemovedMarker = markersFrom N0 (fs ++ [f]) := by
  have hFs := (querySelector_some hF).1
  have hFk : F.ref ∉ fk.refs := not_mem_kids_of_nodup hnd hFs
  have hFk1 : F.ref ∉ (removeRef H.ref fk).refs := fun h =>
    hFk ((refs_removeRef_sublist _ _).subset h)
  have hF1 := form_after_removal hnd hH hhid hF
  refine ⟨setOpacity G.ref "0" (append (removeRef H.ref fk)
    (Forest.node (removedInput N f) Forest.nil Forest.nil)), ?_, ?_⟩
  · rw [querySelector_setOpacity _ _ (by intro e; simp [isForm]),
      querySelector_appendChild _ (by
        intro e he
        simp only [elems_node, elems_nil, List.append_nil, List.mem_singleton] at he
        subst he; rfl), hF1]
    simp [opSub, acSub, appendChild_of_not_mem hFk1, Elem.setOpacityAt_of_ne hFG]
  · have hleaf : ∀ n ∈ fk.subtrees, n.1.ref = H.ref → n.2 = Forest.nil := fun n hn =>
      leaf_of_mem hnd hH n (subtrees_trans hFs hn)
    have hop : ∀ e : Elem, isRemovedMarker (e.setOpacityAt G.ref "0") = isRemovedMarker e := by
      intro e; simp [isRemovedMarker, isHiddenInput, Elem.attr]
    rw [elems_setOpacity, filter_map_of_invariant hop, elems_append, elems_removeRef_leaf hleaf,
      List.filter_append, List.filter_filter]
    have h1 : fk.elems.filter (fun a => isRemovedMarker a && (a.ref != H.ref))
        = markersFrom N0 fs := by
      have h2 : fk.elems.filter (fun a => isRemovedMarker a && (a.ref != H.ref))
          = (fk.elems.filter isRemovedMarker).filter (fun a => a.ref != H.ref) := by
        rw [List.filter_filter]
        exact List.filter_congr (fun a _ => Bool.and_comm _ _)
      rw [h2, hM, List.filter_eq_self]
      intro a ha
      have := (mem_markersFrom ha).1
      simp only [bne_iff_ne, ne_eq, decide_eq_true_eq]
      omega
    rw [h1, markersFrom_append, ← hN]
    simp only [elems_node, elems_nil, List.append_nil, List.filter_cons,
      removedInput_isMarker, if_true, List.filter_nil]
    refine map_eq_self_of ?_
    intro e he
    refine Elem.setOpacityAt_of_ne ?_
    rcases List.mem_append.1 he with h | h
    · have := (mem_markersFrom h).1; omega
    · simp only [List.mem_singleton] at h
      subst h; simp only [removedInput]; omega

/-- The invariant after the click of the next removal. -/
theorem RemovalInv.click {s σ : State} {g : Nat} {F : Elem} {cs done todo : List Removal}
    {c : Removal}
    (hold : ∀ c ∈ cs, ∀ y ∈ c.refs, y < s.nextRef)
    (hhid : ∀ c ∈ cs, c.hidden.ref ∈ c.refs)
    (hout : ∀ c ∈ cs, F.ref ∉ c.refs)
    (hdisj : cs.Pairwise (fun a b => List.Disjoint a.refs b.refs))
    (hsplit : cs = done ++ c :: todo)
    (hinv : RemovalInv s g F cs done (c :: todo) σ) :
    RemovalInv s g F cs (done ++ [c]) todo (step σ (Event.click c.target)) := by
  obtain ⟨hnd, hfresh⟩ := hinv.wf
  have hc := hinv.ready c (List.mem_cons_self _ _)
  have hccs : c ∈ cs := by rw [hsplit]; simp
  obtain ⟨tk, htk⟩ := hc.getByRef
  obtain ⟨fk, hF, hM⟩ := hinv.form
  have hG := closest_spec hc.2.2.2.1
  have hHd : (c.hidden, Forest.nil) ∈ σ.doc.subtrees := subtrees_trans hG.1 hc.2.2.2.2.2.1
  have hq := hidden_of_one hnd hG.1 hc.2.2.2.2.1 hc.2.2.2.2.2.1
  have hHhid : isHiddenInput c.hidden = true := (querySelector_some hq).2
  have hGlt : c.item.ref < s.nextRef := hold c hccs _ (List.mem_cons_self _ _)
  have hHlt : c.hidden.ref < s.nextRef := hold c hccs _ (hhid c hccs)
  have hN0 : s.nextRef ≤ σ.nextRef := by rw [hinv.next]; omega
  have hFG : F.ref ≠ c.item.ref := fun h => hout c hccs (h ▸ List.mem_cons_self _ _)
  have hleaf := leaf_of_mem hnd hHd
  have hstep : step σ (Event.click c.target) =
      { σ with
        doc := setOpacity c.item.ref "0" (appendChild F.ref
          (Forest.node (removedInput σ.nextRef c.filename) Forest.nil Forest.nil)
          (removeRef c.hidden.ref σ.doc))
        nextRef := σ.nextRef + 1
        timers := σ.timers ++ [c.item.ref] } := by
    have hres := clickHandler_removal hnd htk hc.2.1 hc.2.2.2.1 hc.2.2.2.2.1 hc.2.2.2.2.2.1 hF
    rw [hc.2.2.1] at hres
    simp only [step, hinv.preview, hc.2.2.2.2.2.2, if_true, hres, Option.getD_some]
  have hmem3 : ∀ y ∈ (setOpacity c.item.ref "0" (appendChild F.ref
      (Forest.node (removedInput σ.nextRef c.filename) Forest.nil Forest.nil)
      (removeRef c.hidden.ref σ.doc))).refs,
      y ∈ (removeRef c.hidden.ref σ.doc).refs ∨ y = σ.nextRef := by
    intro y hy
    rw [refs_setOpacity] at hy
    rcases mem_refs_appendChild.1 hy with h | ⟨_, h⟩
    · exact Or.inl h
    · exact Or.inr (by simpa [removedInput] using h)
  have hpairs : ∀ c' ∈ todo, List.Disjoint c.refs c'.refs := by
    rw [hsplit, List.pairwise_append] at hdisj
    exact fun c' hc' => (List.pairwise_cons.1 hdisj.2.1).1 c' hc'
  rw [hstep]
  refine
    { wf := ⟨?_, ?_⟩
      next := by simp only [List.length_append, List.length_singleton, hinv.next]; omega
      preview := hinv.preview
      form := ?_
      ready := ?_
      within := ?_
      timers := ?_
      kept := ?_
      gone := ?_ }
  · show (setOpacity _ _ _).refs.Nodup
    rw [refs_setOpacity]
    refine nodup_appendChild (nodup_removeRef hnd) (by simp) ?_
    intro y hy h
    simp only [refs_node, refs_nil, List.append_nil, List.mem_singleton, removedInput] at hy
    have := hfresh y ((refs_removeRef_sublist _ _).subset h)
    omega
  · intro r hr
    show r < σ.nextRef + 1
    rcases hmem3 r hr with h | h
    · exact Nat.lt_succ_of_lt (hfresh r ((refs_removeRef_sublist _ _).subset h))
    · omega
  · have := form_after_click (G := c.item) (f := c.filename) hnd hHd hHhid hF hM
      (show σ.nextRef = s.nextRef + (done.map Removal.filename).length by
        rw [hinv.next]; simp) hGlt hHlt hFG
    simpa using this
  · intro c' hc'
    have hc'cs : c' ∈ cs := by rw [hsplit]; simp [hc']
    exact ready_after_click hnd hfresh hc (hinv.ready c' (List.mem_cons_of_mem _ hc'))
      (hpairs c' hc') (hout c' hc'cs)
  · intro c'' hc'' y hw
    have hlt : c''.item.ref < s.nextRef := hold c'' hc'' _ (List.mem_cons_self _ _)
    rcases hw.of_setOpacity.of_appendChild with h | h | ⟨_, h⟩
    · simp only [refs_node, refs_nil, List.append_nil, List.mem_singleton, removedInput] at h
      omega
    · exact hinv.within c'' hc'' y h.of_removeRef
    · exact absurd (hinv.within c'' hc'' _ h.of_removeRef) (hout c'' hc'')
  · intro x hx
    rcases List.mem_append.1 hx with h | h
    · obtain ⟨c0, hc0, h0⟩ := hinv.timers x h
      exact ⟨c0, List.mem_append_left _ hc0, h0⟩
    · simp only [List.mem_singleton] at h
      exact ⟨c, by simp, h⟩
  · intro e he hall
    have he1 := hinv.kept e he hall
    have hne : e.ref ≠ c.item.ref := fun h => hall c hccs (h ▸ List.mem_cons_self _ _)
    have hneH : e.ref ≠ c.hidden.ref := fun h => hall c hccs (h ▸ hhid c hccs)
    show e ∈ (setOpacity _ _ _).elems
    rw [elems_setOpacity]
    refine List.mem_map.2 ⟨e, mem_elems_appendChild ?_, Elem.setOpacityAt_of_ne hne⟩
    rw [elems_removeRef_leaf hleaf]
    exact List.mem_filter.2 ⟨he1, by simpa using hneH⟩
  · intro c0 hc0 hmem
    rcases hmem3 _ hmem with h | h
    · rcases List.mem_append.1 hc0 with h0 | h0
      · exact hinv.gone c0 h0 ((refs_removeRef_sublist _ _).subset h)
      · simp only [List.mem_singleton] at h0
        subst h0
        exact not_mem_refs_removeRef _ _ h
    · have hc0cs : c0 ∈ cs := by
        rw [hsplit]
        rcases List.mem_append.1 hc0 with h0 | h0
        · exact List.mem_append_left _ h0
        · simp only [List.mem_singleton] at h0
          subst h0; simp
      have := hold c0 hc0cs _ (hhid c0 hc0cs)
      omega

/-- The invariant after a timer has fired. -/
theorem RemovalInv.timer {s σ : State} {g : Nat} {F : Elem} {cs done todo : List Removal}
    (hold : ∀ c ∈ cs, ∀ y ∈ c.refs, y < s.nextRef)
    (hout : ∀ c ∈ cs, F.ref ∉ c.refs)
    (hdisj : cs.Pairwise (fun a b => List.Disjoint a.refs b.refs))
    (hsplit : cs = done ++ todo)
    (hinv : RemovalInv s g F cs done todo σ) :
    RemovalInv s g F cs done todo (step σ Event.timer) := by
  cases hts : σ.timers with
  | nil =>
    have : step σ Event.timer = σ := by simp [step, timerFire, hts]
    rw [this]; exact hinv
  | cons x rest =>
    obtain ⟨hnd, hfresh⟩ := hinv.wf
    obtain ⟨c, hcdone, hx⟩ := hinv.timers x (by rw [hts]; simp)
    have hccs : c ∈ cs := by rw [hsplit]; exact List.mem_append_left _ hcdone
    obtain ⟨fk, hF, hM⟩ := hinv.form
    have hw := hinv.within c hccs
    have hstep : step σ Event.timer
        = { σ with doc := removeRef c.item.ref σ.doc, timers := rest } := by
      simp [step, timerFire, hts, hx]
    have hpairs : ∀ c' ∈ todo, List.Disjoint c.refs c'.refs := by
      rw [hsplit, List.pairwise_append] at hdisj
      exact fun c' hc' => hdisj.2.2 c hcdone c' hc'
    rw [hstep]
    refine
      { wf := ⟨nodup_removeRef hnd, fun r hr => hfresh r ((refs_removeRef_sublist _ _).subset hr)⟩
        next := hinv.next
        preview := hinv.preview
        form := ?_
        ready := ?_
        within := fun c'' hc'' y h => hinv.within c'' hc'' y h.of_removeRef
        timers := fun y hy => hinv.timers y (by rw [hts]; exact List.mem_cons_of_mem _ hy)
        kept := ?_
        gone := fun c0 hc0 h => hinv.gone c0 hc0 ((refs_removeRef_sublist _ _).subset h) }
    · refine ⟨removeRef c.item.ref fk, ?_, ?_⟩
      · show (removeRef c.item.ref σ.doc).querySelector isForm = _
        rw [querySelector_removeRef, hF]
        · rfl
        · intro n hn hwn
          rw [hF] at hn
          simp only [Option.some.injEq] at hn
          subst hn
          exact hout c hccs (hw _ hwn)
      · rw [filter_elems_removeRef, hM]
        intro a ha hp hwa
        have h1 : a ∈ markersFrom s.nextRef (done.map Removal.filename) :=
          hM ▸ List.mem_filter.2 ⟨ha, hp⟩
        have h2 := hold c hccs _ (hw _ (hwa.of_subtree (querySelector_some hF).1))
        have h3 := (mem_markersFrom h1).1
        omega
    · intro c' hc'
      exact ready_after_timer (hinv.ready c' hc') (hpairs c' hc') hw
    · intro e he hall
      exact mem_elems_removeRef (hinv.kept e he hall) (fun h => hall c hccs (hw _ h))

theorem markersFrom_fields (start : Nat) (fs : List String) :
    (markersFrom start fs).map (fun e => (e.tag, e.attr "type", e.attr "name", e.attr "value"))
      = fs.map (fun f => ("input", some "hidden", some "removed_gallery_images", some f)) := by
  induction fs generalizing start with
  | nil => rfl
  | cons f fs ih =>
    simp only [markersFrom, List.map_cons, ih]
    rfl

/-- A run of clicks on the controls of `todo`, with timers firing in between,
ends with every removal done. -/
theorem removal_run {s : State} {g : Nat} {F : Elem} {cs : List Removal}
    (hold : ∀ c ∈ cs, ∀ y ∈ c.refs, y < s.nextRef)
    (hhid : ∀ c ∈ cs, c.hidden.ref ∈ c.refs)
    (hout : ∀ c ∈ cs, F.ref ∉ c.refs)
    (hdisj : cs.Pairwise (fun a b => List.Disjoint a.refs b.refs)) :
    ∀ (evs : List Event) (done todo : List Removal) (σ : State), cs = done ++ todo →
      RemovalInv s g F cs done todo σ →
      isRemovalRun (todo.map Removal.target) evs = true →
      RemovalInv s g F cs cs [] (run σ evs)
  | [], done, todo, σ, hsplit, hinv, hrun => by
    cases todo with
    | nil =>
      simp only [List.append_nil] at hsplit
      subst hsplit
      exact hinv
    | cons c todo => simp [isRemovalRun] at hrun
  | ev :: evs, done, todo, σ, hsplit, hinv, hrun => by
    cases ev with
    | timer =>
      have hrun' : isRemovalRun (todo.map Removal.target) evs = true := by
        cases todo <;> simpa [isRemovalRun] using hrun
      exact removal_run hold hhid hout hdisj evs done todo (step σ Event.timer) hsplit
        (hinv.timer hold hout hdisj hsplit) hrun'
    | click u =>
      cases todo with
      | nil => simp [isRemovalRun] at hrun
      | cons c todo =>
        simp only [List.map_cons, isRemovalRun, Bool.and_eq_true, beq_iff_eq] at hrun
        obtain ⟨hu, hrun'⟩ := hrun
        subst hu
        exact removal_run hold hhid hout hdisj evs (done ++ [c]) todo
          (step σ (Event.click c.target)) (by simp [hsplit])
          (hinv.click hold hhid hout hdisj hsplit) hrun'
    | change fs => cases todo <;> simp [isRemovalRun] at hrun
    | loaded i => cases todo <;> simp [isRemovalRun] at hrun
    | failed i => cases todo <;> simp [isRemovalRun] at hrun

theorem markersFrom_append_list (start : Nat) (fs gs : List String) :
    markersFrom start (fs ++ gs) = markersFrom start fs ++ markersFrom (start + fs.length) gs := by
  induction fs generalizing start with
  | nil => simp [markersFrom]
  | cons f fs ih =>
    have hlen : start + 1 + fs.length = start + (fs.length + 1) := by omega
    show removedInput start f :: markersFrom (start + 1) (fs ++ gs) = _
    rw [ih, hlen]
    rfl

/-- The beginning of a removal run is a removal run of the first targets. -/
theorem isRemovalRun_split : ∀ (evs1 evs2 : List Event) (ts : List Nat),
    isRemovalRun ts (evs1 ++ evs2) = true →
    ∃ ts1 ts2, ts = ts1 ++ ts2 ∧ isRemovalRun ts1 evs1 = true ∧ isRemovalRun ts2 evs2 = true
  | [], evs2, ts, h => ⟨[], ts, rfl, by simp [isRemovalRun], by simpa using h⟩
  | ev :: evs1, evs2, ts, h => by
    cases ev with
    | timer =>
      have h' : isRemovalRun ts (evs1 ++ evs2) = true := by
        cases ts <;> simpa [isRemovalRun] using h
      obtain ⟨ts1, ts2, hts, h1, h2⟩ := isRemovalRun_split evs1 evs2 ts h'
      refine ⟨ts1, ts2, hts, ?_, h2⟩
      cases ts1 <;> simpa [isRemovalRun] using h1
    | click u =>
      cases ts with
      | nil => simp [isRemovalRun] at h
      | cons t ts =>
        simp only [List.cons_append, isRemovalRun, Bool.and_eq_true, beq_iff_eq] at h
        obtain ⟨ts1, ts2, hts, h1, h2⟩ := isRemovalRun_split evs1 evs2 ts h.2
        exact ⟨t :: ts1, ts2, by simp [hts], by simp [isRemovalRun, h.1, h1], h2⟩
    | change fs => cases ts <;> simp [isRemovalRun] at h
    | loaded i => cases ts <;> simp [isRemovalRun] at h
    | failed i => cases ts <;> simp [isRemovalRun] at h

/-- The page after a run of removals. -/
theorem removal_result {s : State} {g : Nat} {F : Elem} {fk : Forest}
    (cs : List Removal) (evs : List Event) (hwf : s.WF)
    (hgp : s.galleryPreview = some g) (htimers : s.timers = [])
    (hF : s.doc.querySelector isForm = some (F, fk))
    (hnomarkers : fk.elems.filter isRemovedMarker = [])
    (hready : ∀ c ∈ cs, c.Ready s.doc g)
    (hout : ∀ c ∈ cs, F.ref ∉ c.refs)
    (hdisj : cs.Pairwise (fun a b => ∀ y ∈ a.refs, y ∉ b.refs))
    (hrun : isRemovalRun (cs.map Removal.target) evs = true) :
    RemovalInv s g F cs cs [] (run s evs) := by
  have hold : ∀ c ∈ cs, ∀ y ∈ c.refs, y < s.nextRef := by
    intro c hc y hy
    have hG := closest_spec (hready c hc).2.2.2.1
    rcases List.mem_cons.1 hy with h | h
    · exact h ▸ hwf.2 _ (mem_refs_of_mem_subtrees hG.1)
    · exact hwf.2 _ (refs_subset_of_mem_subtrees hG.1 h)
  have hinit : RemovalInv s g F cs [] cs s :=
    { wf := hwf
      next := rfl
      preview := hgp
      form := ⟨fk, hF, by simpa [markersFrom] using hnomarkers⟩
      ready := hready
      within := fun c hc y hw =>
        Within.of_unique hwf.1 (closest_spec (hready c hc).2.2.2.1).1 hw
      timers := by rw [htimers]; simp
      kept := fun e he _ => he
      gone := by simp }
  exact removal_run hold (fun c hc => (hready c hc).hidden_mem) hout
    (hdisj.imp (fun h x hx hy => h x hx hy)) evs [] cs s rfl hinit hrun

/-- Tag, classes, attributes and content of the preview items, references
apart. -/
theorem previewItems_fields (fs : List File) : ∀ start : Nat,
    (previewItems start fs).children.map
        (fun n => ({ n.1 with ref := 0 },
          n.2.children.map (fun m => ({ m.1 with ref := 0 }, m.2))))
      = fs.map (fun f =>
          (({ ref := 0, tag := "div", classes := ["gallery-item"], attrs := [],
              opacity := none, text := "" } : Elem),
            [(({ ref := 0, tag := "img", classes := [],
                 attrs := [("src", f.dataUrl), ("alt", "Preview")],
                 opacity := none, text := "" } : Elem), Forest.nil)])) := by
  induction fs with
  | nil => intro start; rfl
  | cons f fs ih =>
    intro start
    simp only [previewItems, children, List.map_cons, ih]
    rfl

/-- Outside `html` and `template`, the preview container has no child once the
change listener has settled it. -/
theorem previewContainerAfterChange_nil {s : State}
    (hhtml : (previewContainerAfterChange s).1.tag ≠ "html")
    (htemplate : (previewContainerAfterChange s).1.tag ≠ "template") :
    (previewContainerAfterChange s).2 = Forest.nil := by
  unfold previewContainerAfterChange at hhtml htemplate ⊢
  cases hq : s.doc.querySelector isUploadPreview with
  | none => rfl
  | some n =>
    obtain ⟨c, ck⟩ := n
    simp only [hq, clearSub, Elem.cleared_tag] at hhtml htemplate ⊢
    simp [emptied, hhtml, htemplate]

/-! ## The claims -/

/-- C1: a click on a remove control with `data-filename = f` whose gallery item
holds exactly one hidden input `H`, on a page with a form, returns normally;
`H` is no longer in the document; the first form ends with a childless hidden
input named `removed_gallery_images` of value `f`; and the elements of the
document are those from before without `H` plus that one input (the gallery item
faded). -/
theorem C1_click_records_removal (s : State) (t : Nat) (tgt G H : Elem) (tk gk : Forest)
    (f : String) (hwf : s.WF)
    (htgt : s.doc.getByRef t = some (tgt, tk))
    (hcls : tgt.hasClass "remove-image" = true)
    (hfn : tgt.attr "data-filename" = some f)
    (hitem : s.doc.closest isGalleryItem t = some (G, gk))
    (hone : gk.elems.filter isHiddenInput = [H])
    (hvoid : (H, Forest.nil) ∈ gk.subtrees)
    (hform : ∃ e ∈ s.doc.elems, isForm e = true) :
    (clickHandler s t).2 = none
    ∧ H ∈ s.doc.elems ∧ H.ref ∉ (clickHandler s t).1.doc.refs
    ∧ (∃ form pre, (clickHandler s t).1.doc.querySelector isForm
        = some (form, Forest.append pre
            (Forest.node (removedInput s.nextRef f) Forest.nil Forest.nil)))
    ∧ (clickHandler s t).1.doc.elems.Perm
        ((removedInput s.nextRef f :: s.doc.elems.erase H).map (Elem.setOpacityAt G.ref "0")) := by
  obtain ⟨hnd, hfresh⟩ := hwf
  have hG := closest_spec hitem
  obtain ⟨hk, hq⟩ := querySelector_of_filter hone
  have hHsub : (H, hk) ∈ gk.subtrees := (querySelector_some hq).1
  have hHhid : isHiddenInput H = true := (querySelector_some hq).2
  have hnil_doc : (H, Forest.nil) ∈ s.doc.subtrees := subtrees_trans hG.1 hvoid
  have hHk_doc : (H, hk) ∈ s.doc.subtrees := subtrees_trans hG.1 hHsub
  have hHmem : H ∈ s.doc.elems := mem_elems_of_mem_subtrees hnil_doc
  have hleaf : ∀ n ∈ s.doc.subtrees, n.1.ref = H.ref → n.2 = Forest.nil := by
    intro n hn href
    have := subtree_unique hnd hn hnil_doc href
    rw [this]
  have hndE : (s.doc.elems.map Elem.ref).Nodup := hnd
  have hd1 : (removeRef H.ref s.doc).elems = s.doc.elems.erase H := by
    rw [elems_removeRef_leaf hleaf]
    exact filter_ne_eq_erase Elem.ref hndE hHmem
  -- a form survives the removal of the hidden input
  obtain ⟨e, he, hef⟩ := hform
  have hHnotform : isForm H = false := by
    simp only [isHiddenInput, Bool.and_eq_true, beq_iff_eq] at hHhid
    simp [isForm, hHhid.1]
  have heH : e ≠ H := fun h => by rw [h, hHnotform] at hef; cases hef
  have he1 : e ∈ (removeRef H.ref s.doc).elems := by
    rw [hd1]; exact (List.mem_erase_of_ne heH).2 he
  obtain ⟨⟨form, fk⟩, hF⟩ := querySelector_isSome_of_mem he1 hef
  have hFmem := (querySelector_some hF).1
  have hnd1 : (removeRef H.ref s.doc).refs.Nodup := nodup_removeRef hnd
  have hcount : (removeRef H.ref s.doc).refs.count form.ref = 1 :=
    List.count_eq_one_of_mem hnd1 (mem_refs_of_mem_subtrees hFmem)
  have hGlt : G.ref < s.nextRef := hfresh _ (mem_refs_of_mem_subtrees hG.1)
  have hHlt : H.ref < s.nextRef := hfresh _ (List.mem_map_of_mem _ hHmem)
  have hres : clickHandler s t =
      ({ s with
          doc := setOpacity G.ref "0" (appendChild form.ref
            (Forest.node (removedInput s.nextRef f) Forest.nil Forest.nil)
            (removeRef H.ref s.doc))
          nextRef := s.nextRef + 1
          timers := s.timers ++ [G.ref] }, none) := by
    simp [clickHandler, htgt, hcls, hfn, hitem, hq, hF]
  have hperm : (appendChild form.ref
        (Forest.node (removedInput s.nextRef f) Forest.nil Forest.nil)
        (removeRef H.ref s.doc)).elems.Perm
      ((Forest.node (removedInput s.nextRef f) Forest.nil Forest.nil).elems
        ++ (removeRef H.ref s.doc).elems) :=
    elems_appendChild_perm hcount
  rw [hres]
  refine ⟨rfl, hHmem, ?_, ?_, ?_⟩
  · simp only [refs_setOpacity]
    intro hmem
    have := (hperm.map Elem.ref).subset hmem
    simp only [elems_node, elems_nil, List.append_nil, List.singleton_append, List.map_cons,
      List.mem_cons] at this
    rcases this with h | h
    · simp [removedInput] at h; omega
    · exact not_mem_refs_removeRef H.ref s.doc h
  · refine ⟨form.setOpacityAt G.ref "0",
      setOpacity G.ref "0" (appendChild form.ref
        (Forest.node (removedInput s.nextRef f) Forest.nil Forest.nil) fk), ?_⟩
    have hmk : ∀ e ∈ (Forest.node (removedInput s.nextRef f) Forest.nil Forest.nil).elems,
        isForm e = false := by
      intro e he
      simp only [elems_node, elems_nil, List.append_nil, List.mem_singleton] at he
      subst he; rfl
    have hop : ∀ e : Elem, isForm (e.setOpacityAt G.ref "0") = isForm e := by
      intro e; simp [isForm]
    rw [querySelector_setOpacity _ _ hop, querySelector_appendChild _ hmk, hF]
    have hmne : (removedInput s.nextRef f).setOpacityAt G.ref "0" = removedInput s.nextRef f :=
      Elem.setOpacityAt_of_ne (by simp [removedInput]; omega)
    simp [opSub, acSub, setOpacity, hmne]
  · simp only [elems_setOpacity]
    refine List.Perm.map _ ?_
    rw [← hd1]
    simpa using hperm

/-- C1 on the sample page: a click on the remove control of `x.jpg`. -/
theorem C1_click_records_removal_witness :
    (clickHandler sampleState 8).2 = none
    ∧ el 7 "input" [] [("type", "hidden"), ("name", "gallery_images"), ("value", "x.jpg")]
        ∈ sampleState.doc.elems
    ∧ 7 ∉ (clickHandler sampleState 8).1.doc.refs
    ∧ (∃ form pre, (clickHandler sampleState 8).1.doc.querySelector isForm
        = some (form, Forest.append pre
            (Forest.node (removedInput 16 "x.jpg") Forest.nil Forest.nil)))
    ∧ (clickHandler sampleState 8).1.doc.elems.Perm
        ((removedInput 16 "x.jpg" :: sampleState.doc.elems.erase
            (el 7 "input" [] [("type", "hidden"), ("name", "gallery_images"), ("value", "x.jpg")])).map
          (Elem.setOpacityAt 5 "0")) :=
  C1_click_records_removal sampleState 8
    (el 8 "button" ["remove-image"] [("data-filename", "x.jpg")])
    (el 5 "div" ["gallery-item"] [])
    (el 7 "input" [] [("type", "hidden"), ("name", "gallery_images"), ("value", "x.jpg")])
    (leaf (el 9 "span" [] []) Forest.nil) sampleItemX "x.jpg"
    (by decide) (by decide) (by decide) (by decide) (by decide) (by decide) (by decide)
    ⟨el 3 "form" [] [], by decide, by decide⟩

/-- C2: on a page without pending removals whose form holds no marker yet, take
`k` remove controls inside the gallery preview whose gallery items hold one
hidden input each, do not overlap and do not contain the form. After clicks on
these controls in order, with timers firing anywhere in between, the form holds
exactly `k` hidden inputs named `removed_gallery_images`, created one per click,
their values being the controls' filenames in click order; at every earlier
point of the run the markers in the form are the first ones of that final list;
the hidden inputs of the clicked items are gone, and every element outside the
clicked items, such as the hidden input of a gallery item that was not clicked,
is still there. -/
theorem C2_one_marker_per_removal (s : State) (g : Nat) (F : Elem) (fk : Forest)
    (cs : List Removal) (evs : List Event) (hwf : s.WF)
    (hgp : s.galleryPreview = some g) (htimers : s.timers = [])
    (hF : s.doc.querySelector isForm = some (F, fk))
    (hnomarkers : fk.elems.filter isRemovedMarker = [])
    (hready : ∀ c ∈ cs, c.Ready s.doc g)
    (hout : ∀ c ∈ cs, F.ref ∉ c.refs)
    (hdisj : cs.Pairwise (fun a b => ∀ y ∈ a.refs, y ∉ b.refs))
    (hrun : isRemovalRun (cs.map Removal.target) evs = true) :
    (∃ form fk', (run s evs).doc.querySelector isForm = some (form, fk')
      ∧ fk'.elems.filter isRemovedMarker = markersFrom s.nextRef (cs.map Removal.filename)
      ∧ (fk'.elems.filter isRemovedMarker).map
          (fun e => (e.tag, e.attr "type", e.attr "name", e.attr "value"))
        = cs.map (fun c => ("input", some "hidden", some "removed_gallery_images",
            some c.filename)))
    ∧ (∀ evs1 evs2, evs = evs1 ++ evs2 →
        ∃ form fk1, (run s evs1).doc.querySelector isForm = some (form, fk1)
          ∧ fk1.elems.filter isRemovedMarker
              <+: markersFrom s.nextRef (cs.map Removal.filename))
    ∧ (∀ c ∈ cs, c.hidden.ref ∉ (run s evs).doc.refs)
    ∧ (∀ e ∈ s.doc.elems, (∀ c ∈ cs, e.ref ∉ c.refs) → e ∈ (run s evs).doc.elems) := by
  have hfin := removal_result cs evs hwf hgp htimers hF hnomarkers hready hout hdisj hrun
  obtain ⟨fk', hF', hM'⟩ := hfin.form
  refine ⟨⟨F, fk', hF', hM', ?_⟩, ?_, hfin.gone, hfin.kept⟩
  · rw [hM', markersFrom_fields, List.map_map]
    rfl
  · intro evs1 evs2 hsplit
    rw [hsplit] at hrun
    obtain ⟨ts1, ts2, hts, h1, _⟩ := isRemovalRun_split evs1 evs2 _ hrun
    have hcs : cs = cs.take ts1.length ++ cs.drop ts1.length := (List.take_append_drop _ _).symm
    have htake : (cs.take ts1.length).map Removal.target = ts1 := by
      rw [List.map_take, hts, List.take_left' rfl]
    have hsub : ∀ c ∈ cs.take ts1.length, c ∈ cs := fun c hc => List.mem_of_mem_take hc
    have hfin1 := removal_result (cs.take ts1.length) evs1 hwf hgp htimers hF hnomarkers
      (fun c hc => hready c (hsub c hc)) (fun c hc => hout c (hsub c hc))
      (hdisj.sublist (List.take_sublist _ _)) (by rw [htake]; exact h1)
    obtain ⟨fk1, hF1, hM1⟩ := hfin1.form
    refine ⟨F, fk1, hF1, ?_⟩
    rw [hM1]
    conv_rhs => rw [hcs, List.map_append, markersFrom_append_list]
    exact List.prefix_append _ _

/-- C2 on the sample page: both images removed, a timer firing in between. -/
theorem C2_one_marker_per_removal_witness :
    (∃ form fk', (run sampleState [Event.click 8, Event.timer, Event.click 12]).doc.querySelector
          isForm = some (form, fk')
      ∧ fk'.elems.filter isRemovedMarker
          = markersFrom sampleState.nextRef ([removalX, removalY].map Removal.filename)
      ∧ (fk'.elems.filter isRemovedMarker).map
          (fun e => (e.tag, e.attr "type", e.attr "name", e.attr "value"))
        = [removalX, removalY].map (fun c => ("input", some "hidden",
            some "removed_gallery_images", some c.filename)))
    ∧ (∀ evs1 evs2, [Event.click 8, Event.timer, Event.click 12] = evs1 ++ evs2 →
        ∃ form fk1, (run sampleState evs1).doc.querySelector isForm = some (form, fk1)
          ∧ fk1.elems.filter isRemovedMarker
              <+: markersFrom sampleState.nextRef ([removalX, removalY].map Removal.filename))
    ∧ (∀ c ∈ [removalX, removalY], c.hidden.ref ∉
        (run sampleState [Event.click 8, Event.timer, Event.click 12]).doc.refs)
    ∧ (∀ e ∈ sampleState.doc.elems, (∀ c ∈ [removalX, removalY], e.ref ∉ c.refs) →
        e ∈ (run sampleState [Event.click 8, Event.timer, Event.click 12]).doc.elems) :=
  C2_one_marker_per_removal sampleState 4 (el 3 "form" [] []) sampleFormKids
    [removalX, removalY] [Event.click 8, Event.timer, Event.click 12]
    (by decide) (by decide) (by decide) (by decide) (by decide) (by decide) (by decide)
    (by decide) (by decide)

/-- C3: a click whose target does not itself carry the class `remove-image`
leaves the whole page state as it was (document, pending timers, reads in
flight) and raises nothing, both in the listener and through the event loop. -/
theorem C3_click_elsewhere_no_mutation (s : State) (t : Nat) (target : Elem) (tk : Forest)
    (htgt : s.doc.getByRef t = some (target, tk))
    (hcls : target.hasClass "remove-image" = false) :
    clickHandler s t = (s, none) ∧ step s (Event.click t) = s := by
  have h : clickHandler s t = (s, none) := by simp [clickHandler, htgt, hcls]
  refine ⟨h, ?_⟩
  simp only [step]
  cases s.galleryPreview with
  | none => rfl
  | some g => simp only [h]; split <;> rfl

/-- C3 on the sample page: a click on the `span` inside a remove control. -/
theorem C3_click_elsewhere_no_mutation_witness :
    clickHandler sampleState 9 = (sampleState, none)
      ∧ step sampleState (Event.click 9) = sampleState :=
  C3_click_elsewhere_no_mutation sampleState 9 (el 9 "span" [] []) Forest.nil
    (by decide) (by decide)

/-- C4: when the file input is attached below an element (or a preview container
already exists), the change listener starts a read for each selected file whose
type begins with `image/`, in selection order, and for no other file; and once
these reads have all succeeded, in whatever order, the preview container holds,
behind what `innerHTML = ''` left in it (nothing, unless the container is an
`html` or a `template` element), exactly one preview item per image file, in
completion order: a `div` of class `gallery-item` whose only child is a
childless `img` with the file's data URL as `src` and `Preview` as `alt`. -/
theorem C4_preview_filter (s : State) (input : Nat) (files : List File) (hwf : s.WF)
    (hattached : s.doc.querySelector isUploadPreview = none →
      ∃ par, s.doc.parentNode input = some (some par)) :
    (changeHandler s input files).1.reads
        = s.reads ++ (files.filter isImageFile).map
            (fun f => PendingRead.mk f (previewContainerRef s))
    ∧ ∀ evs, completesNew s.reads.length (files.filter isImageFile).length evs = true →
        ∃ order, order.Perm (files.filter isImageFile)
          ∧ (run (changeHandler s input files).1 evs).doc.getByRef (previewContainerRef s)
              = some ((previewContainerAfterChange s).1,
                  Forest.append (previewContainerAfterChange s).2
                    (previewItems (changeHandler s input files).1.nextRef order))
          ∧ ((previewContainerAfterChange s).1.tag ≠ "html" →
              (previewContainerAfterChange s).1.tag ≠ "template" →
              (run (changeHandler s input files).1 evs).doc.getByRef (previewContainerRef s)
                = some ((previewContainerAfterChange s).1,
                    previewItems (changeHandler s input files).1.nextRef order))
          ∧ (previewItems (changeHandler s input files).1.nextRef order).children.map
                (fun n => ({ n.1 with ref := 0 },
                  n.2.children.map (fun m => ({ m.1 with ref := 0 }, m.2))))
              = order.map (fun f =>
                  (({ ref := 0, tag := "div", classes := ["gallery-item"], attrs := [],
                      opacity := none, text := "" } : Elem),
                    [(({ ref := 0, tag := "img", classes := [],
                         attrs := [("src", f.dataUrl), ("alt", "Preview")],
                         opacity := none, text := "" } : Elem), Forest.nil)]))
          ∧ (run (changeHandler s input files).1 evs).reads = s.reads := by
  obtain ⟨hreads, hget⟩ := changeHandler_container hwf input files hattached
  refine ⟨hreads, fun evs hcomp => ?_⟩
  obtain ⟨order, hperm, hfin, hr⟩ :=
    run_loads evs (changeHandler s input files).1 (previewContainerRef s)
      (previewContainerAfterChange s).1 (previewContainerAfterChange s).2 s.reads
      ((files.filter isImageFile).map (fun f => PendingRead.mk f (previewContainerRef s)))
      (WF_changeHandler hwf input files) hget hreads
      (by
        intro r hr
        obtain ⟨f, _, rfl⟩ := List.mem_map.1 hr
        rfl)
      (by simpa using hcomp)
  refine ⟨order, ?_, hfin, ?_, previewItems_fields order _, hr⟩
  · simpa [Function.comp_def] using hperm
  · intro hhtml htemplate
    rw [hfin, previewContainerAfterChange_nil hhtml htemplate]
    rfl

/-- C4 on the sample page: the selection `a.png`, `b.txt` and one completed
read; the preview container then holds the one preview of `a.png`. -/
theorem C4_preview_filter_witness :
    (changeHandler sampleState 14 [aPng, bTxt]).1.reads
        = sampleState.reads ++ ([aPng, bTxt].filter isImageFile).map
            (fun f => PendingRead.mk f (previewContainerRef sampleState))
    ∧ [aPng, bTxt].filter isImageFile = [aPng]
    ∧ (run (changeHandler sampleState 14 [aPng, bTxt]).1 [Event.loaded 0]).doc.getByRef 16
        = some (({ ref := 16, tag := "div", classes := ["gallery-preview", "upload-preview"],
                   attrs := [], opacity := none, text := "" } : Elem),
            Forest.node
              ({ ref := 18, tag := "div", classes := ["gallery-item"], attrs := [],
                 opacity := none, text := "" } : Elem)
              (Forest.node
                ({ ref := 19, tag := "img", classes := [],
                   attrs := [("src", "data:image/png;base64,QQ=="), ("alt", "Preview")],
                   opacity := none, text := "" } : Elem) Forest.nil Forest.nil)
              Forest.nil)
    ∧ ∃ order, order.Perm ([aPng, bTxt].filter isImageFile)
        ∧ (run (changeHandler sampleState 14 [aPng, bTxt]).1
              [Event.loaded 0]).doc.getByRef (previewContainerRef sampleState)
            = some ((previewContainerAfterChange sampleState).1,
                previewItems (changeHandler sampleState 14 [aPng, bTxt]).1.nextRef order)
        ∧ (previewItems (changeHandler sampleState 14 [aPng, bTxt]).1.nextRef order).children.map
              (fun n => ({ n.1 with ref := 0 },
                n.2.children.map (fun m => ({ m.1 with ref := 0 }, m.2))))
            = order.map (fun f =>
                (({ ref := 0, tag := "div", classes := ["gallery-item"], attrs := [],
                    opacity := none, text := "" } : Elem),
                  [(({ ref := 0, tag := "img", classes := [],
                       attrs := [("src", f.dataUrl), ("alt", "Preview")],
                       opacity := none, text := "" } : Elem), Forest.nil)]))
        ∧ (run (changeHandler sampleState 14 [aPng, bTxt]).1 [Event.loaded 0]).reads
            = sampleState.reads :=
  ⟨(C4_preview_filter sampleState 14 [aPng, bTxt] (by decide) (fun _ => ⟨13, by decide⟩)).1,
   by decide, by decide,
   match (C4_preview_filter sampleState 14 [aPng, bTxt] (by decide)
      (fun _ => ⟨13, by decide⟩)).2 [Event.loaded 0] (by decide) with
   | ⟨order, hperm, _, hget, hfields, hr⟩ =>
     ⟨order, hperm, hget (by decide) (by decide), hfields, hr⟩⟩

/-- C5: when at least one file is selected and the preview container sits
below an element, the change listener returns normally and the element right
before the preview container is a new `p` of class `upload-count` whose text is
`1 image selected` for one file and `<n> images selected` for `n > 1` files,
`n` counting every selected file. -/
theorem C5_count_label (s : State) (input : Nat) (files : List File) (hwf : s.WF)
    (hfiles : 0 < files.length)
    (hplace : match s.doc.querySelector isUploadPreview with
      | some (c, _) => ∃ q, s.doc.parentNode c.ref = some (some q)
      | none => ∃ q, s.doc.parentNode input = some (some q)) :
    (changeHandler s input files).2 = none
    ∧ ∃ label, (changeHandler s input files).1.doc.prevSibling (previewContainerRef s) none
          = some (some label)
        ∧ label.tag = "p" ∧ label.classes = ["upload-count"]
        ∧ label.text = (if files.length = 1 then "1 image selected"
            else toString files.length ++ " images selected")
        ∧ label.ref ∉ s.doc.refs := by
  obtain ⟨hnd, hfresh⟩ := hwf
  have htext : countLabel files.length = (if files.length = 1 then "1 image selected"
      else toString files.length ++ " images selected") := by
    by_cases h1 : files.length = 1
    · rw [if_pos h1, h1]; exact countLabel_one
    · rw [if_neg h1]; exact countLabel_many (by omega)
  cases hq : s.doc.querySelector isUploadPreview with
  | none =>
    rw [hq] at hplace
    obtain ⟨par, hpar⟩ := hplace
    have hparmem : par ∈ s.doc.refs := by
      rcases parentFrom_some_mem hpar with h | h
      · cases h
      · exact h
    have hc : (newPreviewContainer s.nextRef).ref ∉ s.doc.refs := fun h =>
      absurd (hfresh _ h) (by simp [newPreviewContainer])
    have hp2 : (appendChild par (node (newPreviewContainer s.nextRef) nil nil) s.doc).parentNode
        s.nextRef = some (some par) := by
      have h2 : parentFrom (newPreviewContainer s.nextRef).ref none
          (appendChild par (node (newPreviewContainer s.nextRef) nil nil) s.doc)
          = if par ∈ s.doc.refs then some (some par) else none :=
        parentFrom_appendChild_fresh hc none
      rw [if_pos hparmem] at h2
      exact h2
    rw [changeHandler_created files hq hpar, changeTail_nonempty hfiles hp2]
    refine ⟨rfl, countText (s.nextRef + 1) files.length, ?_, rfl, rfl, htext, ?_⟩
    · simp only [previewContainerRef, hq]
      rw [prevSibling_insertBefore (by simp [countText])]
      cases hps : prevSibling s.nextRef none
          (appendChild par (node (newPreviewContainer s.nextRef) nil nil) s.doc) with
      | none =>
        have hno := (parentFrom_eq_none (q := none)).2 (prevSibling_eq_none.1 hps)
        unfold parentNode at hp2
        rw [hp2] at hno
        cases hno
      | some o => rfl
    · intro h
      exact absurd (hfresh _ h) (by simp [countText])
  | some n =>
    obtain ⟨c, ck⟩ := n
    rw [hq] at hplace
    obtain ⟨q, hpar⟩ := hplace
    have hp2 : (clearKids c.ref s.nextRef s.doc).parentNode c.ref = some (some q) := by
      unfold parentNode; rw [parentFrom_clearKids]; exact hpar
    have hcmem : c.ref ∈ s.doc.refs := mem_refs_of_mem_subtrees (querySelector_some hq).1
    have hp3 : (State.doc { s with
        doc := clearKids c.ref s.nextRef s.doc
        nextRef := s.nextRef + c.emptiedCount }).parentNode c.ref = some (some q) := hp2
    rw [changeHandler_existing input files hq, changeTail_nonempty hfiles hp3]
    refine ⟨rfl, countText (s.nextRef + c.emptiedCount) files.length, ?_, rfl, rfl, htext, ?_⟩
    · simp only [previewContainerRef, hq]
      rw [prevSibling_insertBefore (by
        simp only [countText]; exact fun h => absurd (hfresh _ hcmem) (by omega))]
      cases hps : prevSibling c.ref none (clearKids c.ref s.nextRef s.doc) with
      | none =>
        exact absurd (mem_refs_clearKids_self hcmem) (prevSibling_eq_none.1 hps)
      | some o => rfl
    · intro h
      exact absurd (hfresh _ h) (by simp [countText])

/-- C5 on the sample page: the selection `a.png`, `b.txt`. -/
theorem C5_count_label_witness :
    (changeHandler sampleState 14 [aPng, bTxt]).2 = none
    ∧ ∃ label, (changeHandler sampleState 14 [aPng, bTxt]).1.doc.prevSibling
          (previewContainerRef sampleState) none = some (some label)
        ∧ label.tag = "p" ∧ label.classes = ["upload-count"]
        ∧ label.text = (if [aPng, bTxt].length = 1 then "1 image selected"
            else toString [aPng, bTxt].length ++ " images selected")
        ∧ label.ref ∉ sampleState.doc.refs :=
  C5_count_label sampleState 14 [aPng, bTxt] (by decide) (by decide) ⟨13, by decide⟩

/-- C6 on the sample page: `a.png` is selected, then `c.jpg` is selected while
`a.png` is still being read, then the read of `a.png` completes; the preview
container then holds a preview of `a.png`, which is not in the latest
selection. -/
theorem C6_stale_preview :
    (run sampleState [Event.change [aPng], Event.change [cJpg], Event.loaded 0]).doc.getByRef 16
        = some (newPreviewContainer 16,
            Forest.node (previewItem 19)
              (Forest.node (previewImg 20 aPng.dataUrl) Forest.nil Forest.nil) Forest.nil)
    ∧ aPng ∉ [cJpg] := by
  decide

/-- C7 on the sample page: after a selection of one file followed by a selection
of no file, the count label of the first selection is still in the document
(the preview container itself is empty). -/
theorem C7_stale_count_label :
    (run sampleState [Event.change [aPng], Event.change []]).doc.elems.filter isUploadCount
        = [countText 17 1]
    ∧ (countText 17 1).text = "1 image selected"
    ∧ (run sampleState [Event.change [aPng], Event.change []]).doc.getByRef 16
        = some (newPreviewContainer 16, Forest.nil) := by
  decide

/-- C8, counterexample: on the sample page without a form, a click on the
remove control of the first gallery item throws a `TypeError` and leaves the
document changed, the hidden input of the item being gone. -/
theorem C8_counterexample :
    formlessState.doc.querySelector isForm = none
    ∧ 7 ∈ formlessState.doc.refs
    ∧ ¬ ((clickHandler formlessState 8).2 = none
          ∧ (clickHandler formlessState 8).1.doc = formlessState.doc)
    ∧ (clickHandler formlessState 8).2 = some Exn.typeError
    ∧ 7 ∉ (clickHandler formlessState 8).1.doc.refs := by
  decide

/-- C8, amended: a click on a remove control that has no gallery item above it,
or whose gallery item holds no hidden input, or on a page without a form, ends
in a `TypeError`, schedules no timer and starts no read.  In the first two
cases the page state is left exactly as it was.  In the third case, where the
gallery item holds a hidden input, the document is the old one without the
first hidden input of the item, and nothing else of it is changed: no marker,
no opacity. -/
theorem C8_missing_structure_throws (s : State) (t : Nat) (target : Elem) (tk : Forest)
    (htgt : s.doc.getByRef t = some (target, tk))
    (hcls : target.hasClass "remove-image" = true)
    (hmissing : s.doc.closest isGalleryItem t = none
      ∨ (∃ G gk, s.doc.closest isGalleryItem t = some (G, gk)
          ∧ gk.querySelector isHiddenInput = none)
      ∨ s.doc.querySelector isForm = none) :
    (clickHandler s t).2 = some Exn.typeError
    ∧ (clickHandler s t).1.timers = s.timers
    ∧ (clickHandler s t).1.reads = s.reads
    ∧ (s.doc.closest isGalleryItem t = none → (clickHandler s t).1 = s)
    ∧ (∀ G gk, s.doc.closest isGalleryItem t = some (G, gk) →
        gk.querySelector isHiddenInput = none → (clickHandler s t).1 = s)
    ∧ (∀ G gk H hk, s.doc.closest isGalleryItem t = some (G, gk) →
        gk.querySelector isHiddenInput = some (H, hk) →
        (clickHandler s t).1.doc = s.doc.removeRef H.ref
        ∧ (clickHandler s t).1
            = { s with doc := s.doc.removeRef H.ref, nextRef := s.nextRef + 1 }) := by
  cases hc : s.doc.closest isGalleryItem t with
  | none => simp [clickHandler, htgt, hcls, hc]
  | some n =>
    obtain ⟨G, gk⟩ := n
    cases hq : gk.querySelector isHiddenInput with
    | none =>
      have hres : clickHandler s t = (s, some Exn.typeError) := by
        simp [clickHandler, htgt, hcls, hc, hq]
      rw [hres]
      refine ⟨rfl, rfl, rfl, fun _ => rfl, fun _ _ _ _ => rfl, ?_⟩
      intro G' gk' H hk h1 h2
      simp only [Option.some.injEq, Prod.mk.injEq] at h1
      rw [← h1.2, hq] at h2; cases h2
    | some m =>
      obtain ⟨H, hk⟩ := m
      have hform : s.doc.querySelector isForm = none := by
        rcases hmissing with h | ⟨G', gk', h1, h2⟩ | h
        · rw [hc] at h; cases h
        · rw [hc] at h1
          simp only [Option.some.injEq, Prod.mk.injEq] at h1
          rw [← h1.2, hq] at h2; cases h2
        · exact h
      have hform1 : (s.doc.removeRef H.ref).querySelector isForm = none := by
        rw [querySelector_none] at hform ⊢
        intro e he
        exact hform e ((elems_removeRef_sublist H.ref s.doc).subset he)
      have hres : clickHandler s t
          = ({ s with doc := s.doc.removeRef H.ref, nextRef := s.nextRef + 1 },
              some Exn.typeError) := by
        simp [clickHandler, htgt, hcls, hc, hq, hform1]
      rw [hres]
      refine ⟨rfl, rfl, rfl, (fun h => Option.noConfusion h), ?_, ?_⟩
      · intro G' gk' h1 h2
        simp only [Option.some.injEq, Prod.mk.injEq] at h1
        rw [← h1.2, hq] at h2; cases h2
      · intro G' gk' H' hk' h1 h2
        simp only [Option.some.injEq, Prod.mk.injEq] at h1
        rw [← h1.2, hq] at h2
        simp only [Option.some.injEq, Prod.mk.injEq] at h2
        rw [← h2.1]
        exact ⟨rfl, rfl⟩

/-- C8, amended, on three pages: a remove control outside every gallery item, a
gallery item without hidden input, and the sample page without a form, where
the hidden input 7 of the first item is removed and nothing else. -/
theorem C8_missing_structure_throws_witness :
    ((clickHandler strayControlState 5).2 = some Exn.typeError
      ∧ (clickHandler strayControlState 5).1 = strayControlState)
    ∧ ((clickHandler bareItemState 7).2 = some Exn.typeError
      ∧ (clickHandler bareItemState 7).1 = bareItemState)
    ∧ ((clickHandler formlessState 8).2 = some Exn.typeError
      ∧ (clickHandler formlessState 8).1.timers = formlessState.timers
      ∧ (clickHandler formlessState 8).1.reads = formlessState.reads
      ∧ (clickHandler formlessState 8).1.doc
          = formlessState.doc.removeRef
              (el 7 "input" [] [("type", "hidden"), ("name", "gallery_images"),
                ("value", "x.jpg")]).ref
      ∧ 7 ∈ formlessState.doc.refs) :=
  ⟨⟨(C8_missing_structure_throws strayControlState 5
        (el 5 "button" ["remove-image"] [("data-filename", "z.jpg")]) Forest.nil
        (by decide) (by decide) (Or.inl (by decide))).1,
    (C8_missing_structure_throws strayControlState 5
        (el 5 "button" ["remove-image"] [("data-filename", "z.jpg")]) Forest.nil
        (by decide) (by decide) (Or.inl (by decide))).2.2.2.1 (by decide)⟩,
   ⟨(C8_missing_structure_throws bareItemState 7
        (el 7 "button" ["remove-image"] [("data-filename", "z.jpg")]) Forest.nil
        (by decide) (by decide)
        (Or.inr (Or.inl ⟨el 5 "div" ["gallery-item"] [],
          leaf (el 6 "img" [] [("src", "z.jpg")])
            (leaf (el 7 "button" ["remove-image"] [("data-filename", "z.jpg")]) Forest.nil),
          by decide, by decide⟩))).1,
    (C8_missing_structure_throws bareItemState 7
        (el 7 "button" ["remove-image"] [("data-filename", "z.jpg")]) Forest.nil
        (by decide) (by decide)
        (Or.inr (Or.inl ⟨el 5 "div" ["gallery-item"] [],
          leaf (el 6 "img" [] [("src", "z.jpg")])
            (leaf (el 7 "button" ["remove-image"] [("data-filename", "z.jpg")]) Forest.nil),
          by decide, by decide⟩))).2.2.2.2.1
      (el 5 "div" ["gallery-item"] [])
      (leaf (el 6 "img" [] [("src", "z.jpg")])
        (leaf (el 7 "button" ["remove-image"] [("data-filename", "z.jpg")]) Forest.nil))
      (by decide) (by decide)⟩,
   ⟨(C8_missing_structure_throws formlessState 8
        (el 8 "button" ["remove-image"] [("data-filename", "x.jpg")])
        (leaf (el 9 "span" [] []) Forest.nil) (by decide) (by decide)
        (Or.inr (Or.inr (by decide)))).1,
    (C8_missing_structure_throws formlessState 8
        (el 8 "button" ["remove-image"] [("data-filename", "x.jpg")])
        (leaf (el 9 "span" [] []) Forest.nil) (by decide) (by decide)
        (Or.inr (Or.inr (by decide)))).2.1,
    (C8_missing_structure_throws formlessState 8
        (el 8 "button" ["remove-image"] [("data-filename", "x.jpg")])
        (leaf (el 9 "span" [] []) Forest.nil) (by decide) (by decide)
        (Or.inr (Or.inr (by decide)))).2.2.1,
    ((C8_missing_structure_throws formlessState 8
        (el 8 "button" ["remove-image"] [("data-filename", "x.jpg")])
        (leaf (el 9 "span" [] []) Forest.nil) (by decide) (by decide)
        (Or.inr (Or.inr (by decide)))).2.2.2.2.2
      (el 5 "div" ["gallery-item"] []) sampleItemX
      (el 7 "input" [] [("type", "hidden"), ("name", "gallery_images"), ("value", "x.jpg")])
      Forest.nil (by decide) (by decide)).1,
    by decide⟩⟩

/-- C9, counterexample: on the sample page, whose file input is followed by a
submit button, the first change event leaves the button as the input's next
sibling; the created preview container is not placed right after the input. -/
theorem C9_counterexample :
    sampleState.doc.querySelector isUploadPreview = none
    ∧ (changeHandler sampleState 14 [aPng]).1.doc.nextSibling 14
        = some (some (el 15 "button" [] [("type", "submit")]))
    ∧ (changeHandler sampleState 14 [aPng]).1.doc.nextSibling 14
        ≠ some (some (newPreviewContainer 16)) := by
  decide

/-- C9, amended: when no element of class `upload-preview` exists and the file
input has a parent element, the change event creates exactly one childless
`div` of classes `gallery-preview upload-preview` and appends it as the last
child of the input's parent; when such an element exists, the first one keeps
its parent and gets the content that `innerHTML = ''` gives it (no child and
no text, unless it is an `html` or a `template` element), and no new element
of class `upload-preview` appears. -/
theorem C9_container_appended_last (s : State) (input : Nat) (files : List File) (hwf : s.WF) :
    (∀ par, s.doc.querySelector isUploadPreview = none →
        s.doc.parentNode input = some (some par) →
        (changeHandler s input files).1.doc.elems.filter isUploadPreview
            = [({ ref := s.nextRef, tag := "div",
                  classes := ["gallery-preview", "upload-preview"], attrs := [],
                  opacity := none, text := "" } : Elem)]
        ∧ (changeHandler s input files).1.doc.getByRef s.nextRef
            = some (({ ref := s.nextRef, tag := "div",
                       classes := ["gallery-preview", "upload-preview"], attrs := [],
                       opacity := none, text := "" } : Elem), Forest.nil)
        ∧ (changeHandler s input files).1.doc.parentNode s.nextRef = some (some par)
        ∧ (changeHandler s input files).1.doc.nextSibling s.nextRef = some none)
    ∧ (∀ c ck, s.doc.querySelector isUploadPreview = some (c, ck) →
        (changeHandler s input files).1.doc.getByRef c.ref
            = some (c.cleared, Forest.emptied c ck s.nextRef)
        ∧ (c.tag ≠ "html" → c.tag ≠ "template" →
            (changeHandler s input files).1.doc.getByRef c.ref
              = some ({ c with text := "" }, Forest.nil))
        ∧ (changeHandler s input files).1.doc.parentNode c.ref = s.doc.parentNode c.ref
        ∧ ∀ e ∈ (changeHandler s input files).1.doc.elems,
            isUploadPreview e = true → e.ref ∈ s.doc.refs) := by
  constructor
  · intro par hnone hpar
    obtain ⟨hnd, hfresh⟩ := hwf
    have hparmem : par ∈ s.doc.refs := by
      rcases parentFrom_some_mem hpar with h | h
      · cases h
      · exact h
    have hc : (newPreviewContainer s.nextRef).ref ∉ s.doc.refs := fun h =>
      absurd (hfresh _ h) (by simp [newPreviewContainer])
    have hfilter : (appendChild par (node (newPreviewContainer s.nextRef) nil nil)
        s.doc).elems.filter isUploadPreview = [newPreviewContainer s.nextRef] := by
      have hperm : (appendChild par (node (newPreviewContainer s.nextRef) nil nil)
          s.doc).elems.Perm ((node (newPreviewContainer s.nextRef) nil nil).elems ++ s.doc.elems) :=
        elems_appendChild_perm (List.count_eq_one_of_mem hnd hparmem)
      have h2 := hperm.filter isUploadPreview
      have h3 : s.doc.elems.filter isUploadPreview = [] := by
        rw [List.filter_eq_nil_iff]
        intro e he
        simp [querySelector_none.1 hnone e he]
      rw [List.filter_append, h3] at h2
      simpa [List.filter_cons, isUploadPreview, Elem.hasClass, newPreviewContainer] using h2
    have hpn : parentFrom s.nextRef none
        (appendChild par (node (newPreviewContainer s.nextRef) nil nil) s.doc)
        = some (some par) := by
      have h2 : parentFrom (newPreviewContainer s.nextRef).ref none
          (appendChild par (node (newPreviewContainer s.nextRef) nil nil) s.doc)
          = if par ∈ s.doc.refs then some (some par) else none :=
        parentFrom_appendChild_fresh hc none
      rw [if_pos hparmem] at h2
      exact h2
    have hns : nextSibling s.nextRef
        (appendChild par (node (newPreviewContainer s.nextRef) nil nil) s.doc) = some none := by
      have h2 : nextSibling (newPreviewContainer s.nextRef).ref
          (appendChild par (node (newPreviewContainer s.nextRef) nil nil) s.doc)
          = if par ∈ s.doc.refs then some none else none :=
        nextSibling_appendChild_fresh hnd hc
      rw [if_pos hparmem] at h2
      exact h2
    have hnd2 : (appendChild par (node (newPreviewContainer s.nextRef) nil nil)
        s.doc).refs.Nodup :=
      nodup_appendChild hnd (by simp) (by
        intro y hy
        simp only [refs_node, refs_nil, List.append_nil, List.mem_singleton] at hy
        subst hy; exact hc)
    have hget := (changeHandler_container ⟨hnd, hfresh⟩ input files (fun _ => ⟨par, hpar⟩)).2
    simp only [previewContainerRef, previewContainerAfterChange, hnone] at hget
    refine ⟨?_, hget, ?_⟩
    · rw [changeHandler_created files hnone hpar]
      rcases (changeTail_doc _ s.nextRef files).2 with h | h
      · rw [h]; exact hfilter
      · rw [h, filter_elems_insertBefore _
          (by simp [isUploadPreview, Elem.hasClass, countText])]; exact hfilter
    · rw [changeHandler_created files hnone hpar]
      rcases (changeTail_doc _ s.nextRef files).2 with h | h
      · rw [h]; exact ⟨hpn, hns⟩
      · rw [h]
        refine ⟨?_, ?_⟩
        · unfold parentNode
          rw [parentFrom_insertBefore (by simp [countText])]; exact hpn
        · rw [nextSibling_insertBefore (by simp [countText]) hnd2]; exact hns
  · intro c ck hsome
    have hget := (changeHandler_container hwf input files
      (fun h => by rw [hsome] at h; cases h)).2
    simp only [previewContainerRef, previewContainerAfterChange, hsome, clearSub] at hget
    obtain ⟨hnd, hfresh⟩ := hwf
    have hcsub := (querySelector_some hsome).1
    have hcmem : c.ref ∈ s.doc.refs := mem_refs_of_mem_subtrees hcsub
    have hall : ∀ e ∈ (clearKids c.ref s.nextRef s.doc).elems,
        isUploadPreview e = true → e.ref ∈ s.doc.refs := by
      intro e he hup
      rcases classes_of_mem_clearKids he with h0 | ⟨b, hb, h1, _⟩
      · simp [isUploadPreview, Elem.hasClass, h0] at hup
      · rw [← h1]; exact List.mem_map_of_mem _ hb
    refine ⟨hget, ?_, ?_, ?_⟩
    · intro hhtml htemplate
      rw [hget]
      simp [Elem.cleared, emptied, hhtml, htemplate]
    · rw [changeHandler_existing input files hsome]
      rcases (changeTail_doc _ c.ref files).2 with h | h
      · rw [h]; exact parentFrom_clearKids _ _ _ _
      · rw [h]
        unfold parentNode
        rw [parentFrom_insertBefore (by
          simp only [countText]; exact fun h => absurd (hfresh _ hcmem) (by omega))]
        exact parentFrom_clearKids _ _ _ _
    · rw [changeHandler_existing input files hsome]
      rcases (changeTail_doc _ c.ref files).2 with h | h
      · rw [h]; exact hall
      · rw [h]
        intro e he hup
        rcases mem_elems_insertBefore he with h1 | h1
        · subst h1; simp [isUploadPreview, Elem.hasClass, countText] at hup
        · exact hall e h1 hup

/-- C9, amended, on four pages: the first selection on the sample page; a
second selection once the preview of `a.png` is shown, which empties the
container; a page whose root element is the first of class `upload-preview`,
which is left with a new `head` and a new `body`; and a page whose first
element of class `upload-preview` is a `template`, which keeps its child. -/
theorem C9_container_appended_last_witness :
    ((changeHandler sampleState 14 [aPng]).1.doc.elems.filter isUploadPreview
          = [({ ref := sampleState.nextRef, tag := "div",
                classes := ["gallery-preview", "upload-preview"], attrs := [],
                opacity := none, text := "" } : Elem)]
      ∧ (changeHandler sampleState 14 [aPng]).1.doc.getByRef sampleState.nextRef
          = some (({ ref := sampleState.nextRef, tag := "div",
                     classes := ["gallery-preview", "upload-preview"], attrs := [],
                     opacity := none, text := "" } : Elem), Forest.nil)
      ∧ (changeHandler sampleState 14 [aPng]).1.doc.parentNode sampleState.nextRef
          = some (some 13)
      ∧ (changeHandler sampleState 14 [aPng]).1.doc.nextSibling sampleState.nextRef = some none)
    ∧ (previewedState.doc.getByRef 16
          = some (newPreviewContainer 16,
              Forest.node (previewItem 18)
                (Forest.node (previewImg 19 aPng.dataUrl) Forest.nil Forest.nil) Forest.nil)
      ∧ (changeHandler previewedState 14 [cJpg]).1.doc.getByRef (newPreviewContainer 16).ref
          = some ({ newPreviewContainer 16 with text := "" }, Forest.nil)
      ∧ (changeHandler previewedState 14 [cJpg]).1.doc.parentNode (newPreviewContainer 16).ref
          = previewedState.doc.parentNode (newPreviewContainer 16).ref
      ∧ ∀ e ∈ (changeHandler previewedState 14 [cJpg]).1.doc.elems,
          isUploadPreview e = true → e.ref ∈ previewedState.doc.refs)
    ∧ (changeHandler rootPreviewState 4 [aPng]).1.doc
        = Forest.node (el 1 "html" ["upload-preview"] [])
            (Forest.node (el 5 "head" [] [])
              Forest.nil (Forest.node (el 6 "body" [] []) Forest.nil Forest.nil))
            Forest.nil
    ∧ (changeHandler rootPreviewState 4 [aPng]).1.doc.getByRef
          (el 1 "html" ["upload-preview"] []).ref
        = some ((el 1 "html" ["upload-preview"] []).cleared,
            Forest.emptied (el 1 "html" ["upload-preview"] [])
              (Forest.node (el 2 "body" [] [])
                (Forest.node (el 3 "form" [] [])
                  (leaf (el 4 "input" [] [("type", "file"), ("id", "gallery_images")])
                    Forest.nil)
                  Forest.nil)
                Forest.nil)
              rootPreviewState.nextRef)
    ∧ (changeHandler templatePreviewState 4 [aPng]).1.doc.getByRef 5
        = some (el 5 "template" ["upload-preview"] [], leaf (el 6 "span" [] []) Forest.nil)
    ∧ (changeHandler templatePreviewState 4 [aPng]).1.doc.getByRef
          (el 5 "template" ["upload-preview"] []).ref
        = some ((el 5 "template" ["upload-preview"] []).cleared,
            Forest.emptied (el 5 "template" ["upload-preview"] [])
              (leaf (el 6 "span" [] []) Forest.nil) templatePreviewState.nextRef) :=
  ⟨(C9_container_appended_last sampleState 14 [aPng] (by decide)).1 13 (by decide) (by decide),
   ⟨by decide,
    ((C9_container_appended_last previewedState 14 [cJpg] (by decide)).2
      (newPreviewContainer 16)
      (Forest.node (previewItem 18)
        (Forest.node (previewImg 19 aPng.dataUrl) Forest.nil Forest.nil) Forest.nil)
      (by decide)).2.1 (by decide) (by decide),
    ((C9_container_appended_last previewedState 14 [cJpg] (by decide)).2
      (newPreviewContainer 16)
      (Forest.node (previewItem 18)
        (Forest.node (previewImg 19 aPng.dataUrl) Forest.nil Forest.nil) Forest.nil)
      (by decide)).2.2.1,
    ((C9_container_appended_last previewedState 14 [cJpg] (by decide)).2
      (newPreviewContainer 16)
      (Forest.node (previewItem 18)
        (Forest.node (previewImg 19 aPng.dataUrl) Forest.nil Forest.nil) Forest.nil)
      (by decide)).2.2.2⟩,
   by decide,
   ((C9_container_appended_last rootPreviewState 4 [aPng] (by decide)).2
      (el 1 "html" ["upload-preview"] [])
      (Forest.node (el 2 "body" [] [])
        (Forest.node (el 3 "form" [] [])
          (leaf (el 4 "input" [] [("type", "file"), ("id", "gallery_images")]) Forest.nil)
          Forest.nil)
        Forest.nil)
      (by decide)).1,
   by decide,
   ((C9_container_appended_last templatePreviewState 4 [aPng] (by decide)).2
      (el 5 "template" ["upload-preview"] []) (leaf (el 6 "span" [] []) Forest.nil)
      (by decide)).1⟩

/-- C10: for a gallery item holding exactly one hidden input, on a page whose
form is not part of the item, a second click on the item's remove control
changes nothing: before the removal timer has fired the listener stops at the
missing hidden input and the page state stays the one after the first click
(no second marker, no further input removed, no second timer); after the
pending timers have fired the control is no longer in the document and the
click leaves the page state as it is. -/
theorem C10_second_click_no_effect (s : State) (t : Nat) (tgt G H F : Elem)
    (tk gk fk : Forest) (hwf : s.WF)
    (htgt : s.doc.getByRef t = some (tgt, tk))
    (hcls : tgt.hasClass "remove-image" = true)
    (hitem : s.doc.closest isGalleryItem t = some (G, gk))
    (hone : gk.elems.filter isHiddenInput = [H])
    (hvoid : (H, Forest.nil) ∈ gk.subtrees)
    (hF : s.doc.querySelector isForm = some (F, fk))
    (hout : F.ref ∉ G.ref :: gk.refs) :
    (clickHandler s t).2 = none
    ∧ (clickHandler (clickHandler s t).1 t).1 = (clickHandler s t).1
    ∧ t ∉ (run (clickHandler s t).1
        (List.replicate (s.timers.length + 1) Event.timer)).doc.refs
    ∧ clickHandler (run (clickHandler s t).1
          (List.replicate (s.timers.length + 1) Event.timer)) t
        = (run (clickHandler s t).1 (List.replicate (s.timers.length + 1) Event.timer), none)
    ∧ step (run (clickHandler s t).1
          (List.replicate (s.timers.length + 1) Event.timer)) (Event.click t)
        = run (clickHandler s t).1 (List.replicate (s.timers.length + 1) Event.timer) := by
  obtain ⟨hnd, hfresh⟩ := hwf
  have hG := closest_spec hitem
  have hHd : (H, Forest.nil) ∈ s.doc.subtrees := subtrees_trans hG.1 hvoid
  have hHlt : H.ref < s.nextRef := hfresh _ (mem_refs_of_mem_subtrees hHd)
  have htmem : t ∈ s.doc.refs := by
    have := getByRef_some htgt
    exact this.2 ▸ mem_refs_of_mem_subtrees this.1
  have htlt : t < s.nextRef := hfresh _ htmem
  have hres := clickHandler_removal hnd htgt hcls hitem hone hvoid hF
  generalize hfn : (tgt.attr "data-filename").getD "undefined" = f at hres
  generalize hd3 : setOpacity G.ref "0" (appendChild F.ref
      (Forest.node (removedInput s.nextRef f) Forest.nil Forest.nil)
      (removeRef H.ref s.doc)) = d3 at hres
  have hmemd3 : ∀ y ∈ d3.refs, y ∈ (removeRef H.ref s.doc).refs ∨ y = s.nextRef := by
    intro y hy
    rw [← hd3, refs_setOpacity] at hy
    rcases mem_refs_appendChild.1 hy with h | ⟨_, h⟩
    · exact Or.inl h
    · exact Or.inr (by simpa [removedInput] using h)
  have hndd3 : d3.refs.Nodup := by
    rw [← hd3, refs_setOpacity]
    refine nodup_appendChild (nodup_removeRef hnd) (by simp) ?_
    intro y hy h
    simp only [refs_node, refs_nil, List.append_nil, List.mem_singleton, removedInput] at hy
    have := hfresh y ((refs_removeRef_sublist _ _).subset h)
    omega
  -- the second click, and the place of the control, in both cases
  have hsecond : (clickHandler (clickHandler s t).1 t).1 = (clickHandler s t).1
      ∧ (t ∈ d3.refs → Within G.ref t d3) := by
    rw [hres]
    by_cases htH : t = H.ref
    · have hnot : t ∉ d3.refs := by
        intro h
        rcases hmemd3 t h with h1 | h1
        · exact not_mem_refs_removeRef H.ref s.doc (htH ▸ h1)
        · omega
      refine ⟨?_, fun h => absurd h hnot⟩
      rw [clickHandler_detached (by exact hnot)]
    · obtain ⟨hcl, hnone⟩ := closest_after_removal (F := F) (f := f) hnd hfresh hitem hone
        hvoid hout htH
      rw [hd3] at hcl
      have htgt3 : d3.getByRef t = some (tgt.setOpacityAt G.ref "0",
          setOpacity G.ref "0" (appendChild F.ref
            (Forest.node (removedInput s.nextRef f) Forest.nil Forest.nil)
            (removeRef H.ref tk))) := by
        rw [← hd3]
        unfold getByRef at htgt ⊢
        rw [querySelector_setOpacity _ _ (by intro e; simp),
          querySelector_appendChild _ (by
            intro e he
            simp only [elems_node, elems_nil, List.append_nil, List.mem_singleton] at he
            subst he
            simp only [removedInput, beq_eq_false_iff_ne, ne_eq]
            omega),
          querySelector_removeRef, htgt]
        · have hts := (querySelector_some htgt).2
          simp only [beq_iff_eq] at hts
          have htF : ¬ tgt.ref = F.ref := by
            intro h
            have hFG : F.ref = G.ref ∨ F.ref ∈ gk.refs := by
              rw [← h, hts]; exact hG.2.2
            exact hout (List.mem_cons.2 hFG)
          simp [opSub, acSub, rmSub, htF]
        · intro n hn hw
          rw [htgt] at hn
          simp only [Option.some.injEq] at hn
          subst hn
          have hts := (querySelector_some htgt).2
          simp only [beq_iff_eq] at hts
          exact htH (hts ▸ hw.eq_of_leaf (leaf_of_mem hnd hHd))
      have hcls3 : (tgt.setOpacityAt G.ref "0").hasClass "remove-image" = true := by
        simpa [Elem.hasClass] using hcls
      refine ⟨?_, fun _ => ?_⟩
      · simp [clickHandler, htgt3, hcls3, hcl, hnone]
      · have h3 := closest_spec hcl
        exact ⟨_, h3.1, by simp, by simpa using h3.2.2⟩
  -- the state once every pending timer has fired
  have htimers := run_timers (s.timers ++ [G.ref])
    { s with doc := d3, nextRef := s.nextRef + 1, timers := s.timers ++ [G.ref] } rfl
  simp only [List.length_append, List.length_singleton] at htimers
  have hnot2 : t ∉ (run (clickHandler s t).1
      (List.replicate (s.timers.length + 1) Event.timer)).doc.refs := by
    rw [hres, htimers.1, List.foldl_append, List.foldl_cons, List.foldl_nil,
      foldl_removeRef_comm]
    intro h
    have h1 := refs_foldl_removeRef_subset _ _ h
    have h2 : t ∈ d3.refs := (refs_removeRef_sublist _ _).subset h1
    exact not_mem_refs_removeRef_of_within hndd3 (hsecond.2 h2) h1
  have hclick2 : clickHandler (run (clickHandler s t).1
      (List.replicate (s.timers.length + 1) Event.timer)) t
      = (run (clickHandler s t).1 (List.replicate (s.timers.length + 1) Event.timer), none) :=
    clickHandler_detached hnot2
  refine ⟨by rw [hres], hsecond.1, hnot2, hclick2, ?_⟩
  simp only [step]
  split
  · rfl
  · rw [hclick2]; split <;> rfl

/-- C10 on the sample page: a second click on the remove control of `x.jpg`. -/
theorem C10_second_click_no_effect_witness :
    (clickHandler sampleState 8).2 = none
    ∧ (clickHandler (clickHandler sampleState 8).1 8).1 = (clickHandler sampleState 8).1
    ∧ 8 ∉ (run (clickHandler sampleState 8).1
        (List.replicate (sampleState.timers.length + 1) Event.timer)).doc.refs
    ∧ clickHandler (run (clickHandler sampleState 8).1
          (List.replicate (sampleState.timers.length + 1) Event.timer)) 8
        = (run (clickHandler sampleState 8).1
            (List.replicate (sampleState.timers.length + 1) Event.timer), none)
    ∧ step (run (clickHandler sampleState 8).1
          (List.replicate (sampleState.timers.length + 1) Event.timer)) (Event.click 8)
        = run (clickHandler sampleState 8).1
            (List.replicate (sampleState.timers.length + 1) Event.timer) :=
  C10_second_click_no_effect sampleState 8
    (el 8 "button" ["remove-image"] [("data-filename", "x.jpg")])
    (el 5 "div" ["gallery-item"] [])
    (el 7 "input" [] [("type", "hidden"), ("name", "gallery_images"), ("value", "x.jpg")])
    (el 3 "form" [] []) (leaf (el 9 "span" [] []) Forest.nil) sampleItemX sampleFormKids
    (by decide) (by decide) (by decide) (by decide) (by decide) (by decide) (by decide)
    (by decide)

end Gallery
